import Mathlib

/-!
# openchainTracer: the trace-tree construction engine

A shallow embedding of `openchain.go` and a verification of its specification.

The Go tracer keeps pointers: `callstack []*callRecord` aliases the records that
also sit in their parent's `Children`.  The embedding keeps that aliasing by an
explicit heap: `heap` lists every record the tracer allocated, in allocation
order, and a pointer is an index into it.  A callback that indexes an empty
`callstack` panics in Go; here it returns `none`.

The host interface (`vm.VMInterface`, `vm.ScopeContext`, `vm.OpCode`, the Keccak
hasher, `json.Marshal`) is not part of the repository.  What the tracer reads
through it is passed in: the answer of `t.env.IntraBlockState()` at the time of
a callback is the callback's `env` argument, the operand stack and the memory
are accessors, and the hasher is a function from bytes to digest.  The field
`t.env` itself is only the handle stored by `CaptureStart`; it is set whenever
the callstack is non-empty, and every callback that reads it on a fresh tracer
also indexes the empty callstack, so the handle carries no state of its own.

Arguments the Go callbacks ignore (`pc`, `gas`, `cost`, `rData`, `depth`, `err`
of `CaptureState`, `code` of `CaptureStart` and `CaptureEnter`, everything of
`CaptureFault` and `Stop`) are left out.
-/

namespace Openchain

/-! ## Data model -/

/-- A `libcommon.Hash`: 32 bytes, read as a number. -/
abbrev Hash := Nat

/-- A `libcommon.Address`: 20 bytes, read as a number. -/
abbrev Address := Nat

/-- A byte string (`[]byte`, `hexutility.Bytes`). -/
abbrev Bytes := List Nat

/-- A `uint256.Int`. -/
abbrev U256 := Nat

/-- The type `sloadRecord`. -/
structure sloadRecord where
  Path : String
  Slot : Hash
  Type_ : String
  Value : Hash
deriving DecidableEq, Repr

/-- The type `sstoreRecord`. -/
structure sstoreRecord where
  Path : String
  Slot : Hash
  Type_ : String
  NewValue : Hash
  OldValue : Hash
deriving DecidableEq, Repr

/-- The type `logRecord`. -/
structure logRecord where
  Path : String
  Data : Bytes
  Topics : List Hash
  Type_ : String
deriving DecidableEq, Repr

/-- The type `callRecord`.  `Children` holds pointers (heap indices); `Value` is
a `*uint256.Int`, `none` being the nil pointer; `Status` is a Go `int`. -/
structure callRecord where
  Path : String
  Children : List Nat
  Codehash : Hash
  From : Address
  Gas : Nat
  GasUsed : Nat
  Input : Bytes
  IsPrecompile : Bool
  Output : Bytes
  Status : Int
  To : Address
  Type_ : String
  Value : Option U256
  Variant : String
  create : Bool
deriving DecidableEq, Repr

/-- The literal `&callRecord{Children: []anyRecord{}}`: every field has its zero value. -/
def callRecord.empty : callRecord :=
  { Path := "", Children := [], Codehash := 0, From := 0, Gas := 0, GasUsed := 0,
    Input := [], IsPrecompile := false, Output := [], Status := 0, To := 0,
    Type_ := "", Value := none, Variant := "", create := false }

/-- What an `anyRecord` interface value points to: one of the four record types. -/
inductive anyRecord where
  | sload (r : sloadRecord)
  | sstore (r : sstoreRecord)
  | log (r : logRecord)
  | call (r : callRecord)
deriving DecidableEq, Repr

/-- The `Path` field of a record, whatever its type. -/
def anyRecord.Path : anyRecord → String
  | .sload r => r.Path
  | .sstore r => r.Path
  | .log r => r.Path
  | .call r => r.Path

/-- The assignment `r.Path = p` on a record of any type. -/
def anyRecord.setPath (p : String) : anyRecord → anyRecord
  | .sload r => .sload { r with Path := p }
  | .sstore r => .sstore { r with Path := p }
  | .log r => .log { r with Path := p }
  | .call r => .call { r with Path := p }

/-- The type `addressData`.  The three maps are `map[string]interface{}`; the
tracer only ever creates them empty. -/
structure addressData where
  Errors : List (String × String)
  Events : List (String × String)
  Functions : List (String × String)
  Label : String
deriving DecidableEq, Repr

/-- The literal `&addressData{...}` written by `finish`: three empty maps and an empty label. -/
def addressData.placeholder : addressData :=
  { Errors := [], Events := [], Functions := [], Label := "" }

/-- A Go map: at most one value per key. -/
abbrev GoMap (K V : Type) := AList (fun _ : K => V)

/-- The map read `m[k]`, with the `ok` flag as the option. -/
def GoMap.get {K V : Type} [DecidableEq K] (m : GoMap K V) (k : K) : Option V :=
  AList.lookup k m

/-- The map write `m[k] = v`. -/
def GoMap.set {K V : Type} [DecidableEq K] (m : GoMap K V) (k : K) (v : V) : GoMap K V :=
  AList.insert k v m

/-- The map `map[libcommon.Hash]hexutility.Bytes`. -/
abbrev PreimageLedger := GoMap Hash Bytes

/-- The inner map `map[libcommon.Hash]*addressData`. -/
abbrev CodeHashMap := GoMap Hash addressData

/-- The map `map[libcommon.Address]map[libcommon.Hash]*addressData`. -/
abbrev AddressBook := GoMap Address CodeHashMap

/-- The entry of the book for a pair (address, code hash), if there is one. -/
def AddressBook.get (A : AddressBook) (a : Address) (h : Hash) : Option addressData :=
  match GoMap.get A a with
  | some m => GoMap.get m h
  | none => none

/-- All entries of the book, one triple per (address, code hash) pair. -/
def AddressBook.triples (A : AddressBook) : List (Address × Hash × addressData) :=
  A.entries.flatMap (fun e => e.2.entries.map (fun f => (e.1, f.1, f.2)))

/-- The type `openchainTracer` (without the embedded `noopTracer` and the `env` handle). -/
structure openchainTracer where
  heap : List anyRecord
  callstack : List Nat
  hasher : Bytes → Hash
  hasherBuf : Hash
  preimages : PreimageLedger
  addresses : AddressBook

/-- The function `newOpenchainTracer`; the Keccak-256 hasher is a parameter. -/
def newOpenchainTracer (keccak256 : Bytes → Hash) : openchainTracer :=
  { heap := [], callstack := [], hasher := keccak256, hasherBuf := 0,
    preimages := ∅, addresses := ∅ }

/-! ## Host interface -/

/-- Modelled from the spec: the state accessor of the host (`getCodeHash(address)`,
`getStoredValue(address, slot)`), as it answers during one callback. -/
structure IntraBlockState where
  GetCodeHash : Address → Hash
  GetState : Address → Hash → U256

/-- Modelled from the spec: the stack-like operand accessor of a step event,
indexed from the top; the host delivers a step event only after it has checked
that the operands of the opcode are there. -/
structure Stack where
  Back : Nat → U256

/-- The accessor `Stack.Peek`: the top operand. -/
def Stack.Peek (st : Stack) : U256 := st.Back 0

/-- Modelled from the spec: the memory view of a step event, exposing bounded
reads by offset and size (`GetCopy` returns a copy, `GetPtr` the region itself). -/
structure Memory where
  GetCopy : Int → Int → Bytes
  GetPtr : Int → Int → Bytes

/-- The executing contract of a step event (`scope.Contract.Address()`). -/
structure Contract where
  Address : Address

/-- The type `vm.ScopeContext`. -/
structure ScopeContext where
  Stack : Stack
  Memory : Memory
  Contract : Contract

/-- A `vm.OpCode`: one byte. -/
abbrev OpCode := Nat

/-- Modelled from the spec: the opcode constants of the host VM, which are not
part of this repository; the values are the EVM instruction bytes. -/
def vm.KECCAK256 : OpCode := 0x20
/-- The opcode `SLOAD`. -/
def vm.SLOAD : OpCode := 0x54
/-- The opcode `SSTORE`. -/
def vm.SSTORE : OpCode := 0x55
/-- The opcode `LOG0`. -/
def vm.LOG0 : OpCode := 0xa0
/-- The opcode `LOG1`. -/
def vm.LOG1 : OpCode := 0xa1
/-- The opcode `LOG2`. -/
def vm.LOG2 : OpCode := 0xa2
/-- The opcode `LOG3`. -/
def vm.LOG3 : OpCode := 0xa3
/-- The opcode `LOG4`. -/
def vm.LOG4 : OpCode := 0xa4
/-- The opcode `CREATE`. -/
def vm.CREATE : OpCode := 0xf0
/-- The opcode `CALL`. -/
def vm.CALL : OpCode := 0xf1
/-- The opcode `CALLCODE`. -/
def vm.CALLCODE : OpCode := 0xf2
/-- The opcode `DELEGATECALL`. -/
def vm.DELEGATECALL : OpCode := 0xf4
/-- The opcode `CREATE2`. -/
def vm.CREATE2 : OpCode := 0xf5
/-- The opcode `STATICCALL`. -/
def vm.STATICCALL : OpCode := 0xfa

/-- Modelled from the spec: the name of an opcode (`typ.String()`), for the six
call-like kinds; the host's rendering of any other byte is its "not defined" text. -/
def OpCode.String (op : OpCode) : String :=
  if op = vm.CALL then "CALL"
  else if op = vm.STATICCALL then "STATICCALL"
  else if op = vm.DELEGATECALL then "DELEGATECALL"
  else if op = vm.CALLCODE then "CALLCODE"
  else if op = vm.CREATE then "CREATE"
  else if op = vm.CREATE2 then "CREATE2"
  else "opcode " ++ toString op ++ " not defined"

/-- The function `strings.ToLower`. -/
def strings.ToLower (s : String) : String := String.mk (s.data.map Char.toLower)

/-- The function `strconv.Itoa` on a slice length. -/
def strconv.Itoa (n : Nat) : String := toString n

/-- The function `common.CopyBytes`. -/
def common.CopyBytes (b : Bytes) : Bytes := b

/-- The conversion `int64(x.Uint64())`: the low 64 bits of `x`, read as a signed number. -/
def int64OfUint64 (x : U256) : Int :=
  if x % 2 ^ 64 < 2 ^ 63 then ((x % 2 ^ 64 : Nat) : Int) else ((x % 2 ^ 64 : Nat) : Int) - 2 ^ 64

/-! ## The callbacks -/

/-- The method `callRecord.finish`, on the record at pointer `r`. -/
def callRecord.finish (t : openchainTracer) (r : Nat) (env : IntraBlockState)
    (output : Bytes) (gasUsed : Nat) (err : Option String) : Option openchainTracer :=
  match t.heap[r]? with
  | some (.call c) =>
    let c := { c with GasUsed := gasUsed }
    let c := { c with Output := common.CopyBytes output }
    let c := { c with Status := 1 }
    let c := if err.isSome then { c with Status := 0 } else c
    let c := if c.create then { c with Codehash := env.GetCodeHash c.To } else c
    let (addresses, hmap) : AddressBook × CodeHashMap :=
      match GoMap.get t.addresses c.To with
      | some hmap => (t.addresses, hmap)
      | none => (GoMap.set t.addresses c.To ∅, ∅)
    let addresses : AddressBook :=
      if (GoMap.get hmap c.Codehash).isNone then
        GoMap.set addresses c.To (GoMap.set hmap c.Codehash addressData.placeholder)
      else addresses
    some { t with heap := t.heap.set r (.call c), addresses := addresses }
  | _ => none

/-- The method `pushRecord`, for the record at pointer `r`: the path it returns
and the tracer after the append. -/
def pushRecord (t : openchainTracer) (r : Nat) : Option (String × openchainTracer) :=
  match t.callstack.getLast? with
  | none => none
  | some lst =>
    match t.heap[lst]? with
    | some (.call c) =>
      let res := c.Path ++ "." ++ strconv.Itoa c.Children.length
      some (res, { t with heap := t.heap.set lst (.call { c with Children := c.Children ++ [r] }) })
    | _ => none

/-- Allocation of a record (`&T{...}`): the new pointer and the tracer holding the record. -/
def alloc (t : openchainTracer) (r : anyRecord) : Nat × openchainTracer :=
  (t.heap.length, { t with heap := t.heap ++ [r] })

/-- The statement `r.Path = t.pushRecord(r)`. -/
def pushAndSetPath (t : openchainTracer) (r : Nat) : Option openchainTracer :=
  match pushRecord t r with
  | none => none
  | some (res, t) =>
    match t.heap[r]? with
    | some rec => some { t with heap := t.heap.set r (rec.setPath res) }
    | none => none

/-- The method `CaptureStart`. -/
def CaptureStart (t : openchainTracer) (env : IntraBlockState) (from_ to_ : Address)
    (precompile create : Bool) (input : Bytes) (gas : Nat) (value : Option U256) :
    Option openchainTracer :=
  let (r, t) := alloc t (.call
    { Path := "0", Children := [], Codehash := env.GetCodeHash to_, From := from_, Gas := gas,
      GasUsed := 0, Input := common.CopyBytes input, IsPrecompile := precompile, Output := [],
      Status := 0, To := to_, Type_ := "call", Value := value, Variant := "call",
      create := create })
  let t := { t with callstack := t.callstack ++ [r] }
  if create then
    match t.callstack[0]? with
    | some p =>
      match t.heap[p]? with
      | some (.call c) => some { t with heap := t.heap.set p (.call { c with Variant := "create" }) }
      | _ => none
    | none => none
  else some t

/-- The method `CaptureEnd`. -/
def CaptureEnd (t : openchainTracer) (env : IntraBlockState) (output : Bytes) (gasUsed : Nat)
    (err : Option String) : Option openchainTracer :=
  match t.callstack[0]? with
  | none => none
  | some r => callRecord.finish t r env output gasUsed err

/-- Whether the opcode is one of `CALL`, `STATICCALL`, `CALLCODE`, `DELEGATECALL`, `CREATE`, `CREATE2`. -/
def isCallLike (op : OpCode) : Bool :=
  op = vm.CALL || op = vm.STATICCALL || op = vm.CALLCODE || op = vm.DELEGATECALL
    || op = vm.CREATE || op = vm.CREATE2

/-- Whether the opcode is one of `LOG0` .. `LOG4`. -/
def isLog (op : OpCode) : Bool :=
  op = vm.LOG0 || op = vm.LOG1 || op = vm.LOG2 || op = vm.LOG3 || op = vm.LOG4

/-- The method `CaptureState`. -/
def CaptureState (t : openchainTracer) (env : IntraBlockState) (op : OpCode)
    (scope : ScopeContext) : Option openchainTracer :=
  if op = vm.SLOAD then
    let slot : Hash := scope.Stack.Peek
    let value : U256 := env.GetState scope.Contract.Address slot
    let (r, t) := alloc t (.sload { Path := "", Slot := slot, Type_ := "sload", Value := value })
    pushAndSetPath t r
  else if op = vm.SSTORE then
    let slot : Hash := scope.Stack.Peek
    let newValue : Hash := scope.Stack.Back 1
    let oldValue : U256 := env.GetState scope.Contract.Address slot
    let (r, t) := alloc t (.sstore
      { Path := "", Slot := slot, Type_ := "sstore", OldValue := oldValue, NewValue := newValue })
    pushAndSetPath t r
  else if isLog op then
    let size := op - vm.LOG0
    let stack := scope.Stack
    let mStart := stack.Back 0
    let mSize := stack.Back 1
    let topics : List Hash := (List.range size).map (fun i => stack.Back (i + 2))
    let data := scope.Memory.GetCopy (int64OfUint64 mStart) (int64OfUint64 mSize)
    let (r, t) := alloc t (.log { Path := "", Data := data, Topics := topics, Type_ := "log" })
    pushAndSetPath t r
  else if op = vm.KECCAK256 then
    let offset := scope.Stack.Peek
    let size := scope.Stack.Back 1
    let data := scope.Memory.GetPtr (int64OfUint64 offset) (int64OfUint64 size)
    let t := { t with hasherBuf := t.hasher data }
    some { t with preimages := GoMap.set t.preimages t.hasherBuf (common.CopyBytes data) }
  else if isCallLike op then
    let (r, t) := alloc t (.call callRecord.empty)
    match pushAndSetPath t r with
    | none => none
    | some t => some { t with callstack := t.callstack ++ [r] }
  else some t

/-- The method `CaptureFault`: it does nothing. -/
def CaptureFault (t : openchainTracer) : Option openchainTracer := some t

/-- The method `CaptureEnter`. -/
def CaptureEnter (t : openchainTracer) (env : IntraBlockState) (typ : OpCode)
    (from_ to_ : Address) (precompile _create : Bool) (input : Bytes) (gas : Nat)
    (value : Option U256) : Option openchainTracer :=
  match t.callstack.getLast? with
  | none => none
  | some r =>
    match t.heap[r]? with
    | some (.call c) =>
      let c := { c with Codehash := env.GetCodeHash to_ }
      let c := { c with From := from_ }
      let c := { c with Gas := gas }
      let c := { c with Input := common.CopyBytes input }
      let c := { c with IsPrecompile := precompile }
      let c := { c with To := to_ }
      let c := { c with Type_ := "call" }
      let c := match value with
        | some v => { c with Value := some v }
        | none => { c with Value := some 0 }
      let c := { c with Variant := strings.ToLower (OpCode.String typ) }
      let c := { c with create := (typ = vm.CREATE || typ = vm.CREATE2) }
      some { t with heap := t.heap.set r (.call c) }
    | _ => none

/-- The method `CaptureExit`. -/
def CaptureExit (t : openchainTracer) (env : IntraBlockState) (output : Bytes) (gasUsed : Nat)
    (err : Option String) : Option openchainTracer :=
  match t.callstack.getLast? with
  | none => none
  | some r =>
    match callRecord.finish t r env output gasUsed err with
    | none => none
    | some t => some { t with callstack := t.callstack.dropLast }

/-- The method `Stop`: it does nothing. -/
def Stop (t : openchainTracer) : Option openchainTracer := some t

/-! ## Result assembly -/

/-- The logical shape of the serialised trace: a record with its children
dereferenced.  The `callRecord` of a call node is the frame itself. -/
inductive TraceNode where
  | sload (r : sloadRecord)
  | sstore (r : sstoreRecord)
  | log (r : logRecord)
  | call (r : callRecord) (children : List TraceNode)
deriving Repr

/-- The marshaller on a slice: the elements in order, giving up at the first failure. -/
def marshalList (f : Nat → Option TraceNode) : List Nat → Option (List TraceNode)
  | [] => some []
  | c :: cs =>
    match f c with
    | none => none
    | some t =>
      match marshalList f cs with
      | none => none
      | some ts => some (t :: ts)

/-- The walk `json.Marshal` makes from the pointer `p`: every pointer is followed;
`none` when the walk does not end within `fuel` levels (the marshaller gives up
on a cyclic value with an error). -/
def marshalNode (heap : List anyRecord) : Nat → Nat → Option TraceNode
  | 0, _ => none
  | fuel + 1, p =>
    match heap[p]? with
    | none => none
    | some (.sload r) => some (.sload r)
    | some (.sstore r) => some (.sstore r)
    | some (.log r) => some (.log r)
    | some (.call r) =>
      match marshalList (marshalNode heap fuel) r.Children with
      | none => none
      | some children => some (.call r children)

/-- The anonymous struct `st` of `GetResult`, with the entrypoint dereferenced. -/
structure Result where
  Entrypoint : TraceNode
  Preimages : PreimageLedger
  Addresses : AddressBook

/-- The method `GetResult`.  The marshaller's byte encoding is left to it; the
value returned is the record it encodes. -/
def GetResult (t : openchainTracer) : Except String Result :=
  if t.callstack.length ≠ 1 then
    .error "incorrect number of top-level calls"
  else
    match t.callstack[0]? with
    | none => .error "incorrect number of top-level calls"
    | some p =>
      match marshalNode t.heap (t.heap.length + 1) p with
      | none => .error "json: unsupported value: encountered a cycle"
      | some tree => .ok { Entrypoint := tree, Preimages := t.preimages, Addresses := t.addresses }

/-! ## Event sequences -/

/-- One callback of the host, with its arguments. -/
inductive Event where
  | CaptureStart (env : IntraBlockState) (from_ to_ : Address) (precompile create : Bool)
      (input : Bytes) (gas : Nat) (value : Option U256)
  | CaptureEnd (env : IntraBlockState) (output : Bytes) (gasUsed : Nat) (err : Option String)
  | CaptureState (env : IntraBlockState) (op : OpCode) (scope : ScopeContext)
  | CaptureFault
  | CaptureEnter (env : IntraBlockState) (typ : OpCode) (from_ to_ : Address)
      (precompile create : Bool) (input : Bytes) (gas : Nat) (value : Option U256)
  | CaptureExit (env : IntraBlockState) (output : Bytes) (gasUsed : Nat) (err : Option String)
  | Stop

/-- One callback applied to the tracer; `none` when the callback panics. -/
def step (t : openchainTracer) : Event → Option openchainTracer
  | .CaptureStart env from_ to_ precompile create input gas value =>
    CaptureStart t env from_ to_ precompile create input gas value
  | .CaptureEnd env output gasUsed err => CaptureEnd t env output gasUsed err
  | .CaptureState env op scope => CaptureState t env op scope
  | .CaptureFault => CaptureFault t
  | .CaptureEnter env typ from_ to_ precompile create input gas value =>
    CaptureEnter t env typ from_ to_ precompile create input gas value
  | .CaptureExit env output gasUsed err => CaptureExit t env output gasUsed err
  | .Stop => Stop t

/-- A sequence of callbacks, in order; `none` as soon as one panics. -/
def run (t : openchainTracer) : List Event → Option openchainTracer
  | [] => some t
  | e :: es =>
    match step t e with
    | none => none
    | some t => run t es


/-! ## Notions used by the statements -/

mutual
/-- Number of nodes of a tree: call frames and storage-read, storage-write and log leaves. -/
def TraceNode.size : TraceNode → Nat
  | .sload _ => 1
  | .sstore _ => 1
  | .log _ => 1
  | .call _ ts => 1 + TraceNode.sizeList ts
/-- Number of nodes of a list of trees. -/
def TraceNode.sizeList : List TraceNode → Nat
  | [] => 0
  | t :: ts => t.size + TraceNode.sizeList ts
end

/-- The `Path` field of the root of a tree. -/
def TraceNode.Path : TraceNode → String
  | .sload r => r.Path
  | .sstore r => r.Path
  | .log r => r.Path
  | .call r _ => r.Path

mutual
/-- The tree `t` is the record at pointer `p` with every child pointer dereferenced, recursively. -/
def Describes (h : List anyRecord) : TraceNode → Nat → Prop
  | .sload r, p => h[p]? = some (.sload r)
  | .sstore r, p => h[p]? = some (.sstore r)
  | .log r, p => h[p]? = some (.log r)
  | .call r ts, p => h[p]? = some (.call r) ∧ DescribesList h ts r.Children
/-- The trees are the records at the pointers, one by one and in order. -/
def DescribesList (h : List anyRecord) : List TraceNode → List Nat → Prop
  | [], cs => cs = []
  | t :: ts, cs => ∃ c cs', cs = c :: cs' ∧ Describes h t c ∧ DescribesList h ts cs'
end

/-- Pointer discipline of the heap: a child was allocated after its parent, every
child pointer and every stack pointer is allocated, and stack pointers are call records. -/
def HeapOk (h : List anyRecord) (st : List Nat) : Prop :=
  (∀ p c, h[p]? = some (.call c) → ∀ q ∈ c.Children, p < q ∧ q < h.length) ∧
  (∀ p ∈ st, ∃ c, h[p]? = some (.call c))

/-- The record `finish` leaves in place of `c`. -/
def finished (c : callRecord) (env : IntraBlockState) (output : Bytes) (gasUsed : Nat)
    (err : Option String) : callRecord :=
  { c with
    GasUsed := gasUsed
    Output := output
    Status := if err.isSome then 0 else 1
    Codehash := if c.create then env.GetCodeHash c.To else c.Codehash }

/-- The book `finish` leaves in place of `A` for the pair `(a, h)`. -/
def registered (A : AddressBook) (a : Address) (h : Hash) : AddressBook :=
  match GoMap.get A a with
  | some hmap =>
    if (GoMap.get hmap h).isNone then GoMap.set A a (GoMap.set hmap h addressData.placeholder)
    else A
  | none => GoMap.set A a (GoMap.set ∅ h addressData.placeholder)

/-- The record `CaptureEnter` leaves in place of `c`. -/
def entered (c : callRecord) (env : IntraBlockState) (typ : OpCode) (from_ to_ : Address)
    (precompile : Bool) (input : Bytes) (gas : Nat) (value : Option U256) : callRecord :=
  { c with
    Codehash := env.GetCodeHash to_
    From := from_
    Gas := gas
    Input := input
    IsPrecompile := precompile
    To := to_
    Type_ := "call"
    Value := some (value.getD 0)
    Variant := strings.ToLower (OpCode.String typ)
    create := (typ = vm.CREATE || typ = vm.CREATE2) }

/-- The heap after a new record `rec` has been allocated, appended to the children
of the frame `c` at pointer `p`, and given its path. -/
def appendChild (h : List anyRecord) (p : Nat) (c : callRecord) (rec : anyRecord) :
    List anyRecord :=
  h.set p (.call { c with Children := c.Children ++ [h.length] }) ++
    [rec.setPath (c.Path ++ "." ++ strconv.Itoa c.Children.length)]

/-- The leaf record a step event allocates, for `SLOAD`, `SSTORE` and `LOG0` .. `LOG4`. -/
def leafRecord (env : IntraBlockState) (op : OpCode) (scope : ScopeContext) : Option anyRecord :=
  if op = vm.SLOAD then
    some (.sload { Path := "", Slot := scope.Stack.Peek, Type_ := "sload",
                   Value := env.GetState scope.Contract.Address scope.Stack.Peek })
  else if op = vm.SSTORE then
    some (.sstore { Path := "", Slot := scope.Stack.Peek, Type_ := "sstore",
                    OldValue := env.GetState scope.Contract.Address scope.Stack.Peek,
                    NewValue := scope.Stack.Back 1 })
  else if isLog op then
    some (.log { Path := "",
                 Data := scope.Memory.GetCopy (int64OfUint64 (scope.Stack.Back 0))
                   (int64OfUint64 (scope.Stack.Back 1)),
                 Topics := (List.range (op - vm.LOG0)).map (fun i => scope.Stack.Back (i + 2)),
                 Type_ := "log" })
  else none

/-- The root record `CaptureStart` allocates, with the variant it ends up with on a tracer
whose callstack was empty. -/
def rootRecord (env : IntraBlockState) (from_ to_ : Address) (precompile create : Bool)
    (input : Bytes) (gas : Nat) (value : Option U256) : callRecord :=
  { Path := "0", Children := [], Codehash := env.GetCodeHash to_, From := from_, Gas := gas,
    GasUsed := 0, Input := input, IsPrecompile := precompile, Output := [],
    Status := 0, To := to_, Type_ := "call", Value := value,
    Variant := if create then "create" else "call", create := create }

/-- The (address, code hash) keys of the book, one per entry. -/
def AddressBook.pairs (A : AddressBook) : List (Address × Hash) :=
  A.triples.map (fun e => (e.1, e.2.1))

/-! ## Sample inputs -/

/-- A sample state accessor: the code hash of `a` is `a + 100`, the value at a slot is `a + slot`. -/
def sampleEnv : IntraBlockState := ⟨fun a => a + 100, fun a s => a + s⟩

/-- A sample step context: operand `n` from the top is `n + 7`, the contract is address 5. -/
def sampleScope : ScopeContext := ⟨⟨fun n => n + 7⟩, ⟨fun _ _ => [1, 2], fun _ _ => [3]⟩, ⟨5⟩⟩

/-- A sample hasher: the digest of a byte string is its length. -/
def sampleHasher : Bytes → Hash := fun b => b.length

/-- The root callback of the sample traces: a plain call from address 1 to address 2. -/
def sampleStart : Event := .CaptureStart sampleEnv 1 2 false false [] 10 none

/-- The tracer after `sampleStart` on a fresh tracer. -/
def sampleTracer : openchainTracer :=
  { heap := [.call (rootRecord sampleEnv 1 2 false false [] 10 none)], callstack := [0],
    hasher := sampleHasher, hasherBuf := 0, preimages := ∅, addresses := ∅ }

/-- The step events of a list of (state accessor, opcode, step context) triples. -/
def stepEvents (steps : List (IntraBlockState × OpCode × ScopeContext)) : List Event :=
  steps.map (fun s => .CaptureState s.1 s.2.1 s.2.2)

mutual
/-- The tree `t` is laid out in the heap from pointer `p` on, in the order its nodes were
allocated (parent first, then each child's subtree in turn), and its root carries `path`. -/
def Layout (h : List anyRecord) : TraceNode → Nat → String → Prop
  | .sload r, p, path => h[p]? = some (.sload r) ∧ r.Path = path
  | .sstore r, p, path => h[p]? = some (.sstore r) ∧ r.Path = path
  | .log r, p, path => h[p]? = some (.log r) ∧ r.Path = path
  | .call r ts, p, path =>
    h[p]? = some (.call r) ∧ r.Path = path ∧ LayoutList h ts (p + 1) path 0 r.Children
/-- The trees `ts` are laid out one after the other from pointer `lo` on; they are the
children number `i`, `i + 1`, ... of a frame with path `path`, and `cs` are their pointers. -/
def LayoutList (h : List anyRecord) : List TraceNode → Nat → String → Nat → List Nat → Prop
  | [], _, _, _, cs => cs = []
  | t :: ts, lo, path, i, cs =>
    ∃ cs', cs = lo :: cs' ∧ Layout h t lo (path ++ "." ++ strconv.Itoa i) ∧
      LayoutList h ts (lo + t.size) path (i + 1) cs'
end

/-- The frame at pointer `p` is open, the frames above it on the stack are `rest`, and each
open frame is the last child of the one below it; the children before it are complete trees. -/
def Spine (h : List anyRecord) : Nat → String → List Nat → Prop
  | p, path, [] =>
    ∃ r ts, h[p]? = some (.call r) ∧ r.Path = path ∧
      LayoutList h ts (p + 1) path 0 r.Children ∧ p + 1 + TraceNode.sizeList ts = h.length
  | p, path, q :: rest =>
    ∃ r cs ts, h[p]? = some (.call r) ∧ r.Path = path ∧ r.Children = cs ++ [q] ∧
      LayoutList h ts (p + 1) path 0 cs ∧ p + 1 + TraceNode.sizeList ts = q ∧
      Spine h q (path ++ "." ++ strconv.Itoa cs.length) rest

/-- Shape of the heap and the stack after one `CaptureStart`: the heap is one tree rooted at
pointer 0 with path "0", and the stack is a branch of it starting at the root, or is empty. -/
def Inv (h : List anyRecord) (st : List Nat) : Prop :=
  match st with
  | [] => ∃ tree, Layout h tree 0 "0" ∧ tree.size = h.length
  | p :: rest => p = 0 ∧ Spine h 0 "0" rest

/-- The tree of a record that has no children yet. -/
def nodeOf : anyRecord → TraceNode
  | .sload r => .sload r
  | .sstore r => .sstore r
  | .log r => .log r
  | .call r => .call r []

/-- Whether the event is the root callback `CaptureStart`. -/
def Event.isStart : Event → Bool
  | .CaptureStart .. => true
  | _ => false

/-- A well-nested body of events: single-step events and bracketed nested calls, each nested
call being a call-like step event, directly followed by its `CaptureEnter`, a well-nested
body, and its `CaptureExit`. -/
inductive Block : List Event → Prop
  | nil : Block []
  | step (env : IntraBlockState) (op : OpCode) (scope : ScopeContext) {rest : List Event} :
      isCallLike op = false → Block rest → Block (.CaptureState env op scope :: rest)
  | call (env : IntraBlockState) (op : OpCode) (scope : ScopeContext)
      (env1 : IntraBlockState) (typ : OpCode) (from_ to_ : Address) (precompile create : Bool)
      (input : Bytes) (gas : Nat) (value : Option U256) {inner : List Event}
      (env2 : IntraBlockState) (output : Bytes) (gasUsed : Nat) (err : Option String)
      {rest : List Event} :
      isCallLike op = true → Block inner → Block rest →
      Block (.CaptureState env op scope ::
        .CaptureEnter env1 typ from_ to_ precompile create input gas value ::
        (inner ++ .CaptureExit env2 output gasUsed err :: rest))

/-- A well-nested complete event sequence: one `CaptureStart`, a well-nested body, one
`CaptureEnd`. -/
def WellNested (evs : List Event) : Prop :=
  ∃ (env : IntraBlockState) (from_ to_ : Address) (precompile create : Bool) (input : Bytes)
    (gas : Nat) (value : Option U256) (body : List Event) (env1 : IntraBlockState)
    (output : Bytes) (gasUsed : Nat) (err : Option String),
    evs = .CaptureStart env from_ to_ precompile create input gas value ::
      (body ++ [.CaptureEnd env1 output gasUsed err]) ∧ Block body

/-- Whether a step event with this opcode appends a child: `SLOAD`, `SSTORE`, `LOG0` .. `LOG4`
and the call-like opcodes do. -/
def appends (op : OpCode) : Bool :=
  op = vm.SLOAD || op = vm.SSTORE || isLog op || isCallLike op

/-- The number of step events of the sequence that append a child. -/
def countAppends : List Event → Nat
  | [] => 0
  | .CaptureState _ op _ :: es => (if appends op then 1 else 0) + countAppends es
  | _ :: es => countAppends es

/-- What a well-nested body does to a state whose top frame is `c` at pointer `top`, `n`
being the number of children the body appends: the stack is as before, the top frame has only
gained children, every other record that existed is untouched, the heap has grown by `n`
records, and the address book has gained exactly the pairs of the call frames allocated. -/
def BlockPost (t t' : openchainTracer) (top : Nat) (c : callRecord) (n : Nat) : Prop :=
  t'.callstack = t.callstack ∧
  (∃ new, t'.heap[top]? = some (.call { c with Children := c.Children ++ new })) ∧
  (∀ q, q < t.heap.length → q ≠ top → t'.heap[q]? = t.heap[q]?) ∧
  t'.heap.length = t.heap.length + n ∧
  (∀ a h, (AddressBook.get t'.addresses a h).isSome ↔
    ((AddressBook.get t.addresses a h).isSome ∨
      ∃ q d, t.heap.length ≤ q ∧ t'.heap[q]? = some (.call d) ∧ d.To = a ∧ d.Codehash = h))

/-- The tracer after `CaptureStart` on a fresh tracer. -/
def rootState (keccak256 : Bytes → Hash) (env : IntraBlockState) (from_ to_ : Address)
    (precompile create : Bool) (input : Bytes) (gas : Nat) (value : Option U256) :
    openchainTracer :=
  { (newOpenchainTracer keccak256) with
    heap := [.call (rootRecord env from_ to_ precompile create input gas value)],
    callstack := [0] }

/-- The tracer after `finish` on the frame `c` at pointer `p`. -/
def finishedState (t : openchainTracer) (p : Nat) (c : callRecord) (env : IntraBlockState)
    (output : Bytes) (gasUsed : Nat) (err : Option String) : openchainTracer :=
  { t with
    heap := t.heap.set p (.call (finished c env output gasUsed err)),
    addresses := registered t.addresses c.To (finished c env output gasUsed err).Codehash }

/-- The children of a node: the subtrees of a call frame, none for a leaf. -/
def TraceNode.children : TraceNode → List TraceNode
  | .call _ ts => ts
  | _ => []

mutual
/-- All nodes of a tree (the tree itself and every subtree), parent first. -/
def TraceNode.nodes : TraceNode → List TraceNode
  | .sload r => [.sload r]
  | .sstore r => [.sstore r]
  | .log r => [.log r]
  | .call r ts => .call r ts :: TraceNode.nodesList ts
/-- All nodes of a list of trees. -/
def TraceNode.nodesList : List TraceNode → List TraceNode
  | [] => []
  | t :: ts => t.nodes ++ TraceNode.nodesList ts
end

mutual
/-- Every node below the root has the path of its parent followed by "." and its index. -/
def TraceNode.PathsOk : TraceNode → Prop
  | .sload _ => True
  | .sstore _ => True
  | .log _ => True
  | .call r ts => TraceNode.PathsOkList r.Path ts 0
/-- The trees are children number `i`, `i + 1`, ... of a frame with path `parent`. -/
def TraceNode.PathsOkList (parent : String) : List TraceNode → Nat → Prop
  | [], _ => True
  | t :: ts, i =>
    t.Path = parent ++ "." ++ strconv.Itoa i ∧ t.PathsOk ∧ TraceNode.PathsOkList parent ts (i + 1)
end

/-- The number a list of decimal digit characters stands for. -/
def decimalValue (ds : List Char) : Nat :=
  ds.foldl (fun acc c => 10 * acc + (c.toNat - 48)) 0

/-- The string `x` is `q`, or `q` followed by a dot and more. -/
def Extends (q x : String) : Prop :=
  ∃ w : List Char, x.data = q.data ++ w ∧ (w = [] ∨ ∃ w', w = '.' :: w')

/-- The events of the sample trace after its root callback: a storage read, a call that logs
and fails, a hash, and the root completion. -/
def sampleEvents : List Event :=
  [.CaptureState sampleEnv vm.SLOAD sampleScope,
   .CaptureState sampleEnv vm.CALL sampleScope,
   .CaptureEnter sampleEnv vm.CALL 2 3 false false [9] 5 none,
   .CaptureState sampleEnv vm.LOG2 sampleScope,
   .CaptureExit sampleEnv [] 3 (some "reverted"),
   .CaptureState sampleEnv vm.KECCAK256 sampleScope,
   .CaptureEnd sampleEnv [] 3 none]

/-- The sample trace: a complete well-nested event sequence. -/
def sampleTrace : List Event := sampleStart :: sampleEvents

/-- The tracer after the sample trace. -/
def sampleFinal : openchainTracer :=
  (run (newOpenchainTracer sampleHasher) sampleTrace).getD (newOpenchainTracer sampleHasher)

/-- A well-nested body that stops while at least one `CaptureEnter` (with the call-like step
event that opened its frame) has no `CaptureExit` yet. -/
inductive Unterminated : List Event → Prop
  | last {before inner : List Event} (env : IntraBlockState) (op : OpCode) (scope : ScopeContext)
      (env1 : IntraBlockState) (typ : OpCode) (from_ to_ : Address) (precompile create : Bool)
      (input : Bytes) (gas : Nat) (value : Option U256) :
      Block before → isCallLike op = true → Block inner →
      Unterminated (before ++ .CaptureState env op scope ::
        .CaptureEnter env1 typ from_ to_ precompile create input gas value :: inner)
  | nest {before inner : List Event} (env : IntraBlockState) (op : OpCode) (scope : ScopeContext)
      (env1 : IntraBlockState) (typ : OpCode) (from_ to_ : Address) (precompile create : Bool)
      (input : Bytes) (gas : Nat) (value : Option U256) :
      Block before → isCallLike op = true → Unterminated inner →
      Unterminated (before ++ .CaptureState env op scope ::
        .CaptureEnter env1 typ from_ to_ precompile create input gas value :: inner)

/-- The record of a nested frame once `CaptureEnter` has populated the placeholder that the
call-like step event appended to the frame `c`. -/
def enteredRecord (c : callRecord) (env1 : IntraBlockState) (typ : OpCode) (from_ to_ : Address)
    (precompile : Bool) (input : Bytes) (gas : Nat) (value : Option U256) : callRecord :=
  entered { callRecord.empty with Path := c.Path ++ "." ++ strconv.Itoa c.Children.length }
    env1 typ from_ to_ precompile input gas value

/-- The tracer after a call-like step event on the top frame `c` at pointer `top`, followed by
`CaptureEnter`. -/
def enteredState (t : openchainTracer) (top : Nat) (c : callRecord) (env1 : IntraBlockState)
    (typ : OpCode) (from_ to_ : Address) (precompile : Bool) (input : Bytes) (gas : Nat)
    (value : Option U256) : openchainTracer :=
  { t with
    heap := (appendChild t.heap top c (.call callRecord.empty)).set t.heap.length
      (.call (enteredRecord c env1 typ from_ to_ precompile input gas value)),
    callstack := t.callstack ++ [t.heap.length] }

/-- The tracer after `CaptureExit` on the top frame `c` at pointer `p`. -/
def exitedState (t : openchainTracer) (p : Nat) (c : callRecord) (env : IntraBlockState)
    (output : Bytes) (gasUsed : Nat) (err : Option String) : openchainTracer :=
  { finishedState t p c env output gasUsed err with callstack := t.callstack.dropLast }

/-- The tracer after a leaf step event has appended the record `rec` to the top frame `c` at
pointer `top`. -/
def appendedState (t : openchainTracer) (top : Nat) (c : callRecord) (rec : anyRecord) :
    openchainTracer :=
  { t with heap := appendChild t.heap top c rec }

/-- What one callback other than `CaptureStart` does when it completes, case by case: the
event, and the tracer it leaves. -/
inductive Shape (t : openchainTracer) : Event → openchainTracer → Prop
  | fault : Shape t .CaptureFault t
  | stop : Shape t .Stop t
  | quiet (env : IntraBlockState) (op : OpCode) (scope : ScopeContext) (t' : openchainTracer) :
      leafRecord env op scope = none → isCallLike op = false →
      t'.heap = t.heap → t'.callstack = t.callstack → t'.addresses = t.addresses →
      Shape t (.CaptureState env op scope) t'
  | leaf (env : IntraBlockState) (op : OpCode) (scope : ScopeContext) (top : Nat)
      (c : callRecord) (rec : anyRecord) :
      t.callstack.getLast? = some top → t.heap[top]? = some (.call c) →
      leafRecord env op scope = some rec →
      Shape t (.CaptureState env op scope) (appendedState t top c rec)
  | call (env : IntraBlockState) (op : OpCode) (scope : ScopeContext) (top : Nat)
      (c : callRecord) :
      t.callstack.getLast? = some top → t.heap[top]? = some (.call c) →
      isCallLike op = true →
      Shape t (.CaptureState env op scope)
        { t with
          heap := appendChild t.heap top c (.call callRecord.empty),
          callstack := t.callstack ++ [t.heap.length] }
  | enter (env : IntraBlockState) (typ : OpCode) (from_ to_ : Address)
      (precompile create : Bool) (input : Bytes) (gas : Nat) (value : Option U256) (top : Nat)
      (c : callRecord) :
      t.callstack.getLast? = some top → t.heap[top]? = some (.call c) →
      Shape t (.CaptureEnter env typ from_ to_ precompile create input gas value)
        { t with
          heap := t.heap.set top (.call (entered c env typ from_ to_ precompile input gas value)) }
  | exit (env : IntraBlockState) (output : Bytes) (gasUsed : Nat) (err : Option String)
      (top : Nat) (c : callRecord) :
      t.callstack.getLast? = some top → t.heap[top]? = some (.call c) →
      Shape t (.CaptureExit env output gasUsed err) (exitedState t top c env output gasUsed err)
  | finish (env : IntraBlockState) (output : Bytes) (gasUsed : Nat) (err : Option String)
      (p : Nat) (c : callRecord) :
      t.callstack[0]? = some p → t.heap[p]? = some (.call c) →
      Shape t (.CaptureEnd env output gasUsed err) (finishedState t p c env output gasUsed err)

/-- Whether the event is a step event on a call-like opcode. -/
def Event.isCallStep : Event → Bool
  | .CaptureState _ op _ => isCallLike op
  | _ => false

/-- Whether the event is the callback `CaptureExit`. -/
def Event.isExit : Event → Bool
  | .CaptureExit .. => true
  | _ => false

/-- Whether the event is the callback `CaptureEnd`. -/
def Event.isEnd : Event → Bool
  | .CaptureEnd .. => true
  | _ => false

/-- The number of step events on a call-like opcode in the sequence. -/
def countCallSteps (evs : List Event) : Nat := evs.countP Event.isCallStep

/-- The number of `CaptureExit` events in the sequence. -/
def countExits (evs : List Event) : Nat := evs.countP Event.isExit

/-- Every frame on the stack still has its completion fields unset: gas used 0, no output,
status 0. -/
def OpenUnset (t : openchainTracer) : Prop :=
  ∀ p ∈ t.callstack, ∃ c, t.heap[p]? = some (.call c) ∧
    c.GasUsed = 0 ∧ c.Output = [] ∧ c.Status = 0

/-- Whether the callback reads the top or the bottom of the frame stack: `CaptureEnd` reads
`callstack[0]`, `CaptureEnter` and `CaptureExit` read the top, and a step event reads the top
when it calls `pushRecord` (`SLOAD`, `SSTORE`, `LOG0` .. `LOG4` and the call-like opcodes). -/
def Event.usesStack : Event → Bool
  | .CaptureEnd .. => true
  | .CaptureState _ op _ => appends op
  | .CaptureEnter .. => true
  | .CaptureExit .. => true
  | _ => false

/-- No callback of the sequence hits an empty frame stack: whenever a callback that reads the
stack is delivered, the stack it finds is not empty.  Nothing is asked of what follows a
callback that does not complete. -/
def neverHitsEmpty (t : openchainTracer) : List Event → Bool
  | [] => true
  | e :: es =>
    (!e.usesStack || !t.callstack.isEmpty) &&
      match step t e with
      | some t' => neverHitsEmpty t' es
      | none => true

/-! ## Basic facts -/

theorem GoMap_get_empty {K V : Type} [DecidableEq K] (k : K) :
    GoMap.get (∅ : GoMap K V) k = none := by
  simp [GoMap.get]

theorem GoMap_set_set {K V : Type} [DecidableEq K] (m : GoMap K V) (k : K) (v w : V) :
    GoMap.set (GoMap.set m k v) k w = GoMap.set m k w := by
  simp [GoMap.set, AList.insert_insert]

theorem GoMap_get_set_self {K V : Type} [DecidableEq K] (m : GoMap K V) (k : K) (v : V) :
    GoMap.get (GoMap.set m k v) k = some v := by
  simp [GoMap.get, GoMap.set]

theorem GoMap_get_set_ne {K V : Type} [DecidableEq K] (m : GoMap K V) (k k' : K) (v : V)
    (h : k' ≠ k) : GoMap.get (GoMap.set m k v) k' = GoMap.get m k' := by
  simp [GoMap.get, GoMap.set, AList.lookup_insert_ne h]

theorem finish_eq (t : openchainTracer) (r : Nat) (c : callRecord) (env : IntraBlockState)
    (output : Bytes) (gasUsed : Nat) (err : Option String) (h : t.heap[r]? = some (.call c)) :
    callRecord.finish t r env output gasUsed err =
      some { t with
        heap := t.heap.set r (.call (finished c env output gasUsed err)),
        addresses := registered t.addresses c.To (finished c env output gasUsed err).Codehash } := by
  unfold callRecord.finish
  rw [h]
  simp only [finished, registered, common.CopyBytes]
  cases err <;> cases hc : c.create <;> cases hl : GoMap.get t.addresses c.To <;>
    simp [hc, hl, GoMap_get_empty, GoMap_set_set]

theorem finish_some (t t' : openchainTracer) (r : Nat) (env : IntraBlockState)
    (output : Bytes) (gasUsed : Nat) (err : Option String)
    (h : callRecord.finish t r env output gasUsed err = some t') :
    ∃ c, t.heap[r]? = some (.call c) := by
  unfold callRecord.finish at h
  split at h
  · exact ⟨_, by assumption⟩
  · exact absurd h (by simp)

theorem pushAndSetPath_alloc (t : openchainTracer) (p : Nat) (c : callRecord) (rec : anyRecord)
    (h1 : t.callstack.getLast? = some p) (h2 : t.heap[p]? = some (.call c)) :
    pushAndSetPath (alloc t rec).2 (alloc t rec).1 =
      some { t with heap := appendChild t.heap p c rec } := by
  have hp : p < t.heap.length := by
    by_contra hge
    rw [List.getElem?_eq_none (by omega)] at h2
    exact absurd h2 (by simp)
  have h3 : (t.heap ++ [rec])[p]? = some (.call c) := by
    rw [List.getElem?_append_left hp]; exact h2
  simp only [pushAndSetPath, pushRecord, alloc, h1, h3, appendChild]
  rw [List.set_append_left _ _ hp]
  have h4 : (t.heap.set p (.call { c with Children := c.Children ++ [t.heap.length] }) ++ [rec])[t.heap.length]? = some rec := by
    rw [List.getElem?_append_right (by simp)]; simp
  simp only [h4]
  congr 2
  rw [List.set_append_right _ _ (by simp)]
  simp

theorem pushAndSetPath_nil (t : openchainTracer) (r : Nat) (h : t.callstack = []) :
    pushAndSetPath t r = none := by
  simp [pushAndSetPath, pushRecord, h]

theorem alloc_callstack (t : openchainTracer) (rec : anyRecord) :
    (alloc t rec).2.callstack = t.callstack := rfl

theorem alloc_fst (t : openchainTracer) (rec : anyRecord) : (alloc t rec).1 = t.heap.length := rfl

theorem leafRecord_ne_call (env : IntraBlockState) (op : OpCode) (scope : ScopeContext)
    (rec : anyRecord) (h : leafRecord env op scope = some rec) : ∀ c, rec ≠ .call c := by
  intro c hc
  subst hc
  unfold leafRecord at h
  split_ifs at h <;> simp at h

theorem leafRecord_isSome (env : IntraBlockState) (op : OpCode) (scope : ScopeContext) :
    (leafRecord env op scope).isSome = (op = vm.SLOAD || op = vm.SSTORE || isLog op) := by
  unfold leafRecord
  split_ifs <;> simp [*]

theorem CaptureState_leaf (t : openchainTracer) (env : IntraBlockState) (op : OpCode)
    (scope : ScopeContext) (rec : anyRecord) (h : leafRecord env op scope = some rec) :
    CaptureState t env op scope = pushAndSetPath (alloc t rec).2 (alloc t rec).1 := by
  unfold leafRecord at h
  unfold CaptureState
  split_ifs at h with h1 h2 h3
  · simp only [h1, if_true]; injection h with h; subst h; rfl
  · simp only [h1, h2, if_true, if_false]; injection h with h; subst h; rfl
  · simp only [h1, h2, h3, if_true, if_false]; injection h with h; subst h; rfl

theorem isLog_not_keccak (op : OpCode) (h : op = vm.KECCAK256) : isLog op = false := by
  subst h; decide

theorem isLog_not_callLike (op : OpCode) (h : isCallLike op = true) : isLog op = false := by
  simp only [isCallLike, Bool.or_eq_true, decide_eq_true_eq] at h
  rcases h with ((((h | h) | h) | h) | h) | h <;> subst h <;> decide

theorem isCallLike_not_keccak (op : OpCode) (h : isCallLike op = true) : op ≠ vm.KECCAK256 := by
  intro hk; subst hk; revert h; decide

theorem leafRecord_callLike (env : IntraBlockState) (op : OpCode) (scope : ScopeContext)
    (h : isCallLike op = true) : leafRecord env op scope = none := by
  have h3 := isLog_not_callLike op h
  have h1 : op ≠ vm.SLOAD := by intro hk; subst hk; revert h; decide
  have h2 : op ≠ vm.SSTORE := by intro hk; subst hk; revert h; decide
  simp [leafRecord, h1, h2, h3]

theorem CaptureState_call (t : openchainTracer) (env : IntraBlockState) (op : OpCode)
    (scope : ScopeContext) (h : isCallLike op = true) :
    CaptureState t env op scope =
      match pushAndSetPath (alloc t (.call callRecord.empty)).2 (alloc t (.call callRecord.empty)).1 with
      | none => none
      | some t' => some { t' with callstack := t'.callstack ++ [t.heap.length] } := by
  have h3 := isLog_not_callLike op h
  have h4 := isCallLike_not_keccak op h
  have h1 : op ≠ vm.SLOAD := by intro hk; subst hk; revert h; decide
  have h2 : op ≠ vm.SSTORE := by intro hk; subst hk; revert h; decide
  unfold CaptureState
  simp only [h1, h2, h3, h4, h, if_true, if_false, Bool.false_eq_true]
  rfl

theorem CaptureState_hash (t : openchainTracer) (env : IntraBlockState) (scope : ScopeContext) :
    CaptureState t env vm.KECCAK256 scope =
      some { t with
        hasherBuf := t.hasher (scope.Memory.GetPtr (int64OfUint64 scope.Stack.Peek)
          (int64OfUint64 (scope.Stack.Back 1))),
        preimages := GoMap.set t.preimages
          (t.hasher (scope.Memory.GetPtr (int64OfUint64 scope.Stack.Peek)
            (int64OfUint64 (scope.Stack.Back 1))))
          (scope.Memory.GetPtr (int64OfUint64 scope.Stack.Peek)
            (int64OfUint64 (scope.Stack.Back 1))) } := by
  have h1 : vm.KECCAK256 ≠ vm.SLOAD := by decide
  have h2 : vm.KECCAK256 ≠ vm.SSTORE := by decide
  have h3 : isLog vm.KECCAK256 = false := by decide
  unfold CaptureState
  simp only [h1, h2, h3, if_true, if_false, Bool.false_eq_true, common.CopyBytes]

theorem CaptureState_other (t : openchainTracer) (env : IntraBlockState) (op : OpCode)
    (scope : ScopeContext) (h1 : leafRecord env op scope = none) (h2 : op ≠ vm.KECCAK256)
    (h3 : isCallLike op = false) : CaptureState t env op scope = some t := by
  have h := leafRecord_isSome env op scope
  rw [h1] at h
  simp only [Option.isSome_none, Bool.false_eq, Bool.or_eq_false_iff, decide_eq_false_iff_not] at h
  unfold CaptureState
  simp [h.1.1, h.1.2, h.2, h2, h3]

theorem CaptureEnter_eq (t : openchainTracer) (p : Nat) (c : callRecord) (env : IntraBlockState)
    (typ : OpCode) (from_ to_ : Address) (precompile create : Bool) (input : Bytes) (gas : Nat)
    (value : Option U256) (h1 : t.callstack.getLast? = some p)
    (h2 : t.heap[p]? = some (.call c)) :
    CaptureEnter t env typ from_ to_ precompile create input gas value =
      some { t with
        heap := t.heap.set p (.call (entered c env typ from_ to_ precompile input gas value)) } := by
  unfold CaptureEnter
  simp only [h1, h2, entered, common.CopyBytes]
  cases value <;> rfl

theorem CaptureExit_eq (t : openchainTracer) (p : Nat) (c : callRecord) (env : IntraBlockState)
    (output : Bytes) (gasUsed : Nat) (err : Option String)
    (h1 : t.callstack.getLast? = some p) (h2 : t.heap[p]? = some (.call c)) :
    CaptureExit t env output gasUsed err =
      some { t with
        heap := t.heap.set p (.call (finished c env output gasUsed err)),
        addresses := registered t.addresses c.To (finished c env output gasUsed err).Codehash,
        callstack := t.callstack.dropLast } := by
  unfold CaptureExit
  simp only [h1, finish_eq t p c env output gasUsed err h2]

theorem CaptureEnd_eq (t : openchainTracer) (p : Nat) (c : callRecord) (env : IntraBlockState)
    (output : Bytes) (gasUsed : Nat) (err : Option String)
    (h1 : t.callstack[0]? = some p) (h2 : t.heap[p]? = some (.call c)) :
    CaptureEnd t env output gasUsed err =
      some { t with
        heap := t.heap.set p (.call (finished c env output gasUsed err)),
        addresses := registered t.addresses c.To (finished c env output gasUsed err).Codehash } := by
  unfold CaptureEnd
  simp only [h1, finish_eq t p c env output gasUsed err h2]

theorem CaptureEnter_nil (t : openchainTracer) (env : IntraBlockState)
    (typ : OpCode) (from_ to_ : Address) (precompile create : Bool) (input : Bytes) (gas : Nat)
    (value : Option U256) (h : t.callstack = []) :
    CaptureEnter t env typ from_ to_ precompile create input gas value = none := by
  simp [CaptureEnter, h]

theorem CaptureExit_nil (t : openchainTracer) (env : IntraBlockState)
    (output : Bytes) (gasUsed : Nat) (err : Option String) (h : t.callstack = []) :
    CaptureExit t env output gasUsed err = none := by
  simp [CaptureExit, h]

theorem CaptureEnd_nil (t : openchainTracer) (env : IntraBlockState)
    (output : Bytes) (gasUsed : Nat) (err : Option String) (h : t.callstack = []) :
    CaptureEnd t env output gasUsed err = none := by
  simp [CaptureEnd, h]

theorem CaptureStart_nil (t : openchainTracer) (env : IntraBlockState) (from_ to_ : Address)
    (precompile create : Bool) (input : Bytes) (gas : Nat) (value : Option U256)
    (h : t.callstack = []) :
    CaptureStart t env from_ to_ precompile create input gas value =
      some { t with
        heap := t.heap ++ [.call (rootRecord env from_ to_ precompile create input gas value)],
        callstack := [t.heap.length] } := by
  unfold CaptureStart
  cases create <;> simp [alloc, h, rootRecord, common.CopyBytes]

theorem getElem?_lt_of_eq_some {α : Type} {l : List α} {i : Nat} {a : α} (h : l[i]? = some a) :
    i < l.length := by
  by_contra hge
  rw [List.getElem?_eq_none (by omega)] at h
  exact absurd h (by simp)

theorem heapOk_set {h : List anyRecord} {st : List Nat} {p : Nat} {c c' : callRecord}
    (hok : HeapOk h st) (hp : h[p]? = some (.call c)) (hc : c'.Children = c.Children) :
    HeapOk (h.set p (.call c')) st := by
  have hlt := getElem?_lt_of_eq_some hp
  constructor
  · intro q d hq x hx
    rw [List.length_set]
    by_cases hpq : p = q
    · subst hpq
      rw [List.getElem?_set_self hlt] at hq
      injection hq with hq; injection hq with hq; subst hq
      rw [hc] at hx
      exact hok.1 p c hp x hx
    · rw [List.getElem?_set_ne hpq] at hq
      exact hok.1 q d hq x hx
  · intro q hq
    by_cases hpq : p = q
    · subst hpq
      exact ⟨c', List.getElem?_set_self hlt⟩
    · rw [List.getElem?_set_ne hpq]
      exact hok.2 q hq

theorem appendChild_length (h : List anyRecord) (p : Nat) (c : callRecord) (rec : anyRecord) :
    (appendChild h p c rec).length = h.length + 1 := by
  simp [appendChild]

theorem appendChild_get_top {h : List anyRecord} {p : Nat} {c : callRecord} (rec : anyRecord)
    (hp : h[p]? = some (.call c)) :
    (appendChild h p c rec)[p]? = some (.call { c with Children := c.Children ++ [h.length] }) := by
  have hlt := getElem?_lt_of_eq_some hp
  unfold appendChild
  rw [List.getElem?_append_left (by simpa using hlt)]
  exact List.getElem?_set_self hlt

theorem appendChild_get_new (h : List anyRecord) (p : Nat) (c : callRecord) (rec : anyRecord) :
    (appendChild h p c rec)[h.length]? =
      some (rec.setPath (c.Path ++ "." ++ strconv.Itoa c.Children.length)) := by
  unfold appendChild
  rw [List.getElem?_append_right (by simp)]
  simp

theorem appendChild_get_other {h : List anyRecord} {p q : Nat} (c : callRecord) (rec : anyRecord)
    (h1 : q ≠ p) (h2 : q < h.length) : (appendChild h p c rec)[q]? = h[q]? := by
  unfold appendChild
  rw [List.getElem?_append_left (by simpa using h2)]
  exact List.getElem?_set_ne (Ne.symm h1)

theorem appendChild_get_cases {h : List anyRecord} {p q : Nat} {c : callRecord} {rec x : anyRecord}
    (hp : h[p]? = some (.call c)) (hq : (appendChild h p c rec)[q]? = some x) :
    (q = p ∧ x = .call { c with Children := c.Children ++ [h.length] }) ∨
    (q = h.length ∧ x = rec.setPath (c.Path ++ "." ++ strconv.Itoa c.Children.length)) ∨
    (q ≠ p ∧ q < h.length ∧ h[q]? = some x) := by
  have hlt := getElem?_lt_of_eq_some hq
  rw [appendChild_length] at hlt
  by_cases h1 : q = p
  · subst h1
    rw [appendChild_get_top rec hp] at hq
    injection hq with hq
    exact Or.inl ⟨rfl, hq.symm⟩
  · by_cases h2 : q = h.length
    · subst h2
      rw [appendChild_get_new] at hq
      injection hq with hq
      exact Or.inr (Or.inl ⟨rfl, hq.symm⟩)
    · have h3 : q < h.length := by omega
      rw [appendChild_get_other c rec h1 h3] at hq
      exact Or.inr (Or.inr ⟨h1, h3, hq⟩)

theorem setPath_children (path : String) (rec : anyRecord) (d : callRecord)
    (h : rec.setPath path = .call d) : ∃ d0, rec = .call d0 ∧ d.Children = d0.Children := by
  cases rec with
  | call d0 =>
    simp only [anyRecord.setPath] at h
    injection h with h
    exact ⟨d0, rfl, by rw [← h]⟩
  | sload r => simp [anyRecord.setPath] at h
  | sstore r => simp [anyRecord.setPath] at h
  | log r => simp [anyRecord.setPath] at h

theorem heapOk_appendChild {h : List anyRecord} {st : List Nat} {p : Nat} {c : callRecord}
    {rec : anyRecord} (hok : HeapOk h st) (hp : h[p]? = some (.call c))
    (hrec : ∀ d, rec = .call d → d.Children = []) :
    HeapOk (appendChild h p c rec) st := by
  have hlt := getElem?_lt_of_eq_some hp
  constructor
  · intro q d hq x hx
    rw [appendChild_length]
    rcases appendChild_get_cases hp hq with ⟨h1, h2⟩ | ⟨h1, h2⟩ | ⟨h1, h2, h3⟩
    · injection h2 with h2
      subst h1 h2
      simp only [List.mem_append, List.mem_singleton] at hx
      rcases hx with hx | hx
      · have := hok.1 q c hp x hx
        omega
      · omega
    · obtain ⟨d0, hd0, hd⟩ := setPath_children _ _ _ h2.symm
      rw [hd, hrec d0 hd0] at hx
      exact absurd hx (by simp)
    · have := hok.1 q d h3 x hx
      omega
  · intro q hq
    obtain ⟨d, hd⟩ := hok.2 q hq
    by_cases h1 : q = p
    · subst h1
      exact ⟨_, appendChild_get_top rec hp⟩
    · exact ⟨d, by rw [appendChild_get_other c rec h1 (getElem?_lt_of_eq_some hd)]; exact hd⟩

theorem heapOk_push {h : List anyRecord} {st : List Nat} {q : Nat} {d : callRecord}
    (hok : HeapOk h st) (hq : h[q]? = some (.call d)) : HeapOk h (st ++ [q]) := by
  refine ⟨hok.1, ?_⟩
  intro x hx
  simp only [List.mem_append, List.mem_singleton] at hx
  rcases hx with hx | hx
  · exact hok.2 x hx
  · subst hx; exact ⟨d, hq⟩

theorem heapOk_dropLast {h : List anyRecord} {st : List Nat} (hok : HeapOk h st) :
    HeapOk h st.dropLast :=
  ⟨hok.1, fun p hp => hok.2 p (List.mem_of_mem_dropLast hp)⟩

theorem heapOk_alloc {h : List anyRecord} {st : List Nat} {rec : anyRecord}
    (hok : HeapOk h st) (hrec : ∀ d, rec = .call d → d.Children = []) :
    HeapOk (h ++ [rec]) st := by
  constructor
  · intro q d hq x hx
    have hlt := getElem?_lt_of_eq_some hq
    simp only [List.length_append, List.length_singleton] at hlt ⊢
    by_cases h1 : q < h.length
    · rw [List.getElem?_append_left h1] at hq
      have := hok.1 q d hq x hx
      omega
    · have h2 : q = h.length := by omega
      subst h2
      rw [List.getElem?_concat_length] at hq
      injection hq with hq
      rw [hrec d hq] at hx
      exact absurd hx (by simp)
  · intro q hq
    obtain ⟨d, hd⟩ := hok.2 q hq
    exact ⟨d, by rw [List.getElem?_append_left (getElem?_lt_of_eq_some hd)]; exact hd⟩

theorem heapOk_top {h : List anyRecord} {st : List Nat} {p : Nat} (hok : HeapOk h st)
    (hp : st.getLast? = some p) : ∃ c, h[p]? = some (.call c) :=
  hok.2 p (List.mem_of_getLast?_eq_some hp)

theorem CaptureStart_heapOk (t t' : openchainTracer) (env : IntraBlockState) (from_ to_ : Address)
    (precompile create : Bool) (input : Bytes) (gas : Nat) (value : Option U256)
    (hok : HeapOk t.heap t.callstack)
    (h : CaptureStart t env from_ to_ precompile create input gas value = some t') :
    HeapOk t'.heap t'.callstack := by
  unfold CaptureStart at h
  simp only [alloc] at h
  have h1 : HeapOk (t.heap ++ [.call
      { Path := "0", Children := [], Codehash := env.GetCodeHash to_, From := from_, Gas := gas,
        GasUsed := 0, Input := common.CopyBytes input, IsPrecompile := precompile, Output := [],
        Status := 0, To := to_, Type_ := "call", Value := value, Variant := "call",
        create := create }]) (t.callstack ++ [t.heap.length]) := by
    refine heapOk_push (heapOk_alloc hok ?_) (List.getElem?_concat_length _ _)
    intro d hd
    injection hd with hd
    rw [← hd]
  split_ifs at h
  · split at h
    · split at h
      · rename_i p hp0 c hc
        injection h with h
        subst h
        exact heapOk_set h1 hc rfl
      · exact absurd h (by simp)
    · exact absurd h (by simp)
  · injection h with h
    subst h
    exact h1

theorem step_heapOk (t t' : openchainTracer) (e : Event) (hok : HeapOk t.heap t.callstack)
    (h : step t e = some t') : HeapOk t'.heap t'.callstack := by
  cases e with
  | CaptureStart env from_ to_ precompile create input gas value =>
    exact CaptureStart_heapOk t t' env from_ to_ precompile create input gas value hok h
  | CaptureEnd env output gasUsed err =>
    simp only [step] at h
    cases h0 : t.callstack[0]? with
    | none => simp [CaptureEnd, h0] at h
    | some p =>
      obtain ⟨c, hc⟩ := hok.2 p (List.getElem?_mem h0)
      rw [CaptureEnd_eq t p c env output gasUsed err h0 hc] at h
      injection h with h
      subst h
      exact heapOk_set hok hc rfl
  | CaptureState env op scope =>
    simp only [step] at h
    cases hl : leafRecord env op scope with
    | some rec =>
      rw [CaptureState_leaf t env op scope rec hl] at h
      cases h0 : t.callstack.getLast? with
      | none =>
        rw [pushAndSetPath_nil _ _ (by simpa [alloc] using List.getLast?_eq_none_iff.mp h0)] at h
        exact absurd h (by simp)
      | some p =>
        obtain ⟨c, hc⟩ := heapOk_top hok h0
        rw [pushAndSetPath_alloc t p c rec h0 hc] at h
        injection h with h
        subst h
        exact heapOk_appendChild hok hc (fun d hd => absurd hd (leafRecord_ne_call env op scope rec hl d))
    | none =>
      by_cases hk : op = vm.KECCAK256
      · subst hk
        rw [CaptureState_hash] at h
        injection h with h
        subst h
        exact hok
      · cases hcl : isCallLike op with
        | false =>
          rw [CaptureState_other t env op scope hl hk hcl] at h
          injection h with h
          subst h
          exact hok
        | true =>
          rw [CaptureState_call t env op scope hcl] at h
          cases h0 : t.callstack.getLast? with
          | none =>
            rw [pushAndSetPath_nil _ _ (by simpa [alloc] using List.getLast?_eq_none_iff.mp h0)] at h
            exact absurd h (by simp)
          | some p =>
            obtain ⟨c, hc⟩ := heapOk_top hok h0
            rw [pushAndSetPath_alloc t p c _ h0 hc] at h
            injection h with h
            subst h
            refine heapOk_push (heapOk_appendChild hok hc ?_) (appendChild_get_new _ _ _ _)
            intro d hd
            injection hd with hd
            rw [← hd]; rfl
  | CaptureFault =>
    simp only [step, CaptureFault] at h
    injection h with h
    subst h
    exact hok
  | CaptureEnter env typ from_ to_ precompile create input gas value =>
    simp only [step] at h
    cases h0 : t.callstack.getLast? with
    | none =>
      rw [CaptureEnter_nil _ _ _ _ _ _ _ _ _ _ (List.getLast?_eq_none_iff.mp h0)] at h
      exact absurd h (by simp)
    | some p =>
      obtain ⟨c, hc⟩ := heapOk_top hok h0
      rw [CaptureEnter_eq t p c env typ from_ to_ precompile create input gas value h0 hc] at h
      injection h with h
      subst h
      exact heapOk_set hok hc rfl
  | CaptureExit env output gasUsed err =>
    simp only [step] at h
    cases h0 : t.callstack.getLast? with
    | none =>
      rw [CaptureExit_nil _ _ _ _ _ (List.getLast?_eq_none_iff.mp h0)] at h
      exact absurd h (by simp)
    | some p =>
      obtain ⟨c, hc⟩ := heapOk_top hok h0
      rw [CaptureExit_eq t p c env output gasUsed err h0 hc] at h
      injection h with h
      subst h
      exact heapOk_dropLast (heapOk_set hok hc rfl)
  | Stop =>
    simp only [step, Stop] at h
    injection h with h
    subst h
    exact hok

theorem run_heapOk (evs : List Event) : ∀ (t t' : openchainTracer),
    HeapOk t.heap t.callstack → run t evs = some t' → HeapOk t'.heap t'.callstack := by
  induction evs with
  | nil =>
    intro t t' hok h
    simp only [run] at h
    injection h with h
    subst h
    exact hok
  | cons e es ih =>
    intro t t' hok h
    simp only [run] at h
    cases hs : step t e with
    | none => simp [hs] at h
    | some t1 =>
      simp only [hs] at h
      exact ih t1 t' (step_heapOk t t1 e hok hs) h

theorem heapOk_new (keccak256 : Bytes → Hash) :
    HeapOk (newOpenchainTracer keccak256).heap (newOpenchainTracer keccak256).callstack := by
  constructor
  · intro p c h
    simp [newOpenchainTracer] at h
  · intro p h
    simp [newOpenchainTracer] at h

theorem marshalList_describes {h : List anyRecord} {f : Nat → Option TraceNode}
    (hf : ∀ c t, f c = some t → Describes h t c) :
    ∀ (cs : List Nat) (ts : List TraceNode), marshalList f cs = some ts → DescribesList h ts cs := by
  intro cs
  induction cs with
  | nil =>
    intro ts h1
    simp only [marshalList] at h1
    injection h1 with h1
    subst h1
    simp [DescribesList]
  | cons c cs ih =>
    intro ts h1
    simp only [marshalList] at h1
    cases h2 : f c with
    | none => simp [h2] at h1
    | some t =>
      cases h3 : marshalList f cs with
      | none => simp [h2, h3] at h1
      | some us =>
        simp only [h2, h3] at h1
        injection h1 with h1
        subst h1
        simp only [DescribesList]
        exact ⟨c, cs, rfl, hf c t h2, ih us h3⟩

theorem marshalNode_describes (h : List anyRecord) : ∀ (fuel p : Nat) (t : TraceNode),
    marshalNode h fuel p = some t → Describes h t p := by
  intro fuel
  induction fuel with
  | zero => intro p t h1; simp [marshalNode] at h1
  | succ fuel ih =>
    intro p t h1
    simp only [marshalNode] at h1
    cases h2 : h[p]? with
    | none => simp [h2] at h1
    | some x =>
      cases x with
      | sload r => simp only [h2] at h1; injection h1 with h1; subst h1; simpa [Describes] using h2
      | sstore r => simp only [h2] at h1; injection h1 with h1; subst h1; simpa [Describes] using h2
      | log r => simp only [h2] at h1; injection h1 with h1; subst h1; simpa [Describes] using h2
      | call r =>
        simp only [h2] at h1
        cases h3 : marshalList (marshalNode h fuel) r.Children with
        | none => simp [h3] at h1
        | some ts =>
          simp only [h3] at h1
          injection h1 with h1
          subst h1
          simp only [Describes]
          exact ⟨h2, marshalList_describes ih r.Children ts h3⟩

theorem marshalList_isSome {f : Nat → Option TraceNode} :
    ∀ (cs : List Nat), (∀ c ∈ cs, (f c).isSome) → (marshalList f cs).isSome := by
  intro cs
  induction cs with
  | nil => intro _; simp [marshalList]
  | cons c cs ih =>
    intro hf
    have h1 := hf c (List.mem_cons_self _ _)
    have h2 := ih (fun d hd => hf d (List.mem_cons_of_mem _ hd))
    obtain ⟨t, ht⟩ := Option.isSome_iff_exists.mp h1
    obtain ⟨ts, hts⟩ := Option.isSome_iff_exists.mp h2
    simp [marshalList, ht, hts]

theorem marshalNode_isSome {h : List anyRecord} {st : List Nat} (hok : HeapOk h st) :
    ∀ (fuel p : Nat), p < h.length → h.length - p ≤ fuel → (marshalNode h fuel p).isSome := by
  intro fuel
  induction fuel with
  | zero => intro p h1 h2; omega
  | succ fuel ih =>
    intro p h1 h2
    obtain ⟨x, hx⟩ : ∃ x, h[p]? = some x := ⟨h[p], List.getElem?_eq_getElem h1⟩
    simp only [marshalNode, hx]
    cases x with
    | sload r => simp
    | sstore r => simp
    | log r => simp
    | call r =>
      have h3 := marshalList_isSome (f := marshalNode h fuel) r.Children (fun c hc => by
        have := hok.1 p r hx c hc
        exact ih c this.2 (by omega))
      obtain ⟨ts, hts⟩ := Option.isSome_iff_exists.mp h3
      simp [hts]

/-- C1: in every state the tracer reaches from a fresh one, whatever callbacks it was given,
`GetResult` succeeds exactly when the frame stack holds one frame; the record it then returns
has as entrypoint that frame with all its children dereferenced recursively, the whole
preimage ledger and the whole address book; at any other depth it returns the error
"incorrect number of top-level calls". -/
theorem GetResult_iff_single_frame (keccak256 : Bytes → Hash) (evs : List Event)
    (t : openchainTracer) (h : run (newOpenchainTracer keccak256) evs = some t) :
    ((∃ r, GetResult t = .ok r) ↔ t.callstack.length = 1) ∧
    (∀ r, GetResult t = .ok r →
      ∃ p, t.callstack = [p] ∧ Describes t.heap r.Entrypoint p ∧
        r.Preimages = t.preimages ∧ r.Addresses = t.addresses) ∧
    (t.callstack.length ≠ 1 → GetResult t = .error "incorrect number of top-level calls") := by
  have hok := run_heapOk evs _ t (heapOk_new keccak256) h
  have hsucc : t.callstack.length = 1 → ∃ p tree, t.callstack = [p] ∧
      marshalNode t.heap (t.heap.length + 1) p = some tree ∧
      GetResult t = .ok { Entrypoint := tree, Preimages := t.preimages, Addresses := t.addresses } := by
    intro h1
    obtain ⟨p, hp⟩ := List.length_eq_one.mp h1
    obtain ⟨c, hc⟩ := hok.2 p (by simp [hp])
    have h2 := marshalNode_isSome hok (t.heap.length + 1) p (getElem?_lt_of_eq_some hc) (by omega)
    obtain ⟨tree, htree⟩ := Option.isSome_iff_exists.mp h2
    refine ⟨p, tree, hp, htree, ?_⟩
    simp [GetResult, hp, htree]
  have hfail : t.callstack.length ≠ 1 →
      GetResult t = .error "incorrect number of top-level calls" := by
    intro h1
    simp [GetResult, h1]
  refine ⟨⟨?_, ?_⟩, ?_, hfail⟩
  · rintro ⟨r, hr⟩
    by_contra h1
    rw [hfail h1] at hr
    exact absurd hr (by simp)
  · intro h1
    obtain ⟨p, tree, _, _, h2⟩ := hsucc h1
    exact ⟨_, h2⟩
  · intro r hr
    have h1 : t.callstack.length = 1 := by
      by_contra h1
      rw [hfail h1] at hr
      exact absurd hr (by simp)
    obtain ⟨p, tree, hp, htree, h2⟩ := hsucc h1
    rw [h2] at hr
    injection hr with hr
    subst hr
    exact ⟨p, hp, marshalNode_describes _ _ _ _ htree, rfl, rfl⟩

theorem AddressBook_get_bookSet_self (A : AddressBook) (a : Address) (m : CodeHashMap) (h : Hash) :
    AddressBook.get (GoMap.set A a m) a h = GoMap.get m h := by
  simp [AddressBook.get, GoMap_get_set_self]

theorem AddressBook_get_bookSet_ne (A : AddressBook) (a a' : Address) (m : CodeHashMap) (h : Hash)
    (hne : a' ≠ a) : AddressBook.get (GoMap.set A a m) a' h = AddressBook.get A a' h := by
  simp [AddressBook.get, GoMap_get_set_ne _ _ _ _ hne]

theorem registered_of_isSome (A : AddressBook) (a : Address) (h : Hash)
    (hs : (AddressBook.get A a h).isSome) : registered A a h = A := by
  unfold AddressBook.get at hs
  unfold registered
  cases hm : GoMap.get A a with
  | none => simp [hm] at hs
  | some m =>
    simp only [hm] at hs ⊢
    cases hh : GoMap.get m h with
    | none => simp [hh] at hs
    | some d => simp

theorem registered_get_self (A : AddressBook) (a : Address) (h : Hash) :
    AddressBook.get (registered A a h) a h =
      some ((AddressBook.get A a h).getD addressData.placeholder) := by
  unfold registered
  cases hm : GoMap.get A a with
  | none =>
    simp only [AddressBook_get_bookSet_self, GoMap_get_set_self]
    simp [AddressBook.get, hm]
  | some m =>
    simp only
    cases hh : GoMap.get m h with
    | none =>
      simp only [Option.isNone_none, if_true, AddressBook_get_bookSet_self, GoMap_get_set_self]
      simp [AddressBook.get, hm, hh]
    | some d =>
      simp [AddressBook.get, hm, hh]

theorem registered_get_other (A : AddressBook) (a a' : Address) (h h' : Hash)
    (hne : (a', h') ≠ (a, h)) :
    AddressBook.get (registered A a h) a' h' = AddressBook.get A a' h' := by
  unfold registered
  cases hm : GoMap.get A a with
  | none =>
    simp only
    by_cases ha : a' = a
    · subst ha
      have hh : h' ≠ h := fun e => hne (by rw [e])
      rw [AddressBook_get_bookSet_self, GoMap_get_set_ne _ _ _ _ hh]
      simp [AddressBook.get, hm, GoMap_get_empty]
    · rw [AddressBook_get_bookSet_ne _ _ _ _ _ ha]
  | some m =>
    simp only
    split_ifs with hi
    · by_cases ha : a' = a
      · subst ha
        have hh : h' ≠ h := fun e => hne (by rw [e])
        rw [AddressBook_get_bookSet_self, GoMap_get_set_ne _ _ _ _ hh]
        simp [AddressBook.get, hm]
      · rw [AddressBook_get_bookSet_ne _ _ _ _ _ ha]
    · rfl

theorem AddressBook_mem_pairs (A : AddressBook) (a : Address) (h : Hash) :
    (a, h) ∈ A.pairs ↔ (AddressBook.get A a h).isSome := by
  unfold AddressBook.pairs AddressBook.triples AddressBook.get GoMap.get
  simp only [List.mem_map, List.mem_flatMap, Prod.mk.injEq]
  constructor
  · rintro ⟨⟨a1, h1, d⟩, ⟨e, he, f, hf, hef⟩, h2, h3⟩
    simp only [Prod.mk.injEq] at hef
    obtain ⟨e1, e2, e3⟩ := hef
    simp only at h2 h3
    subst h2 h3
    have hl : AList.lookup a1 A = some e.2 := by
      rw [← Option.mem_def, AList.mem_lookup_iff, ← e1]; exact he
    rw [hl]
    have hl2 : AList.lookup h1 e.2 = some f.2 := by
      rw [← Option.mem_def, AList.mem_lookup_iff, ← e2]; exact hf
    simp only [hl2, Option.isSome_some]
  · intro hs
    cases hl : AList.lookup a A with
    | none => simp [hl] at hs
    | some m =>
      simp only [hl] at hs
      obtain ⟨d, hd⟩ := Option.isSome_iff_exists.mp hs
      have he : (⟨a, m⟩ : Sigma (fun _ : Address => CodeHashMap)) ∈ A.entries := by
        rw [← AList.mem_lookup_iff, Option.mem_def]; exact hl
      have hf : (⟨h, d⟩ : Sigma (fun _ : Hash => addressData)) ∈ m.entries := by
        rw [← AList.mem_lookup_iff, Option.mem_def]; exact hd
      exact ⟨(a, h, d), ⟨⟨a, m⟩, he, ⟨h, d⟩, hf, rfl⟩, rfl, rfl⟩

theorem AddressBook_pairs_nodup (A : AddressBook) : A.pairs.Nodup := by
  unfold AddressBook.pairs AddressBook.triples
  rw [List.map_flatMap]
  rw [List.nodup_flatMap]
  constructor
  · intro e _
    simp only [List.map_map]
    have hk : e.2.keys.Nodup := e.2.nodupKeys
    have : List.map ((fun e => (e.1, e.2.1)) ∘ fun f => (e.1, f.1, f.2)) e.2.entries =
        e.2.keys.map (fun k => (e.1, k)) := by
      simp [AList.keys, List.keys, List.map_map, Function.comp_def]
    rw [this]
    exact hk.map (fun x y hxy => by simpa using hxy)
  · have hk : A.entries.NodupKeys := A.nodupKeys
    rw [List.NodupKeys, List.keys, List.Nodup, List.pairwise_map] at hk
    refine hk.imp ?_
    intro e e' hne
    simp only [Function.onFun, List.map_map]
    intro x hx hx'
    simp only [List.mem_map, Function.comp] at hx hx'
    obtain ⟨f, _, hf⟩ := hx
    obtain ⟨f', _, hf'⟩ := hx'
    apply hne
    have := congrArg Prod.fst (hf.trans hf'.symm)
    simpa using this

theorem AddressBook_count_pairs (A : AddressBook) (a : Address) (h : Hash)
    (hs : (AddressBook.get A a h).isSome) :
    (A.pairs.filter (fun e => decide (e = (a, h)))).length = 1 := by
  have hm := (AddressBook_mem_pairs A a h).mpr hs
  have hn := AddressBook_pairs_nodup A
  generalize A.pairs = l at hm hn
  induction l with
  | nil => simp at hm
  | cons x xs ih =>
    rw [List.nodup_cons] at hn
    by_cases hx : x = (a, h)
    · subst hx
      have : xs.filter (fun e => decide (e = (a, h))) = [] := by
        rw [List.filter_eq_nil_iff]
        intro y hy
        simp only [decide_eq_true_eq]
        intro hyx
        exact hn.1 (hyx ▸ hy)
      rw [List.filter_cons, this]
      simp
    · have hm2 : (a, h) ∈ xs := by
        rcases List.mem_cons.mp hm with h1 | h1
        · exact absurd h1.symm hx
        · exact h1
      simp [List.filter_cons, hx, ih hm2 hn.2]

/-- C7: `finish` on a frame sets `GasUsed`, `Output` and `Status` (1 exactly when `err` is
absent, 0 otherwise); it rereads the code hash of `To` exactly when the frame is a create frame
and leaves it alone otherwise; path, children, from, to, gas, input, precompile flag, value,
type, variant and create flag are untouched, as is every other record, the frame stack and the
preimage ledger.  The create flag is the `create` argument of `CaptureStart` for the root and
`typ = CREATE ∨ typ = CREATE2` for a frame populated by `CaptureEnter`. -/
theorem finish_postcondition (t : openchainTracer) (r : Nat) (c : callRecord)
    (env : IntraBlockState) (output : Bytes) (gasUsed : Nat) (err : Option String)
    (h : t.heap[r]? = some (.call c)) :
    (∃ t' c', callRecord.finish t r env output gasUsed err = some t' ∧
      t'.heap[r]? = some (.call c') ∧
      c'.GasUsed = gasUsed ∧ c'.Output = output ∧
      (c'.Status = 1 ↔ err = none) ∧ (c'.Status = 0 ↔ err ≠ none) ∧
      (c.create = true → c'.Codehash = env.GetCodeHash c.To) ∧
      (c.create = false → c'.Codehash = c.Codehash) ∧
      c'.Path = c.Path ∧ c'.Children = c.Children ∧ c'.From = c.From ∧ c'.To = c.To ∧
      c'.Gas = c.Gas ∧ c'.Input = c.Input ∧ c'.IsPrecompile = c.IsPrecompile ∧
      c'.Value = c.Value ∧ c'.Type_ = c.Type_ ∧ c'.Variant = c.Variant ∧
      c'.create = c.create ∧
      (∀ q, q ≠ r → t'.heap[q]? = t.heap[q]?) ∧ t'.heap.length = t.heap.length ∧
      t'.callstack = t.callstack ∧ t'.preimages = t.preimages) ∧
    (∀ (keccak256 : Bytes → Hash) (env0 : IntraBlockState) (from_ to_ : Address)
      (precompile create : Bool) (input : Bytes) (gas : Nat) (value : Option U256),
      ∃ t0 c0, CaptureStart (newOpenchainTracer keccak256) env0 from_ to_ precompile create
          input gas value = some t0 ∧
        t0.callstack = [0] ∧ t0.heap[0]? = some (.call c0) ∧ c0.create = create) ∧
    (∀ (env1 : IntraBlockState) (typ : OpCode) (from_ to_ : Address) (precompile create : Bool)
      (input : Bytes) (gas : Nat) (value : Option U256),
      t.callstack.getLast? = some r →
      ∃ t1 c1, CaptureEnter t env1 typ from_ to_ precompile create input gas value = some t1 ∧
        t1.heap[r]? = some (.call c1) ∧
        (c1.create = true ↔ (typ = vm.CREATE ∨ typ = vm.CREATE2))) := by
  have hlt := getElem?_lt_of_eq_some h
  refine ⟨⟨_, finished c env output gasUsed err, finish_eq t r c env output gasUsed err h,
    List.getElem?_set_self hlt, rfl, rfl, ?_, ?_, ?_, ?_, rfl, rfl, rfl, rfl, rfl, rfl, rfl, rfl,
    rfl, rfl, rfl, ?_, ?_, rfl, rfl⟩, ?_, ?_⟩
  · cases err <;> simp [finished]
  · cases err <;> simp [finished]
  · intro hc; simp [finished, hc]
  · intro hc; simp [finished, hc]
  · intro q hq
    exact List.getElem?_set_ne (Ne.symm hq)
  · simp
  · intro keccak256 env0 from_ to_ precompile create input gas value
    refine ⟨_, rootRecord env0 from_ to_ precompile create input gas value,
      CaptureStart_nil _ env0 from_ to_ precompile create input gas value rfl, rfl, rfl, rfl⟩
  · intro env1 typ from_ to_ precompile create input gas value htop
    refine ⟨_, entered c env1 typ from_ to_ precompile input gas value,
      CaptureEnter_eq t r c env1 typ from_ to_ precompile create input gas value htop h,
      List.getElem?_set_self hlt, ?_⟩
    simp [entered]

/-- Witness for C7: the root frame of the sample trace, finished with an error. -/
theorem finish_postcondition_witness :
    sampleTracer.heap[0]? = some (.call (rootRecord sampleEnv 1 2 false false [] 10 none)) ∧
    ∃ t' c', callRecord.finish sampleTracer 0 sampleEnv [4] 3 (some "reverted") = some t' ∧
      t'.heap[0]? = some (.call c') ∧ c'.GasUsed = 3 ∧ c'.Output = [4] :=
  ⟨rfl, by
    obtain ⟨⟨t', c', h1, h2, h3, h4, _⟩, _⟩ :=
      finish_postcondition sampleTracer 0 (rootRecord sampleEnv 1 2 false false [] 10 none)
        sampleEnv [4] 3 (some "reverted") rfl
    exact ⟨t', c', h1, h2, h3, h4⟩⟩

/-- C9: the registration `finish` makes in the address book.  After it the book has an entry
for the frame's pair (`To`, `Codehash`); a book that already had one is left exactly as it
was; a new entry is the empty placeholder; no entry of another pair is removed or altered;
the pair occurs once among the keys of the book; and finishing a second frame with the same
pair changes nothing in the book. -/
theorem finish_registers_once (t : openchainTracer) (r : Nat) (c : callRecord)
    (env : IntraBlockState) (output : Bytes) (gasUsed : Nat) (err : Option String)
    (h : t.heap[r]? = some (.call c)) :
    ∃ t' c', callRecord.finish t r env output gasUsed err = some t' ∧
      t'.heap[r]? = some (.call c') ∧
      (AddressBook.get t'.addresses c'.To c'.Codehash).isSome ∧
      ((AddressBook.get t.addresses c'.To c'.Codehash).isSome → t'.addresses = t.addresses) ∧
      (AddressBook.get t.addresses c'.To c'.Codehash = none →
        AddressBook.get t'.addresses c'.To c'.Codehash = some addressData.placeholder) ∧
      (∀ a' h', (a', h') ≠ (c'.To, c'.Codehash) →
        AddressBook.get t'.addresses a' h' = AddressBook.get t.addresses a' h') ∧
      (t'.addresses.pairs.filter (fun e => decide (e = (c'.To, c'.Codehash)))).length = 1 ∧
      (∀ (r2 : Nat) (env2 : IntraBlockState) (output2 : Bytes) (gasUsed2 : Nat)
        (err2 : Option String) (t2 : openchainTracer) (c2 : callRecord),
        r2 ≠ r → callRecord.finish t' r2 env2 output2 gasUsed2 err2 = some t2 →
        t2.heap[r2]? = some (.call c2) → c2.To = c'.To → c2.Codehash = c'.Codehash →
        t2.addresses = t'.addresses ∧
        (t2.addresses.pairs.filter (fun e => decide (e = (c'.To, c'.Codehash)))).length = 1) := by
  have hlt := getElem?_lt_of_eq_some h
  have hsome : (AddressBook.get (registered t.addresses c.To
      (finished c env output gasUsed err).Codehash) c.To
      (finished c env output gasUsed err).Codehash).isSome := by
    rw [registered_get_self]; rfl
  refine ⟨_, finished c env output gasUsed err, finish_eq t r c env output gasUsed err h,
    List.getElem?_set_self hlt, hsome, ?_, ?_, ?_, AddressBook_count_pairs _ _ _ hsome, ?_⟩
  · intro hs
    exact registered_of_isSome _ _ _ hs
  · intro hn
    show AddressBook.get (registered t.addresses c.To _) c.To _ = _
    rw [registered_get_self]
    have hn' : AddressBook.get t.addresses c.To (finished c env output gasUsed err).Codehash = none := hn
    rw [hn']; rfl
  · intro a' h' hne
    exact registered_get_other _ _ _ _ _ hne
  · intro r2 env2 output2 gasUsed2 err2 t2 c2 hr hf hc2 hto hch
    obtain ⟨d, hd⟩ := finish_some _ _ _ _ _ _ _ hf
    rw [finish_eq _ r2 d env2 output2 gasUsed2 err2 hd] at hf
    injection hf with hf
    subst hf
    simp only at hc2 ⊢
    rw [List.getElem?_set_self (getElem?_lt_of_eq_some hd)] at hc2
    injection hc2 with hc2
    injection hc2 with hc2
    subst hc2
    have hto' : d.To = c.To := hto
    have hch' : (finished d env2 output2 gasUsed2 err2).Codehash =
        (finished c env output gasUsed err).Codehash := hch
    rw [hto', hch']
    have := registered_of_isSome _ _ _ hsome
    rw [this]
    exact ⟨rfl, AddressBook_count_pairs _ _ _ hsome⟩

/-- Witness for C9: the root frame of the sample trace registers the pair (2, 102). -/
theorem finish_registers_once_witness :
    sampleTracer.heap[0]? = some (.call (rootRecord sampleEnv 1 2 false false [] 10 none)) ∧
    ∃ t', callRecord.finish sampleTracer 0 sampleEnv [] 3 none = some t' ∧
      (AddressBook.get t'.addresses 2 102).isSome :=
  ⟨rfl, by
    obtain ⟨t', c', h1, h2, h3, _⟩ :=
      finish_registers_once sampleTracer 0 (rootRecord sampleEnv 1 2 false false [] 10 none)
        sampleEnv [] 3 none rfl
    have h4 := finish_eq sampleTracer 0 (rootRecord sampleEnv 1 2 false false [] 10 none)
        sampleEnv [] 3 none rfl
    rw [h4] at h1
    injection h1 with h1
    subst h1
    simp only [List.getElem?_set_self (show 0 < sampleTracer.heap.length by decide)] at h2
    injection h2 with h2
    injection h2 with h2
    subst h2
    exact ⟨_, h4, h3⟩⟩

theorem pushRecord_eq (t : openchainTracer) (r top : Nat) (c : callRecord)
    (h1 : t.callstack.getLast? = some top) (h2 : t.heap[top]? = some (.call c)) :
    pushRecord t r = some (c.Path ++ "." ++ strconv.Itoa c.Children.length,
      { t with heap := t.heap.set top (.call { c with Children := c.Children ++ [r] }) }) := by
  simp [pushRecord, h1, h2]

theorem leaf_steps_run (steps : List (IntraBlockState × OpCode × ScopeContext)) :
    ∀ (t : openchainTracer) (top : Nat) (c : callRecord),
    t.callstack.getLast? = some top → t.heap[top]? = some (.call c) →
    (∀ s ∈ steps, (leafRecord s.1 s.2.1 s.2.2).isSome) →
    ∃ t' c', run t (stepEvents steps) = some t' ∧
      t'.callstack = t.callstack ∧ t'.preimages = t.preimages ∧ t'.addresses = t.addresses ∧
      t'.heap.length = t.heap.length + steps.length ∧
      t'.heap[top]? = some (.call c') ∧
      c' = { c with Children := c.Children ++ (List.range steps.length).map (t.heap.length + ·) } ∧
      (∀ q, q < t.heap.length → q ≠ top → t'.heap[q]? = t.heap[q]?) ∧
      (∀ i s, steps[i]? = some s → ∃ rec, leafRecord s.1 s.2.1 s.2.2 = some rec ∧
        t'.heap[t.heap.length + i]? =
          some (rec.setPath (c.Path ++ "." ++ strconv.Itoa (c.Children.length + i)))) := by
  induction steps with
  | nil =>
    intro t top c h1 h2 _
    exact ⟨t, c, rfl, rfl, rfl, rfl, rfl, h2, by simp, fun _ _ _ => rfl,
      fun i s hs => by simp at hs⟩
  | cons s steps ih =>
    intro t top c h1 h2 hl
    obtain ⟨rec, hrec⟩ := Option.isSome_iff_exists.mp (hl s (List.mem_cons_self _ _))
    have htop := getElem?_lt_of_eq_some h2
    have hstep : step t (.CaptureState s.1 s.2.1 s.2.2) =
        some { t with heap := appendChild t.heap top c rec } := by
      simp only [step]
      rw [CaptureState_leaf t _ _ _ rec hrec, pushAndSetPath_alloc t top c rec h1 h2]
    obtain ⟨t', c', hr, hcs, hpre, hadr, hlen, hget, hc', hother, hnew⟩ :=
      ih { t with heap := appendChild t.heap top c rec } top
        { c with Children := c.Children ++ [t.heap.length] } h1
        (appendChild_get_top rec h2) (fun x hx => hl x (List.mem_cons_of_mem _ hx))
    simp only [appendChild_length] at hlen hnew hother hc'
    refine ⟨t', c', ?_, hcs, hpre, hadr, ?_, hget, ?_, ?_, ?_⟩
    · simp only [stepEvents, List.map_cons, run]
      rw [hstep]
      exact hr
    · simp only [List.length_cons]; omega
    · rw [hc']
      simp only [List.length_cons, List.range_succ_eq_map, List.map_cons, List.map_map,
        List.append_assoc, List.singleton_append, Nat.add_zero]
      congr 3
      apply List.map_congr_left
      intro i _
      simp only [Function.comp]
      omega
    · intro q hq hne
      rw [hother q (by omega) hne]
      exact appendChild_get_other c rec hne hq
    · intro i x hx
      cases i with
      | zero =>
        simp only [List.getElem?_cons_zero] at hx
        injection hx with hx
        subst hx
        refine ⟨rec, hrec, ?_⟩
        rw [Nat.add_zero, Nat.add_zero, hother _ (by omega) (by omega)]
        exact appendChild_get_new _ _ _ _
      | succ i =>
        simp only [List.getElem?_cons_succ] at hx
        obtain ⟨rec', h3, h4⟩ := hnew i x hx
        refine ⟨rec', h3, ?_⟩
        have e1 : t.heap.length + (i + 1) = t.heap.length + 1 + i := by omega
        rw [e1, h4]
        simp only [List.length_append, List.length_singleton]
        have e2 : c.Children.length + 1 + i = c.Children.length + (i + 1) := by omega
        rw [e2]

/-- C4: on a state whose top frame `c` has path `p` and `n` children, `pushRecord r` returns
`p ++ "." ++ decimal n` and appends `r` as child number `n` of the top frame, changing nothing
else; so consecutive leaf step events on that frame receive the paths `p.n`, `p.(n+1)`, ... in
the order observed; and two storage reads directly under the root of a fresh trace get the
paths "0.0" and "0.1". -/
theorem pushRecord_allocates_path (t : openchainTracer) (top : Nat) (c : callRecord)
    (h1 : t.callstack.getLast? = some top) (h2 : t.heap[top]? = some (.call c)) :
    (∀ r, pushRecord t r = some (c.Path ++ "." ++ strconv.Itoa c.Children.length,
        { t with heap := t.heap.set top (.call { c with Children := c.Children ++ [r] }) }) ∧
      (c.Children ++ [r])[c.Children.length]? = some r) ∧
    (∀ steps : List (IntraBlockState × OpCode × ScopeContext),
      (∀ s ∈ steps, (leafRecord s.1 s.2.1 s.2.2).isSome) →
      ∃ t' c', run t (stepEvents steps) = some t' ∧
        t'.callstack = t.callstack ∧ t'.preimages = t.preimages ∧ t'.addresses = t.addresses ∧
        t'.heap.length = t.heap.length + steps.length ∧
        t'.heap[top]? = some (.call c') ∧
        c' = { c with
          Children := c.Children ++ (List.range steps.length).map (t.heap.length + ·) } ∧
        (∀ q, q < t.heap.length → q ≠ top → t'.heap[q]? = t.heap[q]?) ∧
        (∀ i s, steps[i]? = some s → ∃ rec, leafRecord s.1 s.2.1 s.2.2 = some rec ∧
          t'.heap[t.heap.length + i]? =
            some (rec.setPath (c.Path ++ "." ++ strconv.Itoa (c.Children.length + i))))) ∧
    (∀ (keccak256 : Bytes → Hash) (env0 env1 env2 : IntraBlockState) (from_ to_ : Address)
      (precompile create : Bool) (input : Bytes) (gas : Nat) (value : Option U256)
      (scope1 scope2 : ScopeContext),
      ∃ t' root, run (newOpenchainTracer keccak256)
          [.CaptureStart env0 from_ to_ precompile create input gas value,
           .CaptureState env1 vm.SLOAD scope1, .CaptureState env2 vm.SLOAD scope2] = some t' ∧
        t'.callstack = [0] ∧ t'.heap.length = 3 ∧
        t'.heap[0]? = some (.call root) ∧ root.Path = "0" ∧ root.Children = [1, 2] ∧
        t'.heap[1]? = some (.sload
          { Path := "0.0", Slot := scope1.Stack.Peek, Type_ := "sload",
            Value := env1.GetState scope1.Contract.Address scope1.Stack.Peek }) ∧
        t'.heap[2]? = some (.sload
          { Path := "0.1", Slot := scope2.Stack.Peek, Type_ := "sload",
            Value := env2.GetState scope2.Contract.Address scope2.Stack.Peek })) := by
  refine ⟨fun r => ⟨pushRecord_eq t r top c h1 h2, by simp⟩,
    fun steps hs => leaf_steps_run steps t top c h1 h2 hs, ?_⟩
  intro keccak256 env0 env1 env2 from_ to_ precompile create input gas value scope1 scope2
  have hs := CaptureStart_nil (newOpenchainTracer keccak256) env0 from_ to_ precompile create
    input gas value rfl
  obtain ⟨t', c', hr, hcs, _, _, hlen, hget, hc', _, hnew⟩ :=
    leaf_steps_run [(env1, vm.SLOAD, scope1), (env2, vm.SLOAD, scope2)]
      { (newOpenchainTracer keccak256) with
        heap := [.call (rootRecord env0 from_ to_ precompile create input gas value)],
        callstack := [0] } 0 (rootRecord env0 from_ to_ precompile create input gas value)
      rfl rfl (by intro s hs; simp at hs; rcases hs with hs | hs <;> subst hs <;> rfl)
  refine ⟨t', c', ?_, hcs, hlen, hget, ?_, ?_, ?_, ?_⟩
  · simp only [run, step, hs]
    exact hr
  · rw [hc']; rfl
  · rw [hc']; rfl
  · obtain ⟨rec, h3, h4⟩ := hnew 0 _ rfl
    simp only [leafRecord, if_true] at h3
    injection h3 with h3
    subst h3
    simp only [rootRecord, List.length_nil, List.length_singleton, Nat.zero_add, Nat.add_zero,
      Nat.reduceAdd] at h4
    exact h4
  · obtain ⟨rec, h3, h4⟩ := hnew 1 _ rfl
    simp only [leafRecord, if_true] at h3
    injection h3 with h3
    subst h3
    simp only [rootRecord, List.length_nil, List.length_singleton, Nat.zero_add, Nat.add_zero,
      Nat.reduceAdd] at h4
    exact h4

/-- Witness for C4: three leaf steps on the root of the sample trace. -/
theorem pushRecord_allocates_path_witness :
    sampleTracer.callstack.getLast? = some 0 ∧
    sampleTracer.heap[0]? = some (.call (rootRecord sampleEnv 1 2 false false [] 10 none)) ∧
    (pushRecord sampleTracer 1).map Prod.fst = some "0.0" :=
  ⟨rfl, rfl, by
    rw [((pushRecord_allocates_path sampleTracer 0
      (rootRecord sampleEnv 1 2 false false [] 10 none) rfl rfl).1 1).1]
    rfl⟩

/-- Witness for C1: the sample trace after its root callback has one frame on the stack. -/
theorem GetResult_iff_single_frame_witness :
    run (newOpenchainTracer sampleHasher) [sampleStart] = some sampleTracer ∧
    ∃ r, GetResult sampleTracer = .ok r :=
  ⟨rfl, (GetResult_iff_single_frame sampleHasher [sampleStart] sampleTracer rfl).1.mpr rfl⟩

theorem TraceNode_size_pos : ∀ t : TraceNode, 0 < t.size
  | .sload _ => by simp [TraceNode.size]
  | .sstore _ => by simp [TraceNode.size]
  | .log _ => by simp [TraceNode.size]
  | .call _ _ => by simp [TraceNode.size]

theorem TraceNode_sizeList_append (ts us : List TraceNode) :
    TraceNode.sizeList (ts ++ us) = TraceNode.sizeList ts + TraceNode.sizeList us := by
  induction ts with
  | nil => simp [TraceNode.sizeList]
  | cons t ts ih => simp [TraceNode.sizeList, ih, Nat.add_assoc]

mutual
theorem Layout_frame {h h' : List anyRecord} : ∀ (t : TraceNode) (p : Nat) (path : String),
    Layout h t p path → (∀ q, p ≤ q → q < p + t.size → h'[q]? = h[q]?) → Layout h' t p path
  | .sload r, p, path, hl, hf => by
    simp only [Layout, TraceNode.size] at *
    rw [hf p (le_refl _) (by omega)]; exact hl
  | .sstore r, p, path, hl, hf => by
    simp only [Layout, TraceNode.size] at *
    rw [hf p (le_refl _) (by omega)]; exact hl
  | .log r, p, path, hl, hf => by
    simp only [Layout, TraceNode.size] at *
    rw [hf p (le_refl _) (by omega)]; exact hl
  | .call r ts, p, path, hl, hf => by
    simp only [Layout, TraceNode.size] at *
    refine ⟨?_, hl.2.1, ?_⟩
    · rw [hf p (le_refl _) (by omega)]; exact hl.1
    · exact LayoutList_frame ts (p + 1) path 0 r.Children hl.2.2
        (fun q h1 h2 => hf q (by omega) (by omega))
theorem LayoutList_frame {h h' : List anyRecord} :
    ∀ (ts : List TraceNode) (lo : Nat) (path : String) (i : Nat) (cs : List Nat),
    LayoutList h ts lo path i cs →
    (∀ q, lo ≤ q → q < lo + TraceNode.sizeList ts → h'[q]? = h[q]?) →
    LayoutList h' ts lo path i cs
  | [], lo, path, i, cs, hl, hf => by
    simp only [LayoutList] at *; exact hl
  | t :: ts, lo, path, i, cs, hl, hf => by
    simp only [LayoutList, TraceNode.sizeList] at *
    obtain ⟨cs', h1, h2, h3⟩ := hl
    exact ⟨cs', h1, Layout_frame t lo _ h2 (fun q h1 h2 => hf q h1 (by omega)),
      LayoutList_frame ts _ path _ cs' h3 (fun q h1 h2 => hf q (by omega) (by omega))⟩
end

theorem LayoutList_length_eq {h : List anyRecord} {path : String} :
    ∀ (ts : List TraceNode) (lo i : Nat) (cs : List Nat),
    LayoutList h ts lo path i cs → cs.length = ts.length := by
  intro ts
  induction ts with
  | nil => intro lo i cs hl; simp only [LayoutList] at hl; simp [hl]
  | cons t ts ih =>
    intro lo i cs hl
    simp only [LayoutList] at hl
    obtain ⟨cs', h1, _, h3⟩ := hl
    subst h1
    simp [ih _ _ _ h3]

theorem LayoutList_snoc {h : List anyRecord} {path : String} (t : TraceNode) :
    ∀ (ts : List TraceNode) (lo i : Nat) (cs : List Nat),
    LayoutList h ts lo path i cs →
    Layout h t (lo + TraceNode.sizeList ts) (path ++ "." ++ strconv.Itoa (i + ts.length)) →
    LayoutList h (ts ++ [t]) lo path i (cs ++ [lo + TraceNode.sizeList ts]) := by
  intro ts
  induction ts with
  | nil =>
    intro lo i cs hl ht
    simp only [LayoutList] at hl
    subst hl
    simp only [TraceNode.sizeList, Nat.add_zero, List.length_nil] at ht
    simp only [List.nil_append, LayoutList, TraceNode.sizeList, Nat.add_zero]
    exact ⟨[], rfl, ht, rfl⟩
  | cons u ts ih =>
    intro lo i cs hl ht
    simp only [LayoutList] at hl
    obtain ⟨cs', h1, h2, h3⟩ := hl
    subst h1
    simp only [TraceNode.sizeList, List.length_cons] at ht
    have e1 : lo + (u.size + TraceNode.sizeList ts) = lo + u.size + TraceNode.sizeList ts := by
      omega
    have e2 : i + (ts.length + 1) = i + 1 + ts.length := by omega
    rw [e1, e2] at ht
    have h4 := ih (lo + u.size) (i + 1) cs' h3 ht
    simp only [List.cons_append, LayoutList, TraceNode.sizeList]
    exact ⟨cs' ++ [lo + u.size + TraceNode.sizeList ts], by rw [e1], h2, h4⟩

mutual
theorem Layout_marshal {h : List anyRecord} : ∀ (t : TraceNode) (p : Nat) (path : String),
    Layout h t p path → ∀ fuel, t.size ≤ fuel → marshalNode h fuel p = some t
  | .sload r, p, path, hl, fuel, hf => by
    simp only [Layout, TraceNode.size] at hl hf
    obtain ⟨f, rfl⟩ : ∃ f, fuel = f + 1 := ⟨fuel - 1, by omega⟩
    simp [marshalNode, hl.1]
  | .sstore r, p, path, hl, fuel, hf => by
    simp only [Layout, TraceNode.size] at hl hf
    obtain ⟨f, rfl⟩ : ∃ f, fuel = f + 1 := ⟨fuel - 1, by omega⟩
    simp [marshalNode, hl.1]
  | .log r, p, path, hl, fuel, hf => by
    simp only [Layout, TraceNode.size] at hl hf
    obtain ⟨f, rfl⟩ : ∃ f, fuel = f + 1 := ⟨fuel - 1, by omega⟩
    simp [marshalNode, hl.1]
  | .call r ts, p, path, hl, fuel, hf => by
    simp only [Layout, TraceNode.size] at hl hf
    obtain ⟨f, rfl⟩ : ∃ f, fuel = f + 1 := ⟨fuel - 1, by omega⟩
    have h1 := LayoutList_marshal ts (p + 1) path 0 r.Children hl.2.2 f (by omega)
    simp [marshalNode, hl.1, h1]
theorem LayoutList_marshal {h : List anyRecord} :
    ∀ (ts : List TraceNode) (lo : Nat) (path : String) (i : Nat) (cs : List Nat),
    LayoutList h ts lo path i cs → ∀ fuel, TraceNode.sizeList ts ≤ fuel →
    marshalList (marshalNode h fuel) cs = some ts
  | [], lo, path, i, cs, hl, fuel, hf => by
    simp only [LayoutList] at hl
    subst hl
    rfl
  | t :: ts, lo, path, i, cs, hl, fuel, hf => by
    simp only [LayoutList, TraceNode.sizeList] at hl hf
    obtain ⟨cs', h1, h2, h3⟩ := hl
    subst h1
    have h4 := Layout_marshal t lo _ h2 fuel (by omega)
    have h5 := LayoutList_marshal ts _ path _ cs' h3 fuel (by omega)
    simp [marshalList, h4, h5]
end

theorem Spine_lt_length {h : List anyRecord} : ∀ (rest : List Nat) (p : Nat) (path : String),
    Spine h p path rest → p < h.length := by
  intro rest
  cases rest with
  | nil =>
    intro p path hs
    simp only [Spine] at hs
    obtain ⟨r, ts, h1, _⟩ := hs
    exact getElem?_lt_of_eq_some h1
  | cons q rest =>
    intro p path hs
    simp only [Spine] at hs
    obtain ⟨r, cs, ts, h1, _⟩ := hs
    exact getElem?_lt_of_eq_some h1

theorem Spine_lt_of_mem {h : List anyRecord} : ∀ (rest : List Nat) (p : Nat) (path : String),
    Spine h p path rest → ∀ x ∈ rest, p < x := by
  intro rest
  induction rest with
  | nil => intro p path _ x hx; simp at hx
  | cons q rest ih =>
    intro p path hs x hx
    simp only [Spine] at hs
    obtain ⟨r, cs, ts, _, _, _, _, h5, h6⟩ := hs
    rcases List.mem_cons.mp hx with hx | hx
    · subst hx; omega
    · have := ih q _ h6 x hx
      omega

theorem Spine_top_le {h : List anyRecord} (rest : List Nat) (p : Nat) (path : String)
    (hs : Spine h p path rest) (top : Nat) (ht : (p :: rest).getLast? = some top) : p ≤ top := by
  have hm := List.mem_of_getLast?_eq_some ht
  rcases List.mem_cons.mp hm with hx | hx
  · omega
  · exact Nat.le_of_lt (Spine_lt_of_mem rest p path hs top hx)

theorem Spine_frame {h h' : List anyRecord} : ∀ (rest : List Nat) (p : Nat) (path : String),
    Spine h p path rest → h'.length = h.length → (∀ x, p ≤ x → h'[x]? = h[x]?) →
    Spine h' p path rest := by
  intro rest
  induction rest with
  | nil =>
    intro p path hs hl hf
    simp only [Spine] at hs ⊢
    obtain ⟨r, ts, h1, h2, h3, h4⟩ := hs
    exact ⟨r, ts, by rw [hf p (le_refl _)]; exact h1, h2,
      LayoutList_frame ts _ _ _ _ h3 (fun q hq _ => hf q (by omega)), by rw [hl]; exact h4⟩
  | cons q rest ih =>
    intro p path hs hl hf
    simp only [Spine] at hs ⊢
    obtain ⟨r, cs, ts, h1, h2, h3, h4, h5, h6⟩ := hs
    exact ⟨r, cs, ts, by rw [hf p (le_refl _)]; exact h1, h2, h3,
      LayoutList_frame ts _ _ _ _ h4 (fun q hq _ => hf q (by omega)), h5,
      ih q _ h6 hl (fun x hx => hf x (by omega))⟩

theorem getLast?_cons_cons {α : Type} (a b : α) (l : List α) :
    (a :: b :: l).getLast? = (b :: l).getLast? := by
  simp [List.getLast?_cons_cons]

/-- Replacing the top segment of a spine: cells below the top frame stay, and the top frame,
as a spine of its own, is replaced by the spine `ext` starting at the same pointer. -/
theorem Spine_graft {h h' : List anyRecord} (ext : List Nat) :
    ∀ (rest : List Nat) (p : Nat) (path : String) (top : Nat),
    Spine h p path rest → (p :: rest).getLast? = some top →
    (∀ x, x < top → h'[x]? = h[x]?) →
    (∀ path', Spine h top path' [] → Spine h' top path' ext) →
    Spine h' p path (rest ++ ext) := by
  intro rest
  induction rest with
  | nil =>
    intro p path top hs ht hlow hnew
    simp only [List.getLast?_singleton, Option.some.injEq] at ht
    subst ht
    exact hnew path hs
  | cons q rest ih =>
    intro p path top hs ht hlow hnew
    have hs' := hs
    simp only [Spine] at hs
    obtain ⟨r, cs, ts, h1, h2, h3, h4, h5, h6⟩ := hs
    rw [getLast?_cons_cons] at ht
    have hq : q ≤ top := Spine_top_le rest q _ h6 top ht
    simp only [List.cons_append, Spine]
    refine ⟨r, cs, ts, by rw [hlow p (by omega)]; exact h1, h2, h3,
      LayoutList_frame ts _ _ _ _ h4 (fun x _ hx => hlow x (by omega)), h5,
      ih q _ top h6 ht hlow hnew⟩

theorem Spine_set_top {h : List anyRecord} {top : Nat} {c c' : callRecord} {path : String}
    (hs : Spine h top path []) (hc : h[top]? = some (.call c)) (h1 : c'.Path = c.Path)
    (h2 : c'.Children = c.Children) : Spine (h.set top (.call c')) top path [] := by
  simp only [Spine] at hs ⊢
  obtain ⟨r, ts, g1, g2, g3, g4⟩ := hs
  rw [hc] at g1
  injection g1 with g1
  injection g1 with g1
  subst g1
  refine ⟨c', ts, List.getElem?_set_self (getElem?_lt_of_eq_some hc), by rw [h1]; exact g2, ?_,
    by rw [List.length_set]; exact g4⟩
  rw [h2]
  exact LayoutList_frame ts _ _ _ _ g3 (fun q hq _ => List.getElem?_set_ne (by omega))

theorem Layout_nodeOf_new {h : List anyRecord} {p : Nat} {rec : anyRecord} {path : String}
    (hp : h[p]? = some (rec.setPath path)) (hrec : ∀ d, rec = .call d → d.Children = []) :
    Layout h (nodeOf (rec.setPath path)) p path := by
  cases rec with
  | sload r => simpa [anyRecord.setPath, nodeOf, Layout] using hp
  | sstore r => simpa [anyRecord.setPath, nodeOf, Layout] using hp
  | log r => simpa [anyRecord.setPath, nodeOf, Layout] using hp
  | call r =>
    have := hrec r rfl
    simp only [anyRecord.setPath, nodeOf, Layout] at hp ⊢
    exact ⟨hp, trivial, by simp [LayoutList, this]⟩

theorem nodeOf_size (rec : anyRecord) : (nodeOf rec).size = 1 := by
  cases rec <;> simp [nodeOf, TraceNode.size, TraceNode.sizeList]

theorem Spine_appendChild_top {h : List anyRecord} {top : Nat} {c : callRecord} {path : String}
    {rec : anyRecord} (hs : Spine h top path []) (hc : h[top]? = some (.call c))
    (hrec : ∀ d, rec = .call d → d.Children = []) :
    Spine (appendChild h top c rec) top path [] := by
  simp only [Spine] at hs ⊢
  obtain ⟨r, ts, g1, g2, g3, g4⟩ := hs
  rw [hc] at g1
  injection g1 with g1
  injection g1 with g1
  subst g1
  have hlen := LayoutList_length_eq _ _ _ _ g3
  refine ⟨_, ts ++ [nodeOf (rec.setPath (c.Path ++ "." ++ strconv.Itoa c.Children.length))],
    appendChild_get_top rec hc, g2, ?_, ?_⟩
  · have g3' : LayoutList (appendChild h top c rec) ts (top + 1) path 0 c.Children :=
      LayoutList_frame ts _ _ _ _ g3
        (fun q hq hq2 => appendChild_get_other c rec (by omega) (by omega))
    have := LayoutList_snoc
      (nodeOf (rec.setPath (c.Path ++ "." ++ strconv.Itoa c.Children.length))) ts _ _ _ g3'
      (by
        rw [g4, Nat.zero_add, ← hlen, ← g2]
        exact Layout_nodeOf_new (appendChild_get_new h top c rec) hrec)
    rw [g4] at this
    exact this
  · rw [TraceNode_sizeList_append, appendChild_length]
    simp only [TraceNode.sizeList, nodeOf_size]
    omega

theorem Spine_push_top {h : List anyRecord} {top : Nat} {c : callRecord} {path : String}
    (hs : Spine h top path []) (hc : h[top]? = some (.call c)) :
    Spine (appendChild h top c (.call callRecord.empty)) top path [h.length] := by
  simp only [Spine] at hs ⊢
  obtain ⟨r, ts, g1, g2, g3, g4⟩ := hs
  rw [hc] at g1
  injection g1 with g1
  injection g1 with g1
  subst g1
  refine ⟨_, c.Children, ts, appendChild_get_top _ hc, g2, rfl, ?_, g4, ?_⟩
  · exact LayoutList_frame ts _ _ _ _ g3
      (fun q hq hq2 => appendChild_get_other c _ (by omega) (by omega))
  · refine ⟨_, [], appendChild_get_new _ _ _ _, ?_, ?_, ?_⟩
    · simp [anyRecord.setPath, g2]
    · simp [anyRecord.setPath, callRecord.empty, LayoutList]
    · simp [TraceNode.sizeList, appendChild_length]

theorem Spine_whole {h : List anyRecord} : ∀ (rest : List Nat) (p : Nat) (path : String),
    Spine h p path rest → ∃ t, Layout h t p path ∧ p + t.size = h.length := by
  intro rest
  induction rest with
  | nil =>
    intro p path hs
    simp only [Spine] at hs
    obtain ⟨r, ts, g1, g2, g3, g4⟩ := hs
    refine ⟨.call r ts, ?_, ?_⟩
    · simp only [Layout]; exact ⟨g1, g2, g3⟩
    · simp only [TraceNode.size]; omega
  | cons q rest ih =>
    intro p path hs
    simp only [Spine] at hs
    obtain ⟨r, cs, ts, g1, g2, g3, g4, g5, g6⟩ := hs
    obtain ⟨tq, hq1, hq2⟩ := ih q _ g6
    have hlen := LayoutList_length_eq _ _ _ _ g4
    refine ⟨.call r (ts ++ [tq]), ?_, ?_⟩
    · simp only [Layout]
      refine ⟨g1, g2, ?_⟩
      rw [g3, ← g5]
      refine LayoutList_snoc tq ts _ _ _ g4 ?_
      rw [g5, Nat.zero_add, ← hlen]
      exact hq1
    · simp only [TraceNode.size, TraceNode_sizeList_append, TraceNode.sizeList]
      omega

theorem Spine_pop {h : List anyRecord} : ∀ (rest : List Nat) (p : Nat) (path : String) (q : Nat),
    Spine h p path (rest ++ [q]) → Spine h p path rest := by
  intro rest
  induction rest with
  | nil =>
    intro p path q hs
    obtain ⟨t, ht1, ht2⟩ := Spine_whole [q] p path hs
    simp only [List.nil_append, Spine] at hs ⊢
    obtain ⟨r, cs, ts, g1, g2, g3, g4, g5, g6⟩ := hs
    obtain ⟨tq, hq1, hq2⟩ := Spine_whole [] q _ g6
    have hlen := LayoutList_length_eq _ _ _ _ g4
    refine ⟨r, ts ++ [tq], g1, g2, ?_, ?_⟩
    · rw [g3, ← g5]
      refine LayoutList_snoc tq ts _ _ _ g4 ?_
      rw [g5, Nat.zero_add, ← hlen]
      exact hq1
    · simp only [TraceNode_sizeList_append, TraceNode.sizeList]
      omega
  | cons x rest ih =>
    intro p path q hs
    simp only [List.cons_append, Spine] at hs ⊢
    obtain ⟨r, cs, ts, g1, g2, g3, g4, g5, g6⟩ := hs
    exact ⟨r, cs, ts, g1, g2, g3, g4, g5, ih x _ q g6⟩

theorem Spine_set_bottom {h : List anyRecord} {p : Nat} {c c' : callRecord} {path : String}
    (rest : List Nat) (hs : Spine h p path rest) (hc : h[p]? = some (.call c))
    (h1 : c'.Path = c.Path) (h2 : c'.Children = c.Children) :
    Spine (h.set p (.call c')) p path rest := by
  cases rest with
  | nil => exact Spine_set_top hs hc h1 h2
  | cons q rest =>
    simp only [Spine] at hs ⊢
    obtain ⟨r, cs, ts, g1, g2, g3, g4, g5, g6⟩ := hs
    rw [hc] at g1
    injection g1 with g1
    injection g1 with g1
    subst g1
    refine ⟨c', cs, ts, List.getElem?_set_self (getElem?_lt_of_eq_some hc), by rw [h1]; exact g2,
      by rw [h2]; exact g3, ?_, g5, ?_⟩
    · exact LayoutList_frame ts _ _ _ _ g4 (fun x hx _ => List.getElem?_set_ne (by omega))
    · exact Spine_frame rest q _ g6 (by simp) (fun x hx => List.getElem?_set_ne (by omega))

theorem appendChild_get_below {h : List anyRecord} {top : Nat} {c : callRecord}
    (rec : anyRecord) (hc : h[top]? = some (.call c)) (x : Nat) (hx : x < top) :
    (appendChild h top c rec)[x]? = h[x]? :=
  appendChild_get_other c rec (by omega) (by have := getElem?_lt_of_eq_some hc; omega)

theorem step_inv (t t' : openchainTracer) (e : Event) (hok : HeapOk t.heap t.callstack)
    (hinv : Inv t.heap t.callstack) (hne : e.isStart = false) (h : step t e = some t') :
    Inv t'.heap t'.callstack := by
  cases hst : t.callstack with
  | nil =>
    have hkeep : t'.heap = t.heap → t'.callstack = t.callstack → Inv t'.heap t'.callstack := by
      intro e1 e2; rw [e1, e2]; exact hinv
    cases e with
    | CaptureStart env from_ to_ precompile create input gas value => simp [Event.isStart] at hne
    | CaptureEnd env output gasUsed err =>
      simp only [step, CaptureEnd_nil _ _ _ _ _ hst] at h
      exact absurd h (by simp)
    | CaptureState env op scope =>
      simp only [step] at h
      cases hl : leafRecord env op scope with
      | some rec =>
        rw [CaptureState_leaf t env op scope rec hl, pushAndSetPath_nil _ _ (by simpa [alloc] using hst)] at h
        exact absurd h (by simp)
      | none =>
        by_cases hk : op = vm.KECCAK256
        · subst hk
          rw [CaptureState_hash] at h
          injection h with h
          subst h
          exact hkeep rfl rfl
        · cases hcl : isCallLike op with
          | false =>
            rw [CaptureState_other t env op scope hl hk hcl] at h
            injection h with h
            subst h
            exact hinv
          | true =>
            rw [CaptureState_call t env op scope hcl,
              pushAndSetPath_nil _ _ (by simpa [alloc] using hst)] at h
            exact absurd h (by simp)
    | CaptureFault =>
      simp only [step, CaptureFault] at h
      injection h with h
      subst h
      exact hinv
    | CaptureEnter env typ from_ to_ precompile create input gas value =>
      simp only [step, CaptureEnter_nil _ _ _ _ _ _ _ _ _ _ hst] at h
      exact absurd h (by simp)
    | CaptureExit env output gasUsed err =>
      simp only [step, CaptureExit_nil _ _ _ _ _ hst] at h
      exact absurd h (by simp)
    | Stop =>
      simp only [step, Stop] at h
      injection h with h
      subst h
      exact hinv
  | cons p rest =>
    have hinv' := hinv
    rw [hst] at hinv'
    obtain ⟨hp0, hsp⟩ : p = 0 ∧ Spine t.heap 0 "0" rest := hinv'
    subst hp0
    obtain ⟨top, htop⟩ : ∃ top, t.callstack.getLast? = some top := by
      cases hg : t.callstack.getLast? with
      | none => rw [List.getLast?_eq_none_iff.mp hg] at hst; exact absurd hst (by simp)
      | some top => exact ⟨top, rfl⟩
    have htop' : (0 :: rest).getLast? = some top := by rw [← hst]; exact htop
    obtain ⟨c, hc⟩ := heapOk_top hok htop
    cases e with
    | CaptureStart env from_ to_ precompile create input gas value => simp [Event.isStart] at hne
    | CaptureEnd env output gasUsed err =>
      have h0 : t.callstack[0]? = some 0 := by rw [hst]; simp
      obtain ⟨c0, hc0⟩ := hok.2 0 (List.getElem?_mem h0)
      simp only [step, CaptureEnd_eq t 0 c0 env output gasUsed err h0 hc0] at h
      injection h with h
      subst h
      simp only [hst]
      exact ⟨rfl, Spine_set_bottom rest hsp hc0 rfl rfl⟩
    | CaptureState env op scope =>
      simp only [step] at h
      cases hl : leafRecord env op scope with
      | some rec =>
        rw [CaptureState_leaf t env op scope rec hl, pushAndSetPath_alloc t top c rec htop hc] at h
        injection h with h
        subst h
        simp only [hst]
        refine ⟨rfl, ?_⟩
        have := @Spine_graft t.heap (appendChild t.heap top c rec) [] rest 0 "0" top hsp htop'
          (appendChild_get_below rec hc)
          (fun path' hs' => Spine_appendChild_top hs' hc
            (fun d hd => absurd hd (leafRecord_ne_call env op scope rec hl d)))
        simpa using this
      | none =>
        by_cases hk : op = vm.KECCAK256
        · subst hk
          rw [CaptureState_hash] at h
          injection h with h
          subst h
          exact hinv
        · cases hcl : isCallLike op with
          | false =>
            rw [CaptureState_other t env op scope hl hk hcl] at h
            injection h with h
            subst h
            exact hinv
          | true =>
            rw [CaptureState_call t env op scope hcl, pushAndSetPath_alloc t top c _ htop hc] at h
            injection h with h
            subst h
            simp only [hst, List.cons_append]
            exact ⟨rfl, @Spine_graft t.heap (appendChild t.heap top c (.call callRecord.empty))
              [t.heap.length] rest 0 "0" top hsp htop'
              (appendChild_get_below _ hc) (fun path' hs' => Spine_push_top hs' hc)⟩
    | CaptureFault =>
      simp only [step, CaptureFault] at h
      injection h with h
      subst h
      exact hinv
    | CaptureEnter env typ from_ to_ precompile create input gas value =>
      simp only [step, CaptureEnter_eq t top c env typ from_ to_ precompile create input gas value
        htop hc] at h
      injection h with h
      subst h
      simp only [hst]
      refine ⟨rfl, ?_⟩
      have := @Spine_graft t.heap
        (t.heap.set top (.call (entered c env typ from_ to_ precompile input gas value)))
        [] rest 0 "0" top hsp htop'
        (fun x hx => List.getElem?_set_ne (by omega))
        (fun path' hs' => Spine_set_top hs' hc rfl rfl)
      simpa using this
    | CaptureExit env output gasUsed err =>
      simp only [step, CaptureExit_eq t top c env output gasUsed err htop hc] at h
      injection h with h
      subst h
      have hsp' : Spine (t.heap.set top (.call (finished c env output gasUsed err))) 0 "0" rest := by
        have := @Spine_graft t.heap (t.heap.set top (.call (finished c env output gasUsed err)))
          [] rest 0 "0" top hsp htop'
          (fun x hx => List.getElem?_set_ne (by omega))
          (fun path' hs' => Spine_set_top hs' hc rfl rfl)
        simpa using this
      simp only [hst]
      rcases List.eq_nil_or_concat rest with hr | ⟨rest', q, hr⟩
      · subst hr
        obtain ⟨tree, ht1, ht2⟩ := Spine_whole [] 0 "0" hsp'
        simp only [List.dropLast_single, Inv]
        exact ⟨tree, ht1, by omega⟩
      · subst hr
        rw [List.concat_eq_append] at hsp'
        have : (0 :: rest'.concat q).dropLast = 0 :: rest' := by
          rw [List.concat_eq_append, ← List.cons_append, List.dropLast_concat]
        rw [this]
        exact ⟨rfl, Spine_pop rest' 0 "0" q hsp'⟩
    | Stop =>
      simp only [step, Stop] at h
      injection h with h
      subst h
      exact hinv

theorem run_inv (evs : List Event) : ∀ (t t' : openchainTracer),
    HeapOk t.heap t.callstack → Inv t.heap t.callstack → (∀ e ∈ evs, e.isStart = false) →
    run t evs = some t' → Inv t'.heap t'.callstack := by
  induction evs with
  | nil =>
    intro t t' _ hinv _ h
    simp only [run] at h
    injection h with h
    subst h
    exact hinv
  | cons e es ih =>
    intro t t' hok hinv hne h
    simp only [run] at h
    cases hs : step t e with
    | none => simp [hs] at h
    | some t1 =>
      simp only [hs] at h
      exact ih t1 t' (step_heapOk t t1 e hok hs)
        (step_inv t t1 e hok hinv (hne e (List.mem_cons_self _ _)) hs)
        (fun x hx => hne x (List.mem_cons_of_mem _ hx)) h

theorem Inv_whole {h : List anyRecord} {st : List Nat} (hinv : Inv h st) :
    ∃ tree, Layout h tree 0 "0" ∧ tree.size = h.length := by
  cases st with
  | nil => exact hinv
  | cons p rest =>
    obtain ⟨_, hs⟩ : p = 0 ∧ Spine h 0 "0" rest := hinv
    obtain ⟨tree, h1, h2⟩ := Spine_whole rest 0 "0" hs
    exact ⟨tree, h1, by omega⟩

theorem inv_start (keccak256 : Bytes → Hash) (env : IntraBlockState) (from_ to_ : Address)
    (precompile create : Bool) (input : Bytes) (gas : Nat) (value : Option U256) :
    ∃ t, CaptureStart (newOpenchainTracer keccak256) env from_ to_ precompile create input gas
        value = some t ∧
      t.heap = [.call (rootRecord env from_ to_ precompile create input gas value)] ∧
      t.callstack = [0] ∧ t.preimages = ∅ ∧ t.addresses = ∅ ∧
      HeapOk t.heap t.callstack ∧ Inv t.heap t.callstack := by
  refine ⟨_, CaptureStart_nil _ env from_ to_ precompile create input gas value rfl, rfl, rfl,
    rfl, rfl, ?_, ?_⟩
  · constructor
    · intro p c hp q hq
      have hlt := getElem?_lt_of_eq_some hp
      simp only [newOpenchainTracer, List.nil_append, List.length_singleton] at hlt
      have : p = 0 := by omega
      subst this
      simp only [newOpenchainTracer, List.nil_append, List.getElem?_cons_zero] at hp
      injection hp with hp
      injection hp with hp
      subst hp
      simp [rootRecord] at hq
    · intro p hp
      simp only [newOpenchainTracer, List.length_nil, List.mem_singleton] at hp
      subst hp
      exact ⟨_, rfl⟩
  · refine ⟨rfl, ?_⟩
    simp only [Spine]
    exact ⟨_, [], rfl, rfl, by simp [LayoutList, rootRecord], rfl⟩

theorem run_append (es fs : List Event) : ∀ (t : openchainTracer),
    run t (es ++ fs) = (run t es).bind (fun t' => run t' fs) := by
  induction es with
  | nil => intro t; rfl
  | cons e es ih =>
    intro t
    simp only [List.cons_append, run]
    cases step t e with
    | none => rfl
    | some t1 => exact ih t1

theorem run_cons_some {t t1 : openchainTracer} {e : Event} (es : List Event)
    (h : step t e = some t1) : run t (e :: es) = run t1 es := by
  simp [run, h]

theorem countAppends_append (es fs : List Event) :
    countAppends (es ++ fs) = countAppends es + countAppends fs := by
  induction es with
  | nil => simp [countAppends]
  | cons e es ih =>
    cases e <;> simp [countAppends, ih, Nat.add_assoc]

theorem registered_isSome_iff (A : AddressBook) (a a' : Address) (h h' : Hash) :
    (AddressBook.get (registered A a h) a' h').isSome ↔
      ((a', h') = (a, h) ∨ (AddressBook.get A a' h').isSome) := by
  by_cases he : (a', h') = (a, h)
  · injection he with h1 h2
    subst h1 h2
    simp [registered_get_self]
  · rw [registered_get_other _ _ _ _ _ he]
    simp [he]

theorem BlockPost_refl (t : openchainTracer) (top : Nat) (c : callRecord)
    (hc : t.heap[top]? = some (.call c)) : BlockPost t t top c 0 := by
  refine ⟨rfl, ⟨[], by simpa using hc⟩, fun _ _ _ => rfl, rfl, ?_⟩
  intro a h
  constructor
  · intro hs; exact Or.inl hs
  · rintro (hs | ⟨q, d, hq, hd, _⟩)
    · exact hs
    · have := getElem?_lt_of_eq_some hd
      omega

theorem BlockPost_quiet {t t1 t' : openchainTracer} {top : Nat} {c : callRecord} {n : Nat}
    (h1 : t1.heap = t.heap) (h2 : t1.callstack = t.callstack) (h3 : t1.addresses = t.addresses)
    (hp : BlockPost t1 t' top c n) : BlockPost t t' top c n := by
  unfold BlockPost at hp ⊢
  rw [h1, h2, h3] at hp
  exact hp

theorem BlockPost_leaf {t t' : openchainTracer} {top : Nat} {c : callRecord} {n : Nat}
    {rec : anyRecord} (hc : t.heap[top]? = some (.call c)) (hrec : ∀ d, rec ≠ .call d)
    (hp : BlockPost { t with heap := appendChild t.heap top c rec } t' top
      { c with Children := c.Children ++ [t.heap.length] } n) :
    BlockPost t t' top c (n + 1) := by
  have htop := getElem?_lt_of_eq_some hc
  obtain ⟨p1, ⟨new, p2⟩, p3, p4, p5⟩ := hp
  simp only [appendChild_length] at p3 p4 p5
  refine ⟨p1, ⟨t.heap.length :: new, by simpa using p2⟩, ?_, by omega, ?_⟩
  · intro q hq hne
    rw [p3 q (by omega) hne]
    exact appendChild_get_other c rec hne hq
  · have hnew : t'.heap[t.heap.length]? =
        some (rec.setPath (c.Path ++ "." ++ strconv.Itoa c.Children.length)) := by
      rw [p3 _ (by omega) (by omega)]
      exact appendChild_get_new _ _ _ _
    intro a h
    rw [p5 a h]
    constructor
    · rintro (hs | ⟨q, d, hq, hd, he⟩)
      · exact Or.inl hs
      · exact Or.inr ⟨q, d, by omega, hd, he⟩
    · rintro (hs | ⟨q, d, hq, hd, he⟩)
      · exact Or.inl hs
      · by_cases hql : q = t.heap.length
        · subst hql
          rw [hnew] at hd
          injection hd with hd
          obtain ⟨d0, hd0, _⟩ := setPath_children _ _ _ hd
          exact absurd hd0 (hrec d0)
        · exact Or.inr ⟨q, d, by omega, hd, he⟩

theorem BlockPost_call {t t3 t' : openchainTracer} {top : Nat} {c c2 c3 : callRecord}
    {n m : Nat} {env2 : IntraBlockState} {output : Bytes} {gasUsed : Nat} {err : Option String}
    (hc : t.heap[top]? = some (.call c))
    (hinner : BlockPost
      { t with
        heap := (appendChild t.heap top c (.call callRecord.empty)).set t.heap.length (.call c2),
        callstack := t.callstack ++ [t.heap.length] } t3 t.heap.length c2 n)
    (_hc3 : t3.heap[t.heap.length]? = some (.call c3))
    (hrest : BlockPost
      { t3 with
        heap := t3.heap.set t.heap.length (.call (finished c3 env2 output gasUsed err)),
        addresses := registered t3.addresses c3.To (finished c3 env2 output gasUsed err).Codehash,
        callstack := t.callstack } t' top
      { c with Children := c.Children ++ [t.heap.length] } m) :
    BlockPost t t' top c (1 + n + m) := by
  have htop := getElem?_lt_of_eq_some hc
  obtain ⟨i1, ⟨new3, i2⟩, i3, i4, i5⟩ := hinner
  obtain ⟨r1, ⟨new5, r2⟩, r3, r4, r5⟩ := hrest
  simp only [List.length_set, appendChild_length] at i3 i4 i5 r3 r4 r5
  have hL : t'.heap[t.heap.length]? = some (.call (finished c3 env2 output gasUsed err)) := by
    rw [r3 _ (by omega) (by omega)]
    exact List.getElem?_set_self (by omega)
  refine ⟨r1, ⟨t.heap.length :: new5, by simpa using r2⟩, ?_, by omega, ?_⟩
  · intro q hq hne
    rw [r3 q (by omega) hne, List.getElem?_set_ne (by omega), i3 q (by omega) (by omega),
      List.getElem?_set_ne (by omega)]
    exact appendChild_get_other c _ hne hq
  · intro a h
    rw [r5 a h, registered_isSome_iff, i5 a h]
    constructor
    · rintro ((he | hs | ⟨q, d, hq, hd, he⟩) | ⟨q, d, hq, hd, he⟩)
      · injection he with e1 e2
        exact Or.inr ⟨t.heap.length, _, le_refl _, hL, e1.symm, e2.symm⟩
      · exact Or.inl hs
      · refine Or.inr ⟨q, d, by omega, ?_, he⟩
        have hq2 := getElem?_lt_of_eq_some hd
        rw [r3 q (by omega) (by omega), List.getElem?_set_ne (by omega)]
        exact hd
      · exact Or.inr ⟨q, d, by omega, hd, he⟩
    · rintro (hs | ⟨q, d, hq, hd, he⟩)
      · exact Or.inl (Or.inr (Or.inl hs))
      · by_cases h1 : q = t.heap.length
        · subst h1
          rw [hL] at hd
          injection hd with hd
          injection hd with hd
          subst hd
          obtain ⟨e1, e2⟩ := he
          exact Or.inl (Or.inl (by rw [← e1, ← e2]; rfl))
        · by_cases h2 : q < t.heap.length + 1 + n
          · refine Or.inl (Or.inr (Or.inr ⟨q, d, by omega, ?_, he⟩))
            rw [r3 q (by omega) (by omega), List.getElem?_set_ne (by omega)] at hd
            exact hd
          · exact Or.inr ⟨q, d, by omega, hd, he⟩

theorem CaptureState_quiet (t : openchainTracer) (env : IntraBlockState) (op : OpCode)
    (scope : ScopeContext) (h1 : leafRecord env op scope = none) (h3 : isCallLike op = false) :
    ∃ t1, CaptureState t env op scope = some t1 ∧ t1.heap = t.heap ∧
      t1.callstack = t.callstack ∧ t1.addresses = t.addresses ∧ t1.hasher = t.hasher := by
  by_cases hk : op = vm.KECCAK256
  · subst hk
    exact ⟨_, CaptureState_hash t env scope, rfl, rfl, rfl, rfl⟩
  · exact ⟨t, CaptureState_other t env op scope h1 hk h3, rfl, rfl, rfl, rfl⟩

theorem appends_of_leaf (env : IntraBlockState) (op : OpCode) (scope : ScopeContext)
    (rec : anyRecord) (hl : leafRecord env op scope = some rec) : appends op = true := by
  have := leafRecord_isSome env op scope
  rw [hl] at this
  simp only [Option.isSome_some] at this
  simp only [appends, ← this, Bool.true_or]

theorem appends_of_quiet (env : IntraBlockState) (op : OpCode) (scope : ScopeContext)
    (hl : leafRecord env op scope = none) (hcl : isCallLike op = false) : appends op = false := by
  have := leafRecord_isSome env op scope
  rw [hl] at this
  simp only [Option.isSome_none] at this
  simp only [appends, ← this, hcl, Bool.or_false]

theorem appends_of_callLike (op : OpCode) (hcl : isCallLike op = true) : appends op = true := by
  simp [appends, hcl]

theorem block_run {evs : List Event} (hb : Block evs) :
    ∀ (t : openchainTracer) (top : Nat) (c : callRecord),
    t.callstack.getLast? = some top → t.heap[top]? = some (.call c) →
    ∃ t', run t evs = some t' ∧ BlockPost t t' top c (countAppends evs) := by
  induction hb with
  | nil =>
    intro t top c _ hc
    exact ⟨t, rfl, BlockPost_refl t top c hc⟩
  | step env op scope hcl _ ih =>
    intro t top c ht hc
    cases hl : leafRecord env op scope with
    | some rec =>
      have hrec := leafRecord_ne_call env op scope rec hl
      have hstep : step t (.CaptureState env op scope) =
          some { t with heap := appendChild t.heap top c rec } := by
        simp only [step]
        rw [CaptureState_leaf t env op scope rec hl, pushAndSetPath_alloc t top c rec ht hc]
      obtain ⟨t', hr, hp⟩ := ih { t with heap := appendChild t.heap top c rec } top
        { c with Children := c.Children ++ [t.heap.length] } ht (appendChild_get_top rec hc)
      refine ⟨t', by rw [run_cons_some _ hstep]; exact hr, ?_⟩
      simp only [countAppends, appends_of_leaf env op scope rec hl, if_true]
      rw [Nat.add_comm]
      exact BlockPost_leaf hc hrec hp
    | none =>
      simp only [countAppends, appends_of_quiet env op scope hl hcl, Bool.false_eq_true,
        if_false, Nat.zero_add]
      obtain ⟨t1, hstep, e1, e2, e3, _⟩ := CaptureState_quiet t env op scope hl hcl
      obtain ⟨t', hr, hp⟩ := ih t1 top c (by rw [e2]; exact ht) (by rw [e1]; exact hc)
      exact ⟨t', by rw [run_cons_some _ (by simpa only [step] using hstep)]; exact hr,
        BlockPost_quiet e1 e2 e3 hp⟩
  | @call env op scope env1 typ from_ to_ precompile create input gas value inner env2 output
      gasUsed err rest hcl _ _ ihi ihr =>
    intro t top c ht hc
    have htop := getElem?_lt_of_eq_some hc
    have hstep1 : step t (.CaptureState env op scope) =
        some { t with
          heap := appendChild t.heap top c (.call callRecord.empty),
          callstack := t.callstack ++ [t.heap.length] } := by
      simp only [step]
      rw [CaptureState_call t env op scope hcl, pushAndSetPath_alloc t top c _ ht hc]
    have hstep2 := CaptureEnter_eq
      { t with
        heap := appendChild t.heap top c (.call callRecord.empty),
        callstack := t.callstack ++ [t.heap.length] } t.heap.length
      { callRecord.empty with Path := c.Path ++ "." ++ strconv.Itoa c.Children.length }
      env1 typ from_ to_ precompile create input gas value (List.getLast?_concat _)
      (appendChild_get_new _ _ _ _)
    obtain ⟨t3, hr3, hp3⟩ := ihi
      { t with
        heap := (appendChild t.heap top c (.call callRecord.empty)).set t.heap.length
          (.call (entered
            { callRecord.empty with Path := c.Path ++ "." ++ strconv.Itoa c.Children.length }
            env1 typ from_ to_ precompile input gas value)),
        callstack := t.callstack ++ [t.heap.length] }
      t.heap.length
      (entered { callRecord.empty with Path := c.Path ++ "." ++ strconv.Itoa c.Children.length }
        env1 typ from_ to_ precompile input gas value)
      (List.getLast?_concat _)
      (List.getElem?_set_self (by rw [appendChild_length]; exact Nat.lt_succ_self _))
    have hp3' := hp3
    obtain ⟨i1, ⟨new3, i2⟩, i3, i4, i5⟩ := hp3'
    simp only [List.length_set, appendChild_length] at i3 i4
    have hstep3 := CaptureExit_eq t3 t.heap.length _ env2 output gasUsed err
      (by rw [i1]; exact List.getLast?_concat _) i2
    have hcs : t3.callstack.dropLast = t.callstack := by
      rw [i1]; exact List.dropLast_concat
    rw [hcs] at hstep3
    have htop4 : t3.heap[top]? =
        some (.call { c with Children := c.Children ++ [t.heap.length] }) := by
      rw [i3 top (by omega) (by omega), List.getElem?_set_ne (by omega)]
      exact appendChild_get_top _ hc
    obtain ⟨t', hr5, hp5⟩ := ihr
      { t3 with
        heap := t3.heap.set t.heap.length (.call (finished
          { (entered
              { callRecord.empty with Path := c.Path ++ "." ++ strconv.Itoa c.Children.length }
              env1 typ from_ to_ precompile input gas value) with
            Children := (entered
              { callRecord.empty with Path := c.Path ++ "." ++ strconv.Itoa c.Children.length }
              env1 typ from_ to_ precompile input gas value).Children ++ new3 }
          env2 output gasUsed err)),
        addresses := registered t3.addresses to_ (finished
          { (entered
              { callRecord.empty with Path := c.Path ++ "." ++ strconv.Itoa c.Children.length }
              env1 typ from_ to_ precompile input gas value) with
            Children := (entered
              { callRecord.empty with Path := c.Path ++ "." ++ strconv.Itoa c.Children.length }
              env1 typ from_ to_ precompile input gas value).Children ++ new3 }
          env2 output gasUsed err).Codehash,
        callstack := t.callstack }
      top { c with Children := c.Children ++ [t.heap.length] } ht
      (by
        show (t3.heap.set t.heap.length _)[top]? = _
        rw [List.getElem?_set_ne (by omega)]
        exact htop4)
    refine ⟨t', ?_, ?_⟩
    · rw [run_cons_some _ hstep1, run_cons_some _ (by simpa only [step] using hstep2), run_append,
        hr3]
      simp only [Option.bind]
      rw [run_cons_some _ (by simpa only [step] using hstep3)]
      exact hr5
    · have hcount : countAppends (.CaptureState env op scope ::
          .CaptureEnter env1 typ from_ to_ precompile create input gas value ::
          (inner ++ .CaptureExit env2 output gasUsed err :: rest)) =
          1 + countAppends inner + countAppends rest := by
        simp only [countAppends, countAppends_append, appends_of_callLike op hcl, if_true]
        omega
      rw [hcount]
      exact BlockPost_call hc hp3 i2 hp5

theorem Block_no_start {evs : List Event} (hb : Block evs) : ∀ e ∈ evs, e.isStart = false := by
  induction hb with
  | nil => intro e he; simp at he
  | step env op scope _ _ ih =>
    intro e he
    rcases List.mem_cons.mp he with he | he
    · subst he; rfl
    · exact ih e he
  | call env op scope env1 typ from_ to_ precompile create input gas value env2 output gasUsed
      err _ _ _ ihi ihr =>
    intro e he
    simp only [List.mem_cons, List.mem_append] at he
    rcases he with he | he | he | he | he
    · subst he; rfl
    · subst he; rfl
    · exact ihi e he
    · subst he; rfl
    · exact ihr e he

theorem GetResult_of_layout (t : openchainTracer) (tree : TraceNode) (p : Nat) (path : String)
    (hst : t.callstack = [p]) (hl : Layout t.heap tree p path)
    (hs : tree.size ≤ t.heap.length) :
    GetResult t =
      .ok { Entrypoint := tree, Preimages := t.preimages, Addresses := t.addresses } := by
  have := Layout_marshal tree p path hl (t.heap.length + 1) (by omega)
  simp [GetResult, hst, this]

theorem CaptureStart_fresh (keccak256 : Bytes → Hash) (env : IntraBlockState)
    (from_ to_ : Address) (precompile create : Bool) (input : Bytes) (gas : Nat)
    (value : Option U256) :
    step (newOpenchainTracer keccak256)
        (.CaptureStart env from_ to_ precompile create input gas value) =
      some (rootState keccak256 env from_ to_ precompile create input gas value) :=
  CaptureStart_nil _ env from_ to_ precompile create input gas value rfl

theorem rootState_ok (keccak256 : Bytes → Hash) (env : IntraBlockState)
    (from_ to_ : Address) (precompile create : Bool) (input : Bytes) (gas : Nat)
    (value : Option U256) :
    HeapOk (rootState keccak256 env from_ to_ precompile create input gas value).heap
      (rootState keccak256 env from_ to_ precompile create input gas value).callstack ∧
    Inv (rootState keccak256 env from_ to_ precompile create input gas value).heap
      (rootState keccak256 env from_ to_ precompile create input gas value).callstack := by
  obtain ⟨t0, hs0, _, _, _, _, hok0, hinv0⟩ :=
    inv_start keccak256 env from_ to_ precompile create input gas value
  have := CaptureStart_fresh keccak256 env from_ to_ precompile create input gas value
  simp only [step] at this
  rw [this] at hs0
  injection hs0 with hs0
  subst hs0
  exact ⟨hok0, hinv0⟩

theorem CaptureEnd_step (t : openchainTracer) (p : Nat) (c : callRecord) (env : IntraBlockState)
    (output : Bytes) (gasUsed : Nat) (err : Option String)
    (h1 : t.callstack[0]? = some p) (h2 : t.heap[p]? = some (.call c)) :
    step t (.CaptureEnd env output gasUsed err) =
      some (finishedState t p c env output gasUsed err) :=
  CaptureEnd_eq t p c env output gasUsed err h1 h2

/-- What a complete well-nested sequence leaves behind: the state `t1` after the body, the
state after `CaptureEnd`, and the tree `GetResult` returns. -/
theorem wellNested_run (keccak256 : Bytes → Hash) (env : IntraBlockState) (from_ to_ : Address)
    (precompile create : Bool) (input : Bytes) (gas : Nat) (value : Option U256)
    (body : List Event) (env1 : IntraBlockState) (output : Bytes) (gasUsed : Nat)
    (err : Option String) (hb : Block body) :
    ∃ t1 c1 tree,
      run (newOpenchainTracer keccak256)
        (.CaptureStart env from_ to_ precompile create input gas value :: body) = some t1 ∧
      BlockPost (rootState keccak256 env from_ to_ precompile create input gas value) t1 0
        (rootRecord env from_ to_ precompile create input gas value) (countAppends body) ∧
      t1.heap[0]? = some (.call c1) ∧
      run (newOpenchainTracer keccak256)
        (.CaptureStart env from_ to_ precompile create input gas value ::
          (body ++ [.CaptureEnd env1 output gasUsed err])) =
        some (finishedState t1 0 c1 env1 output gasUsed err) ∧
      Layout (finishedState t1 0 c1 env1 output gasUsed err).heap tree 0 "0" ∧
      tree.size = t1.heap.length ∧
      GetResult (finishedState t1 0 c1 env1 output gasUsed err) =
        .ok { Entrypoint := tree, Preimages := t1.preimages,
              Addresses := (finishedState t1 0 c1 env1 output gasUsed err).addresses } := by
  have hs0 := CaptureStart_fresh keccak256 env from_ to_ precompile create input gas value
  obtain ⟨hok0, hinv0⟩ := rootState_ok keccak256 env from_ to_ precompile create input gas value
  obtain ⟨t1, hr1, hp1⟩ := block_run hb
    (rootState keccak256 env from_ to_ precompile create input gas value) 0
    (rootRecord env from_ to_ precompile create input gas value) rfl rfl
  obtain ⟨p1, ⟨new, p2⟩, p3, p4, p5⟩ := id hp1
  have hst1 : t1.callstack = [0] := p1
  obtain ⟨c1, hc1⟩ : ∃ c1, t1.heap[0]? = some (.call c1) := ⟨_, p2⟩
  have hend := CaptureEnd_step t1 0 c1 env1 output gasUsed err (by rw [hst1]; rfl) hc1
  have hrun1 : run (newOpenchainTracer keccak256)
      (.CaptureStart env from_ to_ precompile create input gas value :: body) = some t1 := by
    rw [run_cons_some _ hs0]
    exact hr1
  have hrun3 : run (rootState keccak256 env from_ to_ precompile create input gas value)
      (body ++ [.CaptureEnd env1 output gasUsed err]) =
      some (finishedState t1 0 c1 env1 output gasUsed err) := by
    rw [run_append, hr1]
    simp only [Option.bind]
    rw [run_cons_some _ hend]
    rfl
  have hrun2 : run (newOpenchainTracer keccak256)
      (.CaptureStart env from_ to_ precompile create input gas value ::
        (body ++ [.CaptureEnd env1 output gasUsed err])) =
      some (finishedState t1 0 c1 env1 output gasUsed err) := by
    rw [run_cons_some _ hs0]
    exact hrun3
  have hinv2 := run_inv (body ++ [.CaptureEnd env1 output gasUsed err]) _ _ hok0 hinv0
    (by
      intro e he
      rcases List.mem_append.mp he with he | he
      · exact Block_no_start hb e he
      · simp only [List.mem_singleton] at he
        subst he; rfl)
    hrun3
  obtain ⟨tree, hl, hsz⟩ := Inv_whole hinv2
  have hsz' : tree.size = t1.heap.length := by
    rw [hsz]; simp [finishedState]
  refine ⟨t1, c1, tree, hrun1, hp1, hc1, hrun2, hl, hsz', ?_⟩
  exact GetResult_of_layout _ tree 0 "0" hst1 hl (by rw [hsz])

/-- C2: for every well-nested event sequence on a fresh tracer (one `CaptureStart`, a
well-nested body, one `CaptureEnd`), every callback completes, `GetResult` succeeds, and the
number of nodes of the returned tree is one (the root) plus the number of step events whose
opcode is `SLOAD`, `SSTORE`, `LOG0` .. `LOG4` or call-like. -/
theorem wellNested_node_count (keccak256 : Bytes → Hash) (evs : List Event)
    (h : WellNested evs) :
    ∃ t r, run (newOpenchainTracer keccak256) evs = some t ∧ GetResult t = .ok r ∧
      r.Entrypoint.size = 1 + countAppends evs := by
  obtain ⟨env, from_, to_, precompile, create, input, gas, value, body, env1, output, gasUsed,
    err, rfl, hb⟩ := h
  obtain ⟨t1, c1, tree, _, hp, _, hrun, _, hsz, hres⟩ :=
    wellNested_run keccak256 env from_ to_ precompile create input gas value body env1 output
      gasUsed err hb
  refine ⟨_, _, hrun, hres, ?_⟩
  have hlen := hp.2.2.2.1
  simp only [rootState, List.length_singleton] at hlen
  simp only [countAppends, countAppends_append, Nat.add_zero]
  rw [hsz, hlen]

theorem digitChar_value : ∀ k, k < 10 → (Nat.digitChar k).toNat - 48 = k ∧ Nat.digitChar k ≠ '.' := by
  decide

theorem decimalValue_append (ds : List Char) (c : Char) :
    decimalValue (ds ++ [c]) = 10 * decimalValue ds + (c.toNat - 48) := by
  simp [decimalValue, List.foldl_append]

theorem toDigitsCore_spec : ∀ (fuel n : Nat) (ds : List Char), n < fuel →
    ∃ pre, Nat.toDigitsCore 10 fuel n ds = pre ++ ds ∧ decimalValue pre = n ∧
      ∀ c ∈ pre, c ≠ '.' := by
  intro fuel
  induction fuel with
  | zero => intro n ds h; omega
  | succ fuel ih =>
    intro n ds h
    have hd := digitChar_value (n % 10) (Nat.mod_lt _ (by decide))
    simp only [Nat.toDigitsCore]
    split_ifs with h0
    · refine ⟨[Nat.digitChar (n % 10)], rfl, ?_, ?_⟩
      · simp only [decimalValue, List.foldl_cons, List.foldl_nil, Nat.mul_zero, Nat.zero_add]
        rw [hd.1]
        have : n < 10 := by
          by_contra hge
          have := Nat.div_pos (Nat.le_of_not_lt hge) (by decide : 0 < 10)
          omega
        exact Nat.mod_eq_of_lt this
      · intro c hc
        simp only [List.mem_singleton] at hc
        rw [hc]; exact hd.2
    · have hlt : n / 10 < fuel := by
        have : n / 10 < n := Nat.div_lt_self (by
          by_contra hz
          have : n = 0 := by omega
          subst this
          simp at h0) (by decide)
        omega
      obtain ⟨pre, h1, h2, h3⟩ := ih (n / 10) (Nat.digitChar (n % 10) :: ds) hlt
      refine ⟨pre ++ [Nat.digitChar (n % 10)], by rw [h1]; simp, ?_, ?_⟩
      · rw [decimalValue_append, h2, hd.1]
        exact Nat.div_add_mod n 10
      · intro c hc
        rcases List.mem_append.mp hc with hc | hc
        · exact h3 c hc
        · simp only [List.mem_singleton] at hc
          rw [hc]; exact hd.2

theorem Itoa_spec (n : Nat) :
    decimalValue (strconv.Itoa n).data = n ∧ ∀ c ∈ (strconv.Itoa n).data, c ≠ '.' := by
  obtain ⟨pre, h1, h2, h3⟩ := toDigitsCore_spec (n + 1) n [] (Nat.lt_succ_self n)
  have : (strconv.Itoa n).data = pre := by
    show (Nat.repr n).data = pre
    simp only [Nat.repr, Nat.toDigits, List.asString, h1, List.append_nil]
  rw [this]
  exact ⟨h2, h3⟩

theorem digits_cancel : ∀ (di dj s s' : List Char),
    (∀ c ∈ di, c ≠ '.') → (∀ c ∈ dj, c ≠ '.') →
    (s = [] ∨ ∃ w, s = '.' :: w) → (s' = [] ∨ ∃ w, s' = '.' :: w) →
    di ++ s = dj ++ s' → di = dj := by
  intro di
  induction di with
  | nil =>
    intro dj s s' _ hj hs _ h
    cases dj with
    | nil => rfl
    | cons b dj =>
      exfalso
      simp only [List.nil_append, List.cons_append] at h
      rcases hs with hs | ⟨w, hs⟩
      · rw [hs] at h; exact absurd h (by simp)
      · rw [hs] at h
        injection h with h1 _
        exact hj b (List.mem_cons_self _ _) h1.symm
  | cons a di ih =>
    intro dj s s' hi hj hs hs' h
    cases dj with
    | nil =>
      exfalso
      simp only [List.nil_append, List.cons_append] at h
      rcases hs' with hs' | ⟨w, hs'⟩
      · rw [hs'] at h; exact absurd h (by simp)
      · rw [hs'] at h
        injection h with h1 _
        exact hi a (List.mem_cons_self _ _) h1
    | cons b dj =>
      simp only [List.cons_append] at h
      injection h with h1 h2
      rw [h1, ih dj s s' (fun c hc => hi c (List.mem_cons_of_mem _ hc))
        (fun c hc => hj c (List.mem_cons_of_mem _ hc)) hs hs' h2]

theorem child_path_data (q : String) (i : Nat) :
    (q ++ "." ++ strconv.Itoa i).data = q.data ++ '.' :: (strconv.Itoa i).data := by
  simp [String.data_append]

theorem Extends_refl (q : String) : Extends q q := ⟨[], by simp, Or.inl rfl⟩

theorem Extends_of_child {q x : String} {i : Nat}
    (h : Extends (q ++ "." ++ strconv.Itoa i) x) : Extends q x := by
  obtain ⟨w, h1, _⟩ := h
  rw [child_path_data] at h1
  exact ⟨'.' :: ((strconv.Itoa i).data ++ w), by rw [h1]; simp, Or.inr ⟨_, rfl⟩⟩

theorem Extends_child_ne {q x : String} {i : Nat}
    (h : Extends (q ++ "." ++ strconv.Itoa i) x) : x ≠ q := by
  obtain ⟨w, h1, _⟩ := h
  rw [child_path_data] at h1
  intro hx
  rw [hx] at h1
  have := congrArg List.length h1
  simp at this

theorem Extends_sibling {q x : String} {i j : Nat}
    (h1 : Extends (q ++ "." ++ strconv.Itoa i) x)
    (h2 : Extends (q ++ "." ++ strconv.Itoa j) x) : i = j := by
  obtain ⟨w1, e1, hw1⟩ := h1
  obtain ⟨w2, e2, hw2⟩ := h2
  rw [child_path_data] at e1 e2
  rw [e1] at e2
  simp only [List.append_assoc, List.cons_append] at e2
  have e3 := List.append_cancel_left e2
  injection e3 with _ e4
  have e5 := digits_cancel _ _ _ _ (Itoa_spec i).2 (Itoa_spec j).2 hw1 hw2 e4
  rw [← (Itoa_spec i).1, ← (Itoa_spec j).1, e5]

theorem Layout_path_eq {h : List anyRecord} {t : TraceNode} {p : Nat} {path : String}
    (hl : Layout h t p path) : t.Path = path := by
  cases t with
  | sload r => simp only [Layout] at hl; exact hl.2
  | sstore r => simp only [Layout] at hl; exact hl.2
  | log r => simp only [Layout] at hl; exact hl.2
  | call r ts => simp only [Layout] at hl; exact hl.2.1

mutual
theorem Layout_pathsOk {h : List anyRecord} : ∀ (t : TraceNode) (p : Nat) (path : String),
    Layout h t p path → t.PathsOk
  | .sload _, _, _, _ => by simp [TraceNode.PathsOk]
  | .sstore _, _, _, _ => by simp [TraceNode.PathsOk]
  | .log _, _, _, _ => by simp [TraceNode.PathsOk]
  | .call r ts, p, path, hl => by
    simp only [Layout] at hl
    simp only [TraceNode.PathsOk]
    rw [hl.2.1]
    exact LayoutList_pathsOk ts (p + 1) path 0 r.Children hl.2.2
theorem LayoutList_pathsOk {h : List anyRecord} :
    ∀ (ts : List TraceNode) (lo : Nat) (path : String) (i : Nat) (cs : List Nat),
    LayoutList h ts lo path i cs → TraceNode.PathsOkList path ts i
  | [], _, _, _, _, _ => by simp [TraceNode.PathsOkList]
  | t :: ts, lo, path, i, cs, hl => by
    simp only [LayoutList] at hl
    obtain ⟨cs', _, h2, h3⟩ := hl
    simp only [TraceNode.PathsOkList]
    exact ⟨Layout_path_eq h2, Layout_pathsOk t lo _ h2, LayoutList_pathsOk ts _ path _ cs' h3⟩
end

theorem TraceNode_self_mem_nodes (t : TraceNode) : t ∈ t.nodes := by
  cases t <;> simp [TraceNode.nodes]

mutual
theorem TraceNode_PathsOk_extends : ∀ (t : TraceNode), t.PathsOk →
    ∀ n ∈ t.nodes, Extends t.Path n.Path
  | .sload r, _, n, hn => by
    simp only [TraceNode.nodes, List.mem_singleton] at hn
    subst hn; exact Extends_refl _
  | .sstore r, _, n, hn => by
    simp only [TraceNode.nodes, List.mem_singleton] at hn
    subst hn; exact Extends_refl _
  | .log r, _, n, hn => by
    simp only [TraceNode.nodes, List.mem_singleton] at hn
    subst hn; exact Extends_refl _
  | .call r ts, hp, n, hn => by
    simp only [TraceNode.nodes, List.mem_cons] at hn
    simp only [TraceNode.PathsOk] at hp
    rcases hn with hn | hn
    · subst hn; exact Extends_refl _
    · obtain ⟨j, _, hj⟩ := TraceNode_PathsOkList_extends ts r.Path 0 hp n hn
      exact Extends_of_child hj
theorem TraceNode_PathsOkList_extends : ∀ (ts : List TraceNode) (parent : String) (i : Nat),
    TraceNode.PathsOkList parent ts i →
    ∀ n ∈ TraceNode.nodesList ts, ∃ j, i ≤ j ∧ Extends (parent ++ "." ++ strconv.Itoa j) n.Path
  | [], _, _, _, n, hn => by simp [TraceNode.nodesList] at hn
  | t :: ts, parent, i, hp, n, hn => by
    simp only [TraceNode.PathsOkList] at hp
    simp only [TraceNode.nodesList, List.mem_append] at hn
    rcases hn with hn | hn
    · have := TraceNode_PathsOk_extends t hp.2.1 n hn
      rw [hp.1] at this
      exact ⟨i, le_refl _, this⟩
    · obtain ⟨j, hj1, hj2⟩ := TraceNode_PathsOkList_extends ts parent (i + 1) hp.2.2 n hn
      exact ⟨j, by omega, hj2⟩
end

mutual
theorem TraceNode_PathsOk_nodup : ∀ (t : TraceNode), t.PathsOk →
    (t.nodes.map TraceNode.Path).Nodup
  | .sload r, _ => by simp [TraceNode.nodes]
  | .sstore r, _ => by simp [TraceNode.nodes]
  | .log r, _ => by simp [TraceNode.nodes]
  | .call r ts, hp => by
    simp only [TraceNode.PathsOk] at hp
    simp only [TraceNode.nodes, List.map_cons, List.nodup_cons, List.mem_map, not_exists,
      not_and]
    refine ⟨?_, TraceNode_PathsOkList_nodup ts r.Path 0 hp⟩
    intro n hn hpath
    obtain ⟨j, _, hj⟩ := TraceNode_PathsOkList_extends ts r.Path 0 hp n hn
    exact Extends_child_ne hj hpath
theorem TraceNode_PathsOkList_nodup : ∀ (ts : List TraceNode) (parent : String) (i : Nat),
    TraceNode.PathsOkList parent ts i → ((TraceNode.nodesList ts).map TraceNode.Path).Nodup
  | [], _, _, _ => by simp [TraceNode.nodesList]
  | t :: ts, parent, i, hp => by
    simp only [TraceNode.PathsOkList] at hp
    simp only [TraceNode.nodesList, List.map_append]
    rw [List.nodup_append]
    refine ⟨TraceNode_PathsOk_nodup t hp.2.1, TraceNode_PathsOkList_nodup ts parent (i + 1) hp.2.2,
      ?_⟩
    intro x hx hx'
    simp only [List.mem_map] at hx hx'
    obtain ⟨n, hn, rfl⟩ := hx
    obtain ⟨n', hn', he⟩ := hx'
    have h1 := TraceNode_PathsOk_extends t hp.2.1 n hn
    rw [hp.1] at h1
    obtain ⟨j, hj1, hj2⟩ := TraceNode_PathsOkList_extends ts parent (i + 1) hp.2.2 n' hn'
    rw [he] at hj2
    have := Extends_sibling h1 hj2
    omega
end

theorem TraceNode_PathsOkList_getElem {parent : String} : ∀ (ts : List TraceNode) (i k : Nat)
    (ch : TraceNode), TraceNode.PathsOkList parent ts i → ts[k]? = some ch →
    ch.Path = parent ++ "." ++ strconv.Itoa (i + k) := by
  intro ts
  induction ts with
  | nil => intro i k ch _ h; simp at h
  | cons t ts ih =>
    intro i k ch hp h
    simp only [TraceNode.PathsOkList] at hp
    cases k with
    | zero =>
      simp only [List.getElem?_cons_zero] at h
      injection h with h
      subst h
      exact hp.1
    | succ k =>
      simp only [List.getElem?_cons_succ] at h
      have := ih (i + 1) k ch hp.2.2 h
      rw [this]
      congr 2
      omega

mutual
theorem TraceNode_PathsOk_children : ∀ (t : TraceNode), t.PathsOk →
    ∀ n ∈ t.nodes, ∀ (i : Nat) (ch : TraceNode), n.children[i]? = some ch →
      ch.Path = n.Path ++ "." ++ strconv.Itoa i
  | .sload r, _, n, hn, i, ch, hc => by
    simp only [TraceNode.nodes, List.mem_singleton] at hn
    subst hn; simp [TraceNode.children] at hc
  | .sstore r, _, n, hn, i, ch, hc => by
    simp only [TraceNode.nodes, List.mem_singleton] at hn
    subst hn; simp [TraceNode.children] at hc
  | .log r, _, n, hn, i, ch, hc => by
    simp only [TraceNode.nodes, List.mem_singleton] at hn
    subst hn; simp [TraceNode.children] at hc
  | .call r ts, hp, n, hn, i, ch, hc => by
    simp only [TraceNode.nodes, List.mem_cons] at hn
    simp only [TraceNode.PathsOk] at hp
    rcases hn with hn | hn
    · subst hn
      simp only [TraceNode.children] at hc
      have := TraceNode_PathsOkList_getElem ts 0 i ch hp hc
      rw [Nat.zero_add] at this
      exact this
    · exact TraceNode_PathsOkList_children ts r.Path 0 hp n hn i ch hc
theorem TraceNode_PathsOkList_children : ∀ (ts : List TraceNode) (parent : String) (j : Nat),
    TraceNode.PathsOkList parent ts j →
    ∀ n ∈ TraceNode.nodesList ts, ∀ (i : Nat) (ch : TraceNode), n.children[i]? = some ch →
      ch.Path = n.Path ++ "." ++ strconv.Itoa i
  | [], _, _, _, n, hn, _, _, _ => by simp [TraceNode.nodesList] at hn
  | t :: ts, parent, j, hp, n, hn, i, ch, hc => by
    simp only [TraceNode.PathsOkList] at hp
    simp only [TraceNode.nodesList, List.mem_append] at hn
    rcases hn with hn | hn
    · exact TraceNode_PathsOk_children t hp.2.1 n hn i ch hc
    · exact TraceNode_PathsOkList_children ts parent (j + 1) hp.2.2 n hn i ch hc
end

/-- C3: in every state reached from a fresh tracer by one `CaptureStart` followed by any
callbacks other than `CaptureStart`, none of which panicked, the records allocated form one
tree rooted at the first frame, whose path is "0"; the path of every child is the path of its
parent followed by "." and the decimal index of the child among its parent's children; and
the paths of the nodes of the tree are pairwise different.  This tree is the one `GetResult`
returns when it succeeds. -/
theorem paths_unique (keccak256 : Bytes → Hash) (env : IntraBlockState) (from_ to_ : Address)
    (precompile create : Bool) (input : Bytes) (gas : Nat) (value : Option U256)
    (evs : List Event) (t : openchainTracer) (hne : ∀ e ∈ evs, e.isStart = false)
    (h : run (newOpenchainTracer keccak256)
      (.CaptureStart env from_ to_ precompile create input gas value :: evs) = some t) :
    ∃ tree, marshalNode t.heap (t.heap.length + 1) 0 = some tree ∧
      (∀ p ∈ t.callstack.head?, p = 0) ∧
      tree.size = t.heap.length ∧
      tree.Path = "0" ∧
      (∀ n ∈ tree.nodes, ∀ (i : Nat) (ch : TraceNode), n.children[i]? = some ch →
        ch.Path = n.Path ++ "." ++ strconv.Itoa i) ∧
      (tree.nodes.map TraceNode.Path).Nodup ∧
      (∀ r, GetResult t = .ok r → r.Entrypoint = tree) := by
  rw [run_cons_some _ (CaptureStart_fresh keccak256 env from_ to_ precompile create input gas
    value)] at h
  obtain ⟨hok0, hinv0⟩ := rootState_ok keccak256 env from_ to_ precompile create input gas value
  have hinv := run_inv evs _ t hok0 hinv0 hne h
  obtain ⟨tree, hl, hsz⟩ := Inv_whole hinv
  have hm := Layout_marshal tree 0 "0" hl (t.heap.length + 1) (by omega)
  have hpo := Layout_pathsOk tree 0 "0" hl
  have hhead : ∀ p ∈ t.callstack.head?, p = 0 := by
    intro p hp
    cases hst : t.callstack with
    | nil => rw [hst] at hp; simp at hp
    | cons q rest =>
      rw [hst] at hp hinv
      simp only [List.head?_cons, Option.mem_def, Option.some.injEq] at hp
      rw [← hp]
      exact hinv.1
  refine ⟨tree, hm, hhead, hsz, Layout_path_eq hl, TraceNode_PathsOk_children tree hpo,
    TraceNode_PathsOk_nodup tree hpo, ?_⟩
  intro r hr
  have hlen : t.callstack.length = 1 := by
    by_contra hne1
    simp [GetResult, hne1] at hr
  obtain ⟨p, hp⟩ := List.length_eq_one.mp hlen
  have hp0 : p = 0 := hhead p (by rw [hp]; simp)
  subst hp0
  rw [GetResult_of_layout t tree 0 "0" hp hl (by omega)] at hr
  injection hr with hr
  rw [← hr]

theorem sampleTrace_wellNested : WellNested sampleTrace :=
  ⟨sampleEnv, 1, 2, false, false, [], 10, none,
    [.CaptureState sampleEnv vm.SLOAD sampleScope,
     .CaptureState sampleEnv vm.CALL sampleScope,
     .CaptureEnter sampleEnv vm.CALL 2 3 false false [9] 5 none,
     .CaptureState sampleEnv vm.LOG2 sampleScope,
     .CaptureExit sampleEnv [] 3 (some "reverted"),
     .CaptureState sampleEnv vm.KECCAK256 sampleScope],
    sampleEnv, [], 3, none, rfl,
    Block.step sampleEnv vm.SLOAD sampleScope rfl
      (Block.call sampleEnv vm.CALL sampleScope sampleEnv vm.CALL 2 3 false false [9] 5 none
        sampleEnv [] 3 (some "reverted") rfl
        (Block.step sampleEnv vm.LOG2 sampleScope rfl Block.nil)
        (Block.step sampleEnv vm.KECCAK256 sampleScope rfl Block.nil))⟩

theorem sampleTrace_run : run (newOpenchainTracer sampleHasher) sampleTrace = some sampleFinal := by
  rfl

theorem sampleEvents_no_start : ∀ e ∈ sampleEvents, e.isStart = false := by
  intro e he
  simp only [sampleEvents, List.mem_cons, List.mem_singleton, List.not_mem_nil, or_false] at he
  rcases he with he | he | he | he | he | he | he <;> subst he <;> rfl

/-- Witness for C2: the sample trace is well-nested and its tree has four nodes. -/
theorem wellNested_node_count_witness :
    WellNested sampleTrace ∧
    ∃ t r, run (newOpenchainTracer sampleHasher) sampleTrace = some t ∧ GetResult t = .ok r ∧
      r.Entrypoint.size = 1 + 3 :=
  ⟨sampleTrace_wellNested, wellNested_node_count sampleHasher sampleTrace sampleTrace_wellNested⟩

/-- Witness for C3: the state after the sample trace. -/
theorem paths_unique_witness :
    (∀ e ∈ sampleEvents, e.isStart = false) ∧
    run (newOpenchainTracer sampleHasher) (sampleStart :: sampleEvents) = some sampleFinal ∧
    ∃ tree, marshalNode sampleFinal.heap (sampleFinal.heap.length + 1) 0 = some tree ∧
      (tree.nodes.map TraceNode.Path).Nodup :=
  ⟨sampleEvents_no_start, sampleTrace_run, by
    obtain ⟨tree, h1, _, _, _, _, h2, _⟩ :=
      paths_unique sampleHasher sampleEnv 1 2 false false [] 10 none sampleEvents sampleFinal
        sampleEvents_no_start sampleTrace_run
    exact ⟨tree, h1, h2⟩⟩

theorem call_enter_run (t : openchainTracer) (top : Nat) (c : callRecord)
    (ht : t.callstack.getLast? = some top) (hc : t.heap[top]? = some (.call c))
    (env : IntraBlockState) (op : OpCode) (scope : ScopeContext) (hcl : isCallLike op = true)
    (env1 : IntraBlockState) (typ : OpCode) (from_ to_ : Address) (precompile create : Bool)
    (input : Bytes) (gas : Nat) (value : Option U256) (rest : List Event) :
    run t (.CaptureState env op scope ::
        .CaptureEnter env1 typ from_ to_ precompile create input gas value :: rest) =
      run (enteredState t top c env1 typ from_ to_ precompile input gas value) rest := by
  have hstep1 : step t (.CaptureState env op scope) =
      some { t with
        heap := appendChild t.heap top c (.call callRecord.empty),
        callstack := t.callstack ++ [t.heap.length] } := by
    simp only [step]
    rw [CaptureState_call t env op scope hcl, pushAndSetPath_alloc t top c _ ht hc]
  have hstep2 := CaptureEnter_eq
    { t with
      heap := appendChild t.heap top c (.call callRecord.empty),
      callstack := t.callstack ++ [t.heap.length] } t.heap.length
    { callRecord.empty with Path := c.Path ++ "." ++ strconv.Itoa c.Children.length }
    env1 typ from_ to_ precompile create input gas value (List.getLast?_concat _)
    (appendChild_get_new _ _ _ _)
  rw [run_cons_some _ hstep1, run_cons_some _ (by simpa only [step] using hstep2)]
  rfl

theorem enteredState_top (t : openchainTracer) (top : Nat) (c : callRecord)
    (env1 : IntraBlockState) (typ : OpCode) (from_ to_ : Address) (precompile : Bool)
    (input : Bytes) (gas : Nat) (value : Option U256) :
    (enteredState t top c env1 typ from_ to_ precompile input gas value).callstack.getLast? =
      some t.heap.length :=
  List.getLast?_concat _

theorem enteredState_cell (t : openchainTracer) (top : Nat) (c : callRecord)
    (env1 : IntraBlockState) (typ : OpCode) (from_ to_ : Address) (precompile : Bool)
    (input : Bytes) (gas : Nat) (value : Option U256) :
    (enteredState t top c env1 typ from_ to_ precompile input gas value).heap[t.heap.length]? =
      some (.call (enteredRecord c env1 typ from_ to_ precompile input gas value)) :=
  List.getElem?_set_self (by rw [appendChild_length]; exact Nat.lt_succ_self _)

theorem unterminated_run {evs : List Event} (hu : Unterminated evs) :
    ∀ (t : openchainTracer) (top : Nat) (c : callRecord),
    t.callstack.getLast? = some top → t.heap[top]? = some (.call c) →
    ∃ t', run t evs = some t' ∧ t.callstack.length < t'.callstack.length := by
  induction hu with
  | @last before inner env op scope env1 typ from_ to_ precompile create input gas value hb hcl
      hi =>
    intro t top c ht hc
    obtain ⟨t1, hr1, hp1⟩ := block_run hb t top c ht hc
    obtain ⟨p1, ⟨new, p2⟩, _, _, _⟩ := hp1
    obtain ⟨t2, hr2, hp2⟩ := block_run hi _ t1.heap.length _
      (enteredState_top t1 top _ env1 typ from_ to_ precompile input gas value)
      (enteredState_cell t1 top _ env1 typ from_ to_ precompile input gas value)
    refine ⟨t2, ?_, ?_⟩
    · rw [run_append, hr1]
      simp only [Option.bind]
      rw [call_enter_run t1 top _ (by rw [p1]; exact ht) p2 env op scope hcl]
      exact hr2
    · rw [hp2.1, ← p1]
      simp [enteredState]
  | @nest before inner env op scope env1 typ from_ to_ precompile create input gas value hb hcl
      _ ih =>
    intro t top c ht hc
    obtain ⟨t1, hr1, hp1⟩ := block_run hb t top c ht hc
    obtain ⟨p1, ⟨new, p2⟩, _, _, _⟩ := hp1
    obtain ⟨t2, hr2, hlt⟩ := ih _ t1.heap.length _
      (enteredState_top t1 top _ env1 typ from_ to_ precompile input gas value)
      (enteredState_cell t1 top _ env1 typ from_ to_ precompile input gas value)
    refine ⟨t2, ?_, ?_⟩
    · rw [run_append, hr1]
      simp only [Option.bind]
      rw [call_enter_run t1 top _ (by rw [p1]; exact ht) p2 env op scope hcl]
      exact hr2
    · simp only [enteredState, List.length_append, List.length_singleton] at hlt
      rw [← p1]
      omega

/-- C5: when the events after `CaptureStart` are well-nested except that at least one
`CaptureEnter` has no `CaptureExit` yet, every callback completes and `GetResult` returns the
error "incorrect number of top-level calls", both before and after `CaptureEnd` has been
delivered. -/
theorem unterminated_rejected (keccak256 : Bytes → Hash) (env : IntraBlockState)
    (from_ to_ : Address) (precompile create : Bool) (input : Bytes) (gas : Nat)
    (value : Option U256) (body : List Event) (h : Unterminated body) :
    (∃ t, run (newOpenchainTracer keccak256)
        (.CaptureStart env from_ to_ precompile create input gas value :: body) = some t ∧
      2 ≤ t.callstack.length ∧
      GetResult t = .error "incorrect number of top-level calls") ∧
    (∀ (env1 : IntraBlockState) (output : Bytes) (gasUsed : Nat) (err : Option String),
      ∃ t, run (newOpenchainTracer keccak256)
          (.CaptureStart env from_ to_ precompile create input gas value ::
            (body ++ [.CaptureEnd env1 output gasUsed err])) = some t ∧
        2 ≤ t.callstack.length ∧
        GetResult t = .error "incorrect number of top-level calls") := by
  have hs0 := CaptureStart_fresh keccak256 env from_ to_ precompile create input gas value
  obtain ⟨hok0, _⟩ := rootState_ok keccak256 env from_ to_ precompile create input gas value
  obtain ⟨t1, hr1, hlt⟩ := unterminated_run h
    (rootState keccak256 env from_ to_ precompile create input gas value) 0
    (rootRecord env from_ to_ precompile create input gas value) rfl rfl
  have hlen : 2 ≤ t1.callstack.length := by
    simp only [rootState, List.length_singleton] at hlt
    omega
  have hok1 := run_heapOk body _ t1 hok0 hr1
  constructor
  · refine ⟨t1, by rw [run_cons_some _ hs0]; exact hr1, hlen, ?_⟩
    simp only [GetResult]
    rw [if_pos (by omega)]
  · intro env1 output gasUsed err
    obtain ⟨p, hp⟩ : ∃ p, t1.callstack[0]? = some p :=
      ⟨t1.callstack[0], List.getElem?_eq_getElem (by omega)⟩
    obtain ⟨c, hc⟩ := hok1.2 p (List.getElem?_mem hp)
    refine ⟨finishedState t1 p c env1 output gasUsed err, ?_, hlen, ?_⟩
    · rw [run_cons_some _ hs0, run_append, hr1]
      simp only [Option.bind]
      rw [run_cons_some _ (CaptureEnd_step t1 p c env1 output gasUsed err hp hc)]
      rfl
    · simp only [GetResult, finishedState]
      rw [if_pos (by omega)]

/-- Witness for C5: a call entered after the root callback and never exited. -/
theorem unterminated_rejected_witness :
    Unterminated [.CaptureState sampleEnv vm.CALL sampleScope,
      .CaptureEnter sampleEnv vm.CALL 2 3 false false [] 5 none] ∧
    ∃ t, run (newOpenchainTracer sampleHasher)
        [sampleStart, .CaptureState sampleEnv vm.CALL sampleScope,
          .CaptureEnter sampleEnv vm.CALL 2 3 false false [] 5 none] = some t ∧
      GetResult t = .error "incorrect number of top-level calls" :=
  ⟨@Unterminated.last [] [] sampleEnv vm.CALL sampleScope sampleEnv vm.CALL
      2 3 false false [] 5 none Block.nil rfl Block.nil, by
    obtain ⟨⟨t, h1, _, h2⟩, _⟩ := unterminated_rejected sampleHasher sampleEnv 1 2 false false []
      10 none _ (@Unterminated.last [] [] sampleEnv vm.CALL sampleScope
        sampleEnv vm.CALL 2 3 false false [] 5 none Block.nil rfl Block.nil)
    exact ⟨t, h1, h2⟩⟩

theorem CaptureExit_step (t : openchainTracer) (p : Nat) (c : callRecord) (env : IntraBlockState)
    (output : Bytes) (gasUsed : Nat) (err : Option String)
    (h1 : t.callstack.getLast? = some p) (h2 : t.heap[p]? = some (.call c)) :
    step t (.CaptureExit env output gasUsed err) =
      some (exitedState t p c env output gasUsed err) :=
  CaptureExit_eq t p c env output gasUsed err h1 h2

/-- C8: from a state whose top frame `c` (at pointer `top`) has path `p` and `n` children, a
call-like step event, `CaptureEnter`, a well-nested body and `CaptureExit` all complete and
leave the stack as it was, with `c` on top again; `c` has gained exactly one child, the new
call frame, whose path is `p.n`, whose fields are those given to `CaptureEnter`, and which is
finished with the status, output and gas of `CaptureExit`; every other record that existed
before is unchanged.  In particular `CaptureStart`, call step, `CaptureEnter`, `CaptureExit`
with an error, `CaptureEnd` without one gives a root with status 1 and exactly one child, a
call frame with path "0.0" and status 0. -/
theorem nested_call_round_trip (t : openchainTracer) (top : Nat) (c : callRecord)
    (h1 : t.callstack.getLast? = some top) (h2 : t.heap[top]? = some (.call c))
    (env : IntraBlockState) (op : OpCode) (scope : ScopeContext) (hcl : isCallLike op = true)
    (env1 : IntraBlockState) (typ : OpCode) (from_ to_ : Address) (precompile create : Bool)
    (input : Bytes) (gas : Nat) (value : Option U256) (inner : List Event) (hb : Block inner)
    (env2 : IntraBlockState) (output : Bytes) (gasUsed : Nat) (err : Option String) :
    (∃ t' child, run t (.CaptureState env op scope ::
          .CaptureEnter env1 typ from_ to_ precompile create input gas value ::
          (inner ++ [.CaptureExit env2 output gasUsed err])) = some t' ∧
      t'.callstack = t.callstack ∧ t'.callstack.getLast? = some top ∧
      t'.heap[top]? = some (.call { c with Children := c.Children ++ [t.heap.length] }) ∧
      t'.heap[t.heap.length]? = some (.call child) ∧
      child.Path = c.Path ++ "." ++ strconv.Itoa c.Children.length ∧
      child.Type_ = "call" ∧ child.From = from_ ∧ child.To = to_ ∧ child.Gas = gas ∧
      child.Input = input ∧
      (child.Status = 1 ↔ err = none) ∧ (child.Status = 0 ↔ err ≠ none) ∧
      child.Output = output ∧ child.GasUsed = gasUsed ∧
      (∀ q, q < t.heap.length → q ≠ top → t'.heap[q]? = t.heap[q]?) ∧
      t'.heap.length = t.heap.length + 1 + countAppends inner) ∧
    (∀ (keccak256 : Bytes → Hash) (env0 : IntraBlockState) (from0 to0 : Address)
      (precompile0 create0 : Bool) (input0 : Bytes) (gas0 : Nat) (value0 : Option U256)
      (e : String) (env3 : IntraBlockState) (output3 : Bytes) (gasUsed3 : Nat),
      ∃ t' r root child, run (newOpenchainTracer keccak256)
          [.CaptureStart env0 from0 to0 precompile0 create0 input0 gas0 value0,
           .CaptureState env op scope,
           .CaptureEnter env1 typ from_ to_ precompile create input gas value,
           .CaptureExit env2 output gasUsed (some e),
           .CaptureEnd env3 output3 gasUsed3 none] = some t' ∧
        GetResult t' = .ok r ∧ r.Entrypoint = .call root [.call child []] ∧
        root.Status = 1 ∧ root.Path = "0" ∧
        child.Type_ = "call" ∧ child.Path = "0.0" ∧ child.Status = 0) := by
  have htop := getElem?_lt_of_eq_some h2
  constructor
  · obtain ⟨t3, hr3, hp3⟩ := block_run hb _ t.heap.length _
      (enteredState_top t top c env1 typ from_ to_ precompile input gas value)
      (enteredState_cell t top c env1 typ from_ to_ precompile input gas value)
    obtain ⟨i1, ⟨new3, i2⟩, i3, i4, _⟩ := hp3
    simp only [enteredState, List.length_set, appendChild_length] at i1 i3 i4
    obtain ⟨c3, hc3, g1, g2, g3, g4, g5, g6⟩ : ∃ c3, t3.heap[t.heap.length]? = some (.call c3) ∧
        c3.Path = c.Path ++ "." ++ strconv.Itoa c.Children.length ∧ c3.Type_ = "call" ∧
        c3.From = from_ ∧ c3.To = to_ ∧ c3.Gas = gas ∧ c3.Input = input :=
      ⟨_, i2, rfl, rfl, rfl, rfl, rfl, rfl⟩
    have hexit := CaptureExit_step t3 t.heap.length c3 env2 output gasUsed err
      (by rw [i1]; exact List.getLast?_concat _) hc3
    have hlt3 : t.heap.length < t3.heap.length := by omega
    refine ⟨exitedState t3 t.heap.length c3 env2 output gasUsed err,
      finished c3 env2 output gasUsed err, ?_, ?_, ?_, ?_, List.getElem?_set_self hlt3,
      g1, g2, g3, g4, g5, g6, ?_, ?_, rfl, rfl, ?_, ?_⟩
    · rw [call_enter_run t top c h1 h2 env op scope hcl, run_append, hr3]
      simp only [Option.bind]
      rw [run_cons_some _ hexit]
      rfl
    · show t3.callstack.dropLast = t.callstack
      rw [i1]; exact List.dropLast_concat
    · show t3.callstack.dropLast.getLast? = some top
      rw [i1, List.dropLast_concat]; exact h1
    · show (t3.heap.set t.heap.length _)[top]? = _
      rw [List.getElem?_set_ne (by omega), i3 top (by omega) (by omega),
        List.getElem?_set_ne (by omega)]
      exact appendChild_get_top _ h2
    · cases err <;> simp [finished]
    · cases err <;> simp [finished]
    · intro q hq hne
      show (t3.heap.set t.heap.length _)[q]? = _
      rw [List.getElem?_set_ne (by omega), i3 q (by omega) (by omega),
        List.getElem?_set_ne (by omega)]
      exact appendChild_get_other c _ hne hq
    · show (t3.heap.set t.heap.length _).length = _
      rw [List.length_set, i4]
  · intro keccak256 env0 from0 to0 precompile0 create0 input0 gas0 value0 e env3 output3 gasUsed3
    have hs0 := CaptureStart_fresh keccak256 env0 from0 to0 precompile0 create0 input0 gas0 value0
    have hexit := CaptureExit_step
      (enteredState (rootState keccak256 env0 from0 to0 precompile0 create0 input0 gas0 value0) 0
        (rootRecord env0 from0 to0 precompile0 create0 input0 gas0 value0)
        env1 typ from_ to_ precompile input gas value) 1
      (enteredRecord (rootRecord env0 from0 to0 precompile0 create0 input0 gas0 value0)
        env1 typ from_ to_ precompile input gas value) env2 output gasUsed (some e) rfl rfl
    have hend := CaptureEnd_step
      (exitedState
        (enteredState (rootState keccak256 env0 from0 to0 precompile0 create0 input0 gas0 value0)
          0 (rootRecord env0 from0 to0 precompile0 create0 input0 gas0 value0)
          env1 typ from_ to_ precompile input gas value) 1
        (enteredRecord (rootRecord env0 from0 to0 precompile0 create0 input0 gas0 value0)
          env1 typ from_ to_ precompile input gas value) env2 output gasUsed (some e)) 0
      { rootRecord env0 from0 to0 precompile0 create0 input0 gas0 value0 with Children := [1] }
      env3 output3 gasUsed3 none rfl rfl
    refine ⟨finishedState
      (exitedState
        (enteredState (rootState keccak256 env0 from0 to0 precompile0 create0 input0 gas0 value0)
          0 (rootRecord env0 from0 to0 precompile0 create0 input0 gas0 value0)
          env1 typ from_ to_ precompile input gas value) 1
        (enteredRecord (rootRecord env0 from0 to0 precompile0 create0 input0 gas0 value0)
          env1 typ from_ to_ precompile input gas value) env2 output gasUsed (some e)) 0
      { rootRecord env0 from0 to0 precompile0 create0 input0 gas0 value0 with Children := [1] }
      env3 output3 gasUsed3 none,
      { Entrypoint := .call
          (finished
            { rootRecord env0 from0 to0 precompile0 create0 input0 gas0 value0 with
              Children := [1] } env3 output3 gasUsed3 none)
          [.call (finished
            (enteredRecord (rootRecord env0 from0 to0 precompile0 create0 input0 gas0 value0)
              env1 typ from_ to_ precompile input gas value) env2 output gasUsed (some e)) []],
        Preimages := ∅,
        Addresses := registered
          (registered ∅ to_
            (finished
              (enteredRecord (rootRecord env0 from0 to0 precompile0 create0 input0 gas0 value0)
                env1 typ from_ to_ precompile input gas value) env2 output gasUsed
              (some e)).Codehash)
          to0
          (finished
            { rootRecord env0 from0 to0 precompile0 create0 input0 gas0 value0 with
              Children := [1] } env3 output3 gasUsed3 none).Codehash },
      _, _, ?_, ?_, rfl, ?_, ?_, ?_, ?_, ?_⟩
    · rw [run_cons_some _ hs0,
        call_enter_run (rootState keccak256 env0 from0 to0 precompile0 create0 input0 gas0 value0)
          0 (rootRecord env0 from0 to0 precompile0 create0 input0 gas0 value0)
          rfl rfl env op scope hcl,
        run_cons_some _ hexit, run_cons_some _ hend]
      rfl
    · rfl
    · rfl
    · rfl
    · rfl
    · simp only [finished, enteredRecord, entered, rootRecord, List.length_nil]
      rfl
    · rfl

/-- Witness for C8: a failed call under the root of the sample trace. -/
theorem nested_call_round_trip_witness :
    sampleTracer.callstack.getLast? = some 0 ∧
    sampleTracer.heap[0]? = some (.call (rootRecord sampleEnv 1 2 false false [] 10 none)) ∧
    isCallLike vm.CALL = true ∧ Block [] ∧
    ∃ t', run sampleTracer [.CaptureState sampleEnv vm.CALL sampleScope,
        .CaptureEnter sampleEnv vm.CALL 2 3 false false [9] 5 none,
        .CaptureExit sampleEnv [] 3 (some "reverted")] = some t' ∧
      t'.callstack = [0] :=
  ⟨rfl, rfl, rfl, Block.nil, by
    obtain ⟨⟨t', _, h1, h2, _⟩, _⟩ := nested_call_round_trip sampleTracer 0
      (rootRecord sampleEnv 1 2 false false [] 10 none) rfl rfl sampleEnv vm.CALL sampleScope rfl
      sampleEnv vm.CALL 2 3 false false [9] 5 none [] Block.nil sampleEnv [] 3 (some "reverted")
    exact ⟨t', h1, h2⟩⟩

mutual
theorem Layout_call_of_cell {h : List anyRecord} : ∀ (t : TraceNode) (p : Nat) (path : String),
    Layout h t p path → ∀ (q : Nat) (d : callRecord), p ≤ q → q < p + t.size →
    h[q]? = some (.call d) → ∃ ts, TraceNode.call d ts ∈ t.nodes
  | .sload r, p, path, hl, q, d, h1, h2, hq => by
    simp only [Layout, TraceNode.size] at hl h2
    have : q = p := by omega
    subst this
    rw [hl.1] at hq
    exact absurd hq (by simp)
  | .sstore r, p, path, hl, q, d, h1, h2, hq => by
    simp only [Layout, TraceNode.size] at hl h2
    have : q = p := by omega
    subst this
    rw [hl.1] at hq
    exact absurd hq (by simp)
  | .log r, p, path, hl, q, d, h1, h2, hq => by
    simp only [Layout, TraceNode.size] at hl h2
    have : q = p := by omega
    subst this
    rw [hl.1] at hq
    exact absurd hq (by simp)
  | .call r ts, p, path, hl, q, d, h1, h2, hq => by
    simp only [Layout, TraceNode.size] at hl h2
    by_cases hqp : q = p
    · subst hqp
      rw [hl.1] at hq
      injection hq with hq
      injection hq with hq
      subst hq
      exact ⟨ts, by simp [TraceNode.nodes]⟩
    · obtain ⟨us, hus⟩ := LayoutList_call_of_cell ts (p + 1) path 0 r.Children hl.2.2 q d
        (by omega) (by omega) hq
      exact ⟨us, by simp [TraceNode.nodes, hus]⟩
theorem LayoutList_call_of_cell {h : List anyRecord} :
    ∀ (ts : List TraceNode) (lo : Nat) (path : String) (i : Nat) (cs : List Nat),
    LayoutList h ts lo path i cs → ∀ (q : Nat) (d : callRecord), lo ≤ q →
    q < lo + TraceNode.sizeList ts → h[q]? = some (.call d) →
    ∃ us, TraceNode.call d us ∈ TraceNode.nodesList ts
  | [], lo, path, i, cs, _, q, d, h1, h2, _ => by
    simp only [TraceNode.sizeList] at h2
    omega
  | t :: ts, lo, path, i, cs, hl, q, d, h1, h2, hq => by
    simp only [LayoutList, TraceNode.sizeList] at hl h2
    obtain ⟨cs', _, g2, g3⟩ := hl
    by_cases hlt : q < lo + t.size
    · obtain ⟨us, hus⟩ := Layout_call_of_cell t lo _ g2 q d h1 hlt hq
      exact ⟨us, by simp [TraceNode.nodesList, hus]⟩
    · obtain ⟨us, hus⟩ := LayoutList_call_of_cell ts _ path _ cs' g3 q d (by omega) (by omega) hq
      exact ⟨us, by simp [TraceNode.nodesList, hus]⟩
end

mutual
theorem Layout_cell_of_call {h : List anyRecord} : ∀ (t : TraceNode) (p : Nat) (path : String),
    Layout h t p path → ∀ (d : callRecord) (us : List TraceNode), TraceNode.call d us ∈ t.nodes →
    ∃ q, p ≤ q ∧ q < p + t.size ∧ h[q]? = some (.call d)
  | .sload r, p, path, hl, d, us, hn => by simp [TraceNode.nodes] at hn
  | .sstore r, p, path, hl, d, us, hn => by simp [TraceNode.nodes] at hn
  | .log r, p, path, hl, d, us, hn => by simp [TraceNode.nodes] at hn
  | .call r ts, p, path, hl, d, us, hn => by
    simp only [Layout] at hl
    simp only [TraceNode.nodes, List.mem_cons] at hn
    rcases hn with hn | hn
    · injection hn with e1 _
      subst e1
      exact ⟨p, le_refl _, by simp only [TraceNode.size]; omega, hl.1⟩
    · obtain ⟨q, g1, g2, g3⟩ := LayoutList_cell_of_call ts (p + 1) path 0 r.Children hl.2.2 d us hn
      exact ⟨q, by omega, by simp only [TraceNode.size]; omega, g3⟩
theorem LayoutList_cell_of_call {h : List anyRecord} :
    ∀ (ts : List TraceNode) (lo : Nat) (path : String) (i : Nat) (cs : List Nat),
    LayoutList h ts lo path i cs → ∀ (d : callRecord) (us : List TraceNode),
    TraceNode.call d us ∈ TraceNode.nodesList ts →
    ∃ q, lo ≤ q ∧ q < lo + TraceNode.sizeList ts ∧ h[q]? = some (.call d)
  | [], lo, path, i, cs, _, d, us, hn => by simp [TraceNode.nodesList] at hn
  | t :: ts, lo, path, i, cs, hl, d, us, hn => by
    simp only [LayoutList] at hl
    obtain ⟨cs', _, g2, g3⟩ := hl
    simp only [TraceNode.nodesList, List.mem_append] at hn
    rcases hn with hn | hn
    · obtain ⟨q, k1, k2, k3⟩ := Layout_cell_of_call t lo _ g2 d us hn
      exact ⟨q, k1, by simp only [TraceNode.sizeList]; omega, k3⟩
    · obtain ⟨q, k1, k2, k3⟩ := LayoutList_cell_of_call ts _ path _ cs' g3 d us hn
      exact ⟨q, by omega, by simp only [TraceNode.sizeList]; omega, k3⟩
end

/-- C10: after a well-nested complete event sequence on a fresh tracer, `GetResult` succeeds
and the keys of the address book it returns are exactly the pairs (`To`, `Codehash`) of the
call frames of the tree it returns: every call frame's pair has an entry, and every entry's
pair is carried by some call frame. -/
theorem book_matches_tree (keccak256 : Bytes → Hash) (evs : List Event) (h : WellNested evs) :
    ∃ t r, run (newOpenchainTracer keccak256) evs = some t ∧ GetResult t = .ok r ∧
      r.Addresses = t.addresses ∧
      ∀ (a : Address) (hsh : Hash), (AddressBook.get r.Addresses a hsh).isSome ↔
        ∃ c ts, TraceNode.call c ts ∈ r.Entrypoint.nodes ∧ c.To = a ∧ c.Codehash = hsh := by
  obtain ⟨env, from_, to_, precompile, create, input, gas, value, body, env1, output, gasUsed,
    err, rfl, hb⟩ := h
  obtain ⟨t1, c1, tree, _, hp, hc1, hrun, hl, hsz, hres⟩ :=
    wellNested_run keccak256 env from_ to_ precompile create input gas value body env1 output
      gasUsed err hb
  refine ⟨_, _, hrun, hres, rfl, ?_⟩
  obtain ⟨_, _, _, p4, p5⟩ := hp
  have hlt0 : 0 < t1.heap.length := getElem?_lt_of_eq_some hc1
  have hcell0 : (finishedState t1 0 c1 env1 output gasUsed err).heap[0]? =
      some (.call (finished c1 env1 output gasUsed err)) := List.getElem?_set_self hlt0
  have hcell : ∀ q, q ≠ 0 →
      (finishedState t1 0 c1 env1 output gasUsed err).heap[q]? = t1.heap[q]? :=
    fun q hq => List.getElem?_set_ne (Ne.symm hq)
  intro a hsh
  show (AddressBook.get (registered t1.addresses c1.To
    (finished c1 env1 output gasUsed err).Codehash) a hsh).isSome ↔ _
  rw [registered_isSome_iff, p5 a hsh]
  constructor
  · rintro (he | hs | ⟨q, d, hq, hd, hto, hch⟩)
    · injection he with e1 e2
      obtain ⟨ts, hts⟩ := Layout_call_of_cell tree 0 "0" hl 0 _ (le_refl _) (by omega) hcell0
      exact ⟨_, ts, hts, e1.symm, e2.symm⟩
    · simp [rootState, newOpenchainTracer, AddressBook.get, GoMap_get_empty] at hs
    · simp only [rootState, List.length_singleton] at hq
      have hq2 := getElem?_lt_of_eq_some hd
      rw [← hcell q (by omega)] at hd
      obtain ⟨ts, hts⟩ := Layout_call_of_cell tree 0 "0" hl q d (Nat.zero_le _) (by omega) hd
      exact ⟨d, ts, hts, hto, hch⟩
  · rintro ⟨c, ts, hn, hto, hch⟩
    obtain ⟨q, _, hq2, hq3⟩ := Layout_cell_of_call tree 0 "0" hl c ts hn
    by_cases hq0 : q = 0
    · subst hq0
      rw [hcell0] at hq3
      injection hq3 with hq3
      injection hq3 with hq3
      subst hq3
      exact Or.inl (by rw [← hto, ← hch]; rfl)
    · rw [hcell q hq0] at hq3
      refine Or.inr (Or.inr ⟨q, c, ?_, hq3, hto, hch⟩)
      simp only [rootState, List.length_singleton]
      omega

/-- Witness for C10: the sample trace. -/
theorem book_matches_tree_witness :
    WellNested sampleTrace ∧
    ∃ t r, run (newOpenchainTracer sampleHasher) sampleTrace = some t ∧ GetResult t = .ok r ∧
      r.Addresses = t.addresses :=
  ⟨sampleTrace_wellNested, by
    obtain ⟨t, r, h1, h2, h3, _⟩ := book_matches_tree sampleHasher sampleTrace
      sampleTrace_wellNested
    exact ⟨t, r, h1, h2, h3⟩⟩

/-- Counterexample to C6 as stated: after `CaptureStart`, a stray `CaptureExit` pops the root
frame, and the following `CaptureEnd` indexes the empty frame stack: it does not complete, so
there is no state on which `GetResult` could then return its error. -/
theorem stray_exit_counterexample :
    run (newOpenchainTracer sampleHasher)
      [sampleStart, .CaptureExit sampleEnv [] 0 none, .CaptureEnd sampleEnv [] 0 none] = none ∧
    ¬ ∃ t, run (newOpenchainTracer sampleHasher)
        [sampleStart, .CaptureExit sampleEnv [] 0 none, .CaptureEnd sampleEnv [] 0 none] =
          some t ∧
      GetResult t = .error "incorrect number of top-level calls" := by
  have h : run (newOpenchainTracer sampleHasher)
      [sampleStart, .CaptureExit sampleEnv [] 0 none, .CaptureEnd sampleEnv [] 0 none] = none :=
    rfl
  refine ⟨h, ?_⟩
  rintro ⟨t, ht, _⟩
  rw [h] at ht
  exact absurd ht (by simp)

/-- C6, amended: after `CaptureStart` and a well-nested body, a `CaptureExit` with no matching
`CaptureEnter` completes like every callback before it; it finishes and pops the root frame,
so the frame stack is empty and `GetResult` at that point returns the error "incorrect number
of top-level calls"; a `CaptureEnd` delivered afterwards does not complete, because it indexes
the empty frame stack. -/
theorem stray_exit_empties_stack (keccak256 : Bytes → Hash) (env : IntraBlockState)
    (from_ to_ : Address) (precompile create : Bool) (input : Bytes) (gas : Nat)
    (value : Option U256) (body : List Event) (hb : Block body)
    (env1 : IntraBlockState) (output : Bytes) (gasUsed : Nat) (err : Option String) :
    ∃ t, run (newOpenchainTracer keccak256)
        (.CaptureStart env from_ to_ precompile create input gas value ::
          (body ++ [.CaptureExit env1 output gasUsed err])) = some t ∧
      t.callstack = [] ∧
      GetResult t = .error "incorrect number of top-level calls" ∧
      ∀ (env2 : IntraBlockState) (output2 : Bytes) (gasUsed2 : Nat) (err2 : Option String),
        step t (.CaptureEnd env2 output2 gasUsed2 err2) = none ∧
        run (newOpenchainTracer keccak256)
          (.CaptureStart env from_ to_ precompile create input gas value ::
            (body ++ [.CaptureExit env1 output gasUsed err,
              .CaptureEnd env2 output2 gasUsed2 err2])) = none := by
  have hs0 := CaptureStart_fresh keccak256 env from_ to_ precompile create input gas value
  obtain ⟨t1, hr1, hp1⟩ := block_run hb
    (rootState keccak256 env from_ to_ precompile create input gas value) 0
    (rootRecord env from_ to_ precompile create input gas value) rfl rfl
  obtain ⟨p1, ⟨new, p2⟩, _, _, _⟩ := hp1
  have hst1 : t1.callstack = [0] := p1
  obtain ⟨c1, hc1⟩ : ∃ c1, t1.heap[0]? = some (.call c1) := ⟨_, p2⟩
  have hexit := CaptureExit_step t1 0 c1 env1 output gasUsed err (by rw [hst1]; rfl) hc1
  have hempty : (exitedState t1 0 c1 env1 output gasUsed err).callstack = [] := by
    show t1.callstack.dropLast = []
    rw [hst1]; rfl
  have hrun : ∀ rest, run (newOpenchainTracer keccak256)
      (.CaptureStart env from_ to_ precompile create input gas value ::
        (body ++ .CaptureExit env1 output gasUsed err :: rest)) =
      run (exitedState t1 0 c1 env1 output gasUsed err) rest := by
    intro rest
    rw [run_cons_some _ hs0, run_append, hr1]
    simp only [Option.bind]
    rw [run_cons_some _ hexit]
  refine ⟨exitedState t1 0 c1 env1 output gasUsed err, ?_, hempty, ?_, ?_⟩
  · rw [hrun []]; rfl
  · simp [GetResult, hempty]
  · intro env2 output2 gasUsed2 err2
    have hend : step (exitedState t1 0 c1 env1 output gasUsed err)
        (.CaptureEnd env2 output2 gasUsed2 err2) = none :=
      CaptureEnd_nil _ env2 output2 gasUsed2 err2 hempty
    refine ⟨hend, ?_⟩
    rw [hrun [.CaptureEnd env2 output2 gasUsed2 err2]]
    simp only [run, hend]

/-- Witness for C6, amended: a stray `CaptureExit` directly after the root callback. -/
theorem stray_exit_empties_stack_witness :
    Block [] ∧
    ∃ t, run (newOpenchainTracer sampleHasher)
        [sampleStart, .CaptureExit sampleEnv [] 0 none] = some t ∧ t.callstack = [] :=
  ⟨Block.nil, by
    obtain ⟨t, h1, h2, _⟩ := stray_exit_empties_stack sampleHasher sampleEnv 1 2 false false []
      10 none [] Block.nil sampleEnv [] 0 none
    exact ⟨t, h1, h2⟩⟩

theorem leaf_step (t : openchainTracer) (top : Nat) (c : callRecord) (env : IntraBlockState)
    (op : OpCode) (scope : ScopeContext) (rec : anyRecord)
    (h1 : t.callstack.getLast? = some top) (h2 : t.heap[top]? = some (.call c))
    (hl : leafRecord env op scope = some rec) :
    step t (.CaptureState env op scope) = some (appendedState t top c rec) := by
  simp only [step]
  rw [CaptureState_leaf t env op scope rec hl, pushAndSetPath_alloc t top c rec h1 h2]
  rfl

theorem root_child_path (env : IntraBlockState) (from_ to_ : Address) (precompile create : Bool)
    (input : Bytes) (gas : Nat) (value : Option U256) :
    (rootRecord env from_ to_ precompile create input gas value).Path ++ "." ++
      strconv.Itoa (rootRecord env from_ to_ precompile create input gas value).Children.length =
      "0.0" := by
  simp only [rootRecord, List.length_nil]
  rfl

/-- C11: on a state whose top frame `c` is at pointer `top`, an `SSTORE` step appends to that
frame exactly one child, a record of type "sstore" whose slot is the top operand, whose new
value is the second operand from the top and whose old value is what the state accessor
returns for the executing contract and that slot; its path is the one `pushRecord` allocates,
and nothing else changes.  So `CaptureStart`, that step, `CaptureEnd` gives a root with exactly
one child: the storage write with path "0.0" and these three values. -/
theorem sstore_recorded (t : openchainTracer) (top : Nat) (c : callRecord)
    (h1 : t.callstack.getLast? = some top) (h2 : t.heap[top]? = some (.call c))
    (env : IntraBlockState) (scope : ScopeContext) :
    (∃ t', CaptureState t env vm.SSTORE scope = some t' ∧
      t'.callstack = t.callstack ∧ t'.preimages = t.preimages ∧ t'.addresses = t.addresses ∧
      t'.heap.length = t.heap.length + 1 ∧
      t'.heap[top]? = some (.call { c with Children := c.Children ++ [t.heap.length] }) ∧
      t'.heap[t.heap.length]? = some (.sstore
        { Path := c.Path ++ "." ++ strconv.Itoa c.Children.length,
          Slot := scope.Stack.Peek, Type_ := "sstore",
          NewValue := scope.Stack.Back 1,
          OldValue := env.GetState scope.Contract.Address scope.Stack.Peek }) ∧
      (∀ q, q < t.heap.length → q ≠ top → t'.heap[q]? = t.heap[q]?)) ∧
    (∀ (keccak256 : Bytes → Hash) (env0 : IntraBlockState) (from_ to_ : Address)
      (precompile create : Bool) (input : Bytes) (gas : Nat) (value : Option U256)
      (env1 : IntraBlockState) (output : Bytes) (gasUsed : Nat) (err : Option String),
      ∃ t' r root, run (newOpenchainTracer keccak256)
          [.CaptureStart env0 from_ to_ precompile create input gas value,
           .CaptureState env vm.SSTORE scope,
           .CaptureEnd env1 output gasUsed err] = some t' ∧
        GetResult t' = .ok r ∧
        r.Entrypoint = .call root [.sstore
          { Path := "0.0", Slot := scope.Stack.Peek, Type_ := "sstore",
            NewValue := scope.Stack.Back 1,
            OldValue := env.GetState scope.Contract.Address scope.Stack.Peek }] ∧
        root.Path = "0") := by
  have hl : leafRecord env vm.SSTORE scope = some (.sstore
      { Path := "", Slot := scope.Stack.Peek, Type_ := "sstore",
        OldValue := env.GetState scope.Contract.Address scope.Stack.Peek,
        NewValue := scope.Stack.Back 1 }) := rfl
  constructor
  · have hs := leaf_step t top c env vm.SSTORE scope _ h1 h2 hl
    simp only [step] at hs
    refine ⟨_, hs, rfl, rfl, rfl, appendChild_length _ _ _ _, appendChild_get_top _ h2,
      appendChild_get_new _ _ _ _, ?_⟩
    intro q hq hne
    exact appendChild_get_other c _ hne hq
  · intro keccak256 env0 from_ to_ precompile create input gas value env1 output gasUsed err
    have hs0 := CaptureStart_fresh keccak256 env0 from_ to_ precompile create input gas value
    have hs1 := leaf_step (rootState keccak256 env0 from_ to_ precompile create input gas value)
      0 (rootRecord env0 from_ to_ precompile create input gas value) env vm.SSTORE scope _
      rfl rfl hl
    have hs2 := CaptureEnd_step
      (appendedState (rootState keccak256 env0 from_ to_ precompile create input gas value) 0
        (rootRecord env0 from_ to_ precompile create input gas value) (.sstore
          { Path := "", Slot := scope.Stack.Peek, Type_ := "sstore",
            OldValue := env.GetState scope.Contract.Address scope.Stack.Peek,
            NewValue := scope.Stack.Back 1 })) 0
      { rootRecord env0 from_ to_ precompile create input gas value with Children := [1] }
      env1 output gasUsed err rfl rfl
    refine ⟨finishedState
      (appendedState (rootState keccak256 env0 from_ to_ precompile create input gas value) 0
        (rootRecord env0 from_ to_ precompile create input gas value) (.sstore
          { Path := "", Slot := scope.Stack.Peek, Type_ := "sstore",
            OldValue := env.GetState scope.Contract.Address scope.Stack.Peek,
            NewValue := scope.Stack.Back 1 })) 0
      { rootRecord env0 from_ to_ precompile create input gas value with Children := [1] }
      env1 output gasUsed err,
      ⟨.call (finished
        { rootRecord env0 from_ to_ precompile create input gas value with Children := [1] }
        env1 output gasUsed err) [.sstore
          { Path := "0.0", Slot := scope.Stack.Peek, Type_ := "sstore",
            NewValue := scope.Stack.Back 1,
            OldValue := env.GetState scope.Contract.Address scope.Stack.Peek }], ∅,
        registered ∅ to_ (finished
          { rootRecord env0 from_ to_ precompile create input gas value with Children := [1] }
          env1 output gasUsed err).Codehash⟩, _, ?_, ?_, rfl, rfl⟩
    · rw [run_cons_some _ hs0, run_cons_some _ hs1, run_cons_some _ hs2]
      rfl
    · have hg : GetResult (finishedState
          (appendedState (rootState keccak256 env0 from_ to_ precompile create input gas value) 0
            (rootRecord env0 from_ to_ precompile create input gas value) (.sstore
              { Path := "", Slot := scope.Stack.Peek, Type_ := "sstore",
                OldValue := env.GetState scope.Contract.Address scope.Stack.Peek,
                NewValue := scope.Stack.Back 1 })) 0
          { rootRecord env0 from_ to_ precompile create input gas value with Children := [1] }
          env1 output gasUsed err) =
          .ok ⟨.call (finished
            { rootRecord env0 from_ to_ precompile create input gas value with Children := [1] }
            env1 output gasUsed err) [.sstore
              { Path := (rootRecord env0 from_ to_ precompile create input gas value).Path ++ "." ++
                  strconv.Itoa
                    (rootRecord env0 from_ to_ precompile create input gas value).Children.length,
                Slot := scope.Stack.Peek, Type_ := "sstore",
                NewValue := scope.Stack.Back 1,
                OldValue := env.GetState scope.Contract.Address scope.Stack.Peek }], ∅,
            registered ∅ to_ (finished
              { rootRecord env0 from_ to_ precompile create input gas value with
                Children := [1] }
              env1 output gasUsed err).Codehash⟩ := rfl
      rw [root_child_path] at hg
      exact hg

/-- Witness for C11: a storage write under the root of the sample trace. -/
theorem sstore_recorded_witness :
    sampleTracer.callstack.getLast? = some 0 ∧
    sampleTracer.heap[0]? = some (.call (rootRecord sampleEnv 1 2 false false [] 10 none)) ∧
    ∃ t', CaptureState sampleTracer sampleEnv vm.SSTORE sampleScope = some t' ∧
      t'.heap[1]? = some (.sstore
        { Path := "0.0", Slot := 7, Type_ := "sstore", NewValue := 8, OldValue := 12 }) :=
  ⟨rfl, rfl, by
    obtain ⟨⟨t', h1, _, _, _, _, _, h2, _⟩, _⟩ := sstore_recorded sampleTracer 0
      (rootRecord sampleEnv 1 2 false false [] 10 none) rfl rfl sampleEnv sampleScope
    exact ⟨t', h1, h2⟩⟩

theorem int64_aux (y : Nat) (hlt : y < 18446744073709551616) :
    (if y < 9223372036854775808 then (y : Int) else (y : Int) - 18446744073709551616) %
        18446744073709551616 = (y : Int) ∧
    -9223372036854775808 ≤
      (if y < 9223372036854775808 then (y : Int) else (y : Int) - 18446744073709551616) ∧
    (if y < 9223372036854775808 then (y : Int) else (y : Int) - 18446744073709551616) <
      9223372036854775808 := by
  split_ifs with h <;> omega

theorem int64OfUint64_low (x : U256) :
    int64OfUint64 x % 2 ^ 64 = ((x % 2 ^ 64 : Nat) : Int) ∧
    -(2 ^ 63) ≤ int64OfUint64 x ∧ int64OfUint64 x < 2 ^ 63 := by
  have hlt : x % 2 ^ 64 < 18446744073709551616 := Nat.mod_lt _ (by norm_num)
  have := int64_aux (x % 2 ^ 64) hlt
  unfold int64OfUint64
  norm_num at this ⊢
  exact this

theorem leafRecord_log (env : IntraBlockState) (scope : ScopeContext) (n : Nat) (hn : n ≤ 4) :
    leafRecord env (vm.LOG0 + n) scope = some (.log
      { Path := "",
        Data := scope.Memory.GetCopy (int64OfUint64 (scope.Stack.Back 0))
          (int64OfUint64 (scope.Stack.Back 1)),
        Topics := (List.range n).map (fun i => scope.Stack.Back (i + 2)),
        Type_ := "log" }) := by
  interval_cases n <;> rfl

/-- C12: for `n` from 0 to 4, on a state whose top frame `c` is at pointer `top`, a `LOGn`
step appends to that frame exactly one child, a record of type "log" with exactly `n` topics,
topic `i` being the operand at distance `i + 2` from the top of the operand stack, and with
the bytes `GetCopy` returns for the offset given by the top operand and the size given by the
second operand, each converted by `int64(x.Uint64())` (its low 64 bits); nothing else changes.
The step context is an argument the callback only reads. -/
theorem log_recorded (t : openchainTracer) (top : Nat) (c : callRecord)
    (h1 : t.callstack.getLast? = some top) (h2 : t.heap[top]? = some (.call c))
    (env : IntraBlockState) (scope : ScopeContext) (n : Nat) (hn : n ≤ 4) :
    (vm.LOG0 + 0 = vm.LOG0 ∧ vm.LOG0 + 1 = vm.LOG1 ∧ vm.LOG0 + 2 = vm.LOG2 ∧
      vm.LOG0 + 3 = vm.LOG3 ∧ vm.LOG0 + 4 = vm.LOG4) ∧
    (∃ t' r, CaptureState t env (vm.LOG0 + n) scope = some t' ∧
      t'.callstack = t.callstack ∧ t'.preimages = t.preimages ∧ t'.addresses = t.addresses ∧
      t'.heap.length = t.heap.length + 1 ∧
      t'.heap[top]? = some (.call { c with Children := c.Children ++ [t.heap.length] }) ∧
      t'.heap[t.heap.length]? = some (.log r) ∧
      r.Path = c.Path ++ "." ++ strconv.Itoa c.Children.length ∧ r.Type_ = "log" ∧
      r.Topics.length = n ∧ r.Topics.length ≤ 4 ∧
      (∀ i, i < n → r.Topics[i]? = some (scope.Stack.Back (i + 2))) ∧
      r.Data = scope.Memory.GetCopy (int64OfUint64 (scope.Stack.Back 0))
        (int64OfUint64 (scope.Stack.Back 1)) ∧
      (∀ q, q < t.heap.length → q ≠ top → t'.heap[q]? = t.heap[q]?)) ∧
    (∀ x : U256, int64OfUint64 x % 2 ^ 64 = ((x % 2 ^ 64 : Nat) : Int) ∧
      -(2 ^ 63) ≤ int64OfUint64 x ∧ int64OfUint64 x < 2 ^ 63) := by
  refine ⟨⟨rfl, rfl, rfl, rfl, rfl⟩, ?_, int64OfUint64_low⟩
  have hs := leaf_step t top c env (vm.LOG0 + n) scope _ h1 h2 (leafRecord_log env scope n hn)
  simp only [step] at hs
  refine ⟨_, _, hs, rfl, rfl, rfl, appendChild_length _ _ _ _, appendChild_get_top _ h2,
    appendChild_get_new _ _ _ _, rfl, rfl, by simp, by simpa using hn, ?_, rfl, ?_⟩
  · intro i hi
    simp [List.getElem?_map, List.getElem?_range hi]
  · intro q hq hne
    exact appendChild_get_other c _ hne hq

/-- Witness for C12: a `LOG2` step under the root of the sample trace. -/
theorem log_recorded_witness :
    sampleTracer.callstack.getLast? = some 0 ∧
    sampleTracer.heap[0]? = some (.call (rootRecord sampleEnv 1 2 false false [] 10 none)) ∧
    (2 : Nat) ≤ 4 ∧
    ∃ t', CaptureState sampleTracer sampleEnv vm.LOG2 sampleScope = some t' ∧
      t'.heap[1]? = some (.log
        { Path := "0.0", Data := [1, 2], Topics := [9, 10], Type_ := "log" }) :=
  ⟨rfl, rfl, by decide, by
    obtain ⟨_, ⟨t', _, h1, _⟩, _⟩ := log_recorded sampleTracer 0
      (rootRecord sampleEnv 1 2 false false [] 10 none) rfl rfl sampleEnv sampleScope 2
      (by decide)
    have h3 : CaptureState sampleTracer sampleEnv vm.LOG2 sampleScope = some t' := h1
    have h4 : CaptureState sampleTracer sampleEnv vm.LOG2 sampleScope =
      some (appendedState sampleTracer 0 (rootRecord sampleEnv 1 2 false false [] 10 none)
        (.log { Path := "", Data := [1, 2], Topics := [9, 10], Type_ := "log" })) := rfl
    rw [h4] at h3
    injection h3 with h3
    subst h3
    exact ⟨_, h4, rfl⟩⟩

/-- C13: a `KECCAK256` step over the memory bytes `d` (offset the top operand, size the second
operand) completes in every state, also with an empty frame stack; it appends no record and
leaves the heap, the frame stack and the address book as they were; of the ledger it changes
only the entry of the digest of `d`, which becomes `d` (an earlier entry for that digest is
overwritten); the scratch buffer `hasherBuf` holds the digest.  Performing the same step
twice gives exactly the state that performing it once gives. -/
theorem keccak_recorded (t : openchainTracer) (env : IntraBlockState) (scope : ScopeContext) :
    ∃ t', CaptureState t env vm.KECCAK256 scope = some t' ∧
      t'.heap = t.heap ∧ t'.callstack = t.callstack ∧ t'.addresses = t.addresses ∧
      t'.hasher = t.hasher ∧
      t'.hasherBuf = t.hasher (scope.Memory.GetPtr (int64OfUint64 scope.Stack.Peek)
        (int64OfUint64 (scope.Stack.Back 1))) ∧
      GoMap.get t'.preimages (t.hasher (scope.Memory.GetPtr (int64OfUint64 scope.Stack.Peek)
          (int64OfUint64 (scope.Stack.Back 1)))) =
        some (scope.Memory.GetPtr (int64OfUint64 scope.Stack.Peek)
          (int64OfUint64 (scope.Stack.Back 1))) ∧
      (∀ k, k ≠ t.hasher (scope.Memory.GetPtr (int64OfUint64 scope.Stack.Peek)
          (int64OfUint64 (scope.Stack.Back 1))) →
        GoMap.get t'.preimages k = GoMap.get t.preimages k) ∧
      (∀ env2 : IntraBlockState, CaptureState t' env2 vm.KECCAK256 scope = some t') := by
  refine ⟨_, CaptureState_hash t env scope, rfl, rfl, rfl, rfl, rfl, GoMap_get_set_self _ _ _,
    fun k hk => GoMap_get_set_ne _ _ _ _ hk, ?_⟩
  intro env2
  rw [CaptureState_hash]
  simp only [GoMap_set_set]

/-- C14: on a state whose top frame `c` is at pointer `top`, `CaptureEnter` completes, leaves
the stack as it is, and sets on that frame the given `from`, `to`, gas, input and precompile
flag, the type "call", the code hash the state accessor returns for `to`, the given value or
zero when it is absent, and as variant the lower-cased name of `typ`, which is "call",
"staticcall", "delegatecall", "callcode", "create", "create2" for the six call-like kinds;
path, children, gas used, output and status of the frame, every other record, the preimage
ledger and the address book are unchanged. -/
theorem enter_populates (t : openchainTracer) (top : Nat) (c : callRecord)
    (h1 : t.callstack.getLast? = some top) (h2 : t.heap[top]? = some (.call c))
    (env : IntraBlockState) (typ : OpCode) (from_ to_ : Address) (precompile create : Bool)
    (input : Bytes) (gas : Nat) (value : Option U256) :
    (∃ t' c', CaptureEnter t env typ from_ to_ precompile create input gas value = some t' ∧
      t'.callstack = t.callstack ∧ t'.callstack.getLast? = some top ∧
      t'.heap[top]? = some (.call c') ∧
      c'.From = from_ ∧ c'.To = to_ ∧ c'.Gas = gas ∧ c'.Input = input ∧
      c'.IsPrecompile = precompile ∧ c'.Type_ = "call" ∧
      c'.Codehash = env.GetCodeHash to_ ∧
      (∀ v, value = some v → c'.Value = some v) ∧ (value = none → c'.Value = some 0) ∧
      c'.Variant = strings.ToLower (OpCode.String typ) ∧
      (c'.create = true ↔ (typ = vm.CREATE ∨ typ = vm.CREATE2)) ∧
      c'.Path = c.Path ∧ c'.Children = c.Children ∧ c'.GasUsed = c.GasUsed ∧
      c'.Output = c.Output ∧ c'.Status = c.Status ∧
      (∀ q, q ≠ top → t'.heap[q]? = t.heap[q]?) ∧ t'.heap.length = t.heap.length ∧
      t'.preimages = t.preimages ∧ t'.addresses = t.addresses) ∧
    (strings.ToLower (OpCode.String vm.CALL) = "call" ∧
      strings.ToLower (OpCode.String vm.STATICCALL) = "staticcall" ∧
      strings.ToLower (OpCode.String vm.DELEGATECALL) = "delegatecall" ∧
      strings.ToLower (OpCode.String vm.CALLCODE) = "callcode" ∧
      strings.ToLower (OpCode.String vm.CREATE) = "create" ∧
      strings.ToLower (OpCode.String vm.CREATE2) = "create2") := by
  have hlt := getElem?_lt_of_eq_some h2
  refine ⟨⟨_, entered c env typ from_ to_ precompile input gas value,
    CaptureEnter_eq t top c env typ from_ to_ precompile create input gas value h1 h2,
    rfl, h1, List.getElem?_set_self hlt, rfl, rfl, rfl, rfl, rfl, rfl, rfl, ?_, ?_, rfl, ?_,
    rfl, rfl, rfl, rfl, rfl, ?_, ?_, rfl, rfl⟩, ?_⟩
  · intro v hv; subst hv; rfl
  · intro hv; subst hv; rfl
  · simp [entered]
  · intro q hq
    exact List.getElem?_set_ne (Ne.symm hq)
  · simp
  · decide

/-- Witness for C14: `CaptureEnter` on the root frame of the sample trace. -/
theorem enter_populates_witness :
    sampleTracer.callstack.getLast? = some 0 ∧
    sampleTracer.heap[0]? = some (.call (rootRecord sampleEnv 1 2 false false [] 10 none)) ∧
    ∃ t' c', CaptureEnter sampleTracer sampleEnv vm.STATICCALL 2 3 false false [9] 5 none =
        some t' ∧
      t'.heap[0]? = some (.call c') ∧ c'.To = 3 ∧ c'.Codehash = 103 :=
  ⟨rfl, rfl, by
    obtain ⟨⟨t', c', h1, _, _, h2, _, h3, _, _, _, _, h4, _⟩, _⟩ := enter_populates sampleTracer 0
      (rootRecord sampleEnv 1 2 false false [] 10 none) rfl rfl sampleEnv vm.STATICCALL 2 3
      false false [9] 5 none
    exact ⟨t', c', h1, h2, h3, h4⟩⟩

/-- C15: on a fresh tracer `CaptureStart` leaves a stack of depth 1 whose only frame has
path "0", type "call", variant "create" when `create` is set and "call" otherwise, no
children, the given `from`, `to`, gas, value, precompile flag and input, and as code hash
what the state accessor returns for `to`; when `CaptureEnd` without an error follows
directly, `GetResult` succeeds with a tree of exactly one node, which has status 1 and no
children. -/
theorem root_lifecycle (keccak256 : Bytes → Hash) (env : IntraBlockState) (from_ to_ : Address)
    (precompile create : Bool) (input : Bytes) (gas : Nat) (value : Option U256) :
    (∃ t root, CaptureStart (newOpenchainTracer keccak256) env from_ to_ precompile create
          input gas value = some t ∧
      t.callstack = [0] ∧ t.callstack.length = 1 ∧ t.heap = [.call root] ∧
      t.preimages = ∅ ∧ t.addresses = ∅ ∧
      root.Path = "0" ∧ root.Type_ = "call" ∧
      (create = true → root.Variant = "create") ∧ (create = false → root.Variant = "call") ∧
      root.Children = [] ∧ root.From = from_ ∧ root.To = to_ ∧ root.Gas = gas ∧
      root.Value = value ∧ root.IsPrecompile = precompile ∧ root.Input = input ∧
      root.Codehash = env.GetCodeHash to_ ∧ root.create = create ∧
      root.GasUsed = 0 ∧ root.Output = [] ∧ root.Status = 0) ∧
    (∀ (env1 : IntraBlockState) (output : Bytes) (gasUsed : Nat),
      ∃ t' r root, run (newOpenchainTracer keccak256)
          [.CaptureStart env from_ to_ precompile create input gas value,
           .CaptureEnd env1 output gasUsed none] = some t' ∧
        t'.callstack = [0] ∧
        GetResult t' = .ok r ∧ r.Entrypoint = .call root [] ∧ r.Entrypoint.size = 1 ∧
        root.Status = 1 ∧ root.Children = [] ∧ root.Path = "0" ∧
        root.Output = output ∧ root.GasUsed = gasUsed) := by
  constructor
  · refine ⟨_, rootRecord env from_ to_ precompile create input gas value,
      CaptureStart_nil _ env from_ to_ precompile create input gas value rfl, rfl, rfl, rfl, rfl,
      rfl, rfl, rfl, ?_, ?_, rfl, rfl, rfl, rfl, rfl, rfl, rfl, rfl, rfl, rfl, rfl, rfl⟩
    · intro hc; subst hc; rfl
    · intro hc; subst hc; rfl
  · intro env1 output gasUsed
    have hs0 := CaptureStart_fresh keccak256 env from_ to_ precompile create input gas value
    have hs1 := CaptureEnd_step
      (rootState keccak256 env from_ to_ precompile create input gas value) 0
      (rootRecord env from_ to_ precompile create input gas value) env1 output gasUsed none
      rfl rfl
    refine ⟨finishedState (rootState keccak256 env from_ to_ precompile create input gas value)
        0 (rootRecord env from_ to_ precompile create input gas value) env1 output gasUsed none,
      ⟨.call (finished (rootRecord env from_ to_ precompile create input gas value) env1 output
        gasUsed none) [], ∅, registered ∅ to_
          (finished (rootRecord env from_ to_ precompile create input gas value) env1 output
            gasUsed none).Codehash⟩, _, ?_, rfl, rfl, rfl, rfl, rfl, rfl, rfl, rfl, rfl⟩
    rw [run_cons_some _ hs0, run_cons_some _ hs1]
    rfl

theorem getLast?_of_ne_nil {α : Type} {l : List α} (h : l ≠ []) : ∃ x, l.getLast? = some x := by
  cases hg : l.getLast? with
  | none => exact absurd (List.getLast?_eq_none_iff.mp hg) h
  | some x => exact ⟨x, rfl⟩

theorem step_nil_stack (t t' : openchainTracer) (e : Event) (hst : t.callstack = [])
    (hne : e.isStart = false) (h : step t e = some t') :
    t'.callstack = [] ∧ t'.heap = t.heap ∧ t'.addresses = t.addresses ∧
      e.isCallStep = false ∧ e.isExit = false ∧ e.isEnd = false := by
  cases e with
  | CaptureStart env from_ to_ precompile create input gas value => simp [Event.isStart] at hne
  | CaptureEnd env output gasUsed err =>
    simp only [step, CaptureEnd_nil _ _ _ _ _ hst] at h
    exact absurd h (by simp)
  | CaptureState env op scope =>
    simp only [step] at h
    cases hl : leafRecord env op scope with
    | some rec =>
      rw [CaptureState_leaf t env op scope rec hl,
        pushAndSetPath_nil _ _ (by simpa [alloc] using hst)] at h
      exact absurd h (by simp)
    | none =>
      cases hcl : isCallLike op with
      | false =>
        obtain ⟨t1, g1, g2, g3, g4, _⟩ := CaptureState_quiet t env op scope hl hcl
        rw [g1] at h
        injection h with h
        subst h
        exact ⟨by rw [g3, hst], g2, g4, hcl, rfl, rfl⟩
      | true =>
        rw [CaptureState_call t env op scope hcl,
          pushAndSetPath_nil _ _ (by simpa [alloc] using hst)] at h
        exact absurd h (by simp)
  | CaptureFault =>
    simp only [step, CaptureFault] at h
    injection h with h
    subst h
    exact ⟨hst, rfl, rfl, rfl, rfl, rfl⟩
  | CaptureEnter env typ from_ to_ precompile create input gas value =>
    simp only [step, CaptureEnter_nil _ _ _ _ _ _ _ _ _ _ hst] at h
    exact absurd h (by simp)
  | CaptureExit env output gasUsed err =>
    simp only [step, CaptureExit_nil _ _ _ _ _ hst] at h
    exact absurd h (by simp)
  | Stop =>
    simp only [step, Stop] at h
    injection h with h
    subst h
    exact ⟨hst, rfl, rfl, rfl, rfl, rfl⟩

theorem step_shape (t t' : openchainTracer) (e : Event) (hok : HeapOk t.heap t.callstack)
    (hne : e.isStart = false) (h : step t e = some t') : Shape t e t' := by
  cases e with
  | CaptureStart env from_ to_ precompile create input gas value => simp [Event.isStart] at hne
  | CaptureFault =>
    simp only [step, CaptureFault] at h
    injection h with h
    subst h
    exact .fault
  | Stop =>
    simp only [step, Stop] at h
    injection h with h
    subst h
    exact .stop
  | CaptureEnd env output gasUsed err =>
    cases h0 : t.callstack[0]? with
    | none =>
      have hst : t.callstack = [] := by
        cases hcs : t.callstack with
        | nil => rfl
        | cons a l => rw [hcs] at h0; simp at h0
      simp only [step, CaptureEnd_nil _ _ _ _ _ hst] at h
      exact absurd h (by simp)
    | some p =>
      obtain ⟨c0, hc0⟩ := hok.2 p (List.getElem?_mem h0)
      rw [CaptureEnd_step t p c0 env output gasUsed err h0 hc0] at h
      injection h with h
      subst h
      exact .finish env output gasUsed err p c0 h0 hc0
  | CaptureState env op scope =>
    cases hl : leafRecord env op scope with
    | some rec =>
      by_cases hst : t.callstack = []
      · simp only [step] at h
        rw [CaptureState_leaf t env op scope rec hl,
          pushAndSetPath_nil _ _ (by simpa [alloc] using hst)] at h
        exact absurd h (by simp)
      · obtain ⟨top, htop⟩ := getLast?_of_ne_nil hst
        obtain ⟨c, hc⟩ := heapOk_top hok htop
        rw [leaf_step t top c env op scope rec htop hc hl] at h
        injection h with h
        subst h
        exact .leaf env op scope top c rec htop hc hl
    | none =>
      simp only [step] at h
      cases hcl : isCallLike op with
      | false =>
        obtain ⟨t1, g1, g2, g3, g4, _⟩ := CaptureState_quiet t env op scope hl hcl
        rw [g1] at h
        injection h with h
        subst h
        exact .quiet env op scope t1 hl hcl g2 g3 g4
      | true =>
        by_cases hst : t.callstack = []
        · rw [CaptureState_call t env op scope hcl,
            pushAndSetPath_nil _ _ (by simpa [alloc] using hst)] at h
          exact absurd h (by simp)
        · obtain ⟨top, htop⟩ := getLast?_of_ne_nil hst
          obtain ⟨c, hc⟩ := heapOk_top hok htop
          rw [CaptureState_call t env op scope hcl, pushAndSetPath_alloc t top c _ htop hc] at h
          injection h with h
          subst h
          exact .call env op scope top c htop hc hcl
  | CaptureEnter env typ from_ to_ precompile create input gas value =>
    by_cases hst : t.callstack = []
    · simp only [step, CaptureEnter_nil _ _ _ _ _ _ _ _ _ _ hst] at h
      exact absurd h (by simp)
    · obtain ⟨top, htop⟩ := getLast?_of_ne_nil hst
      obtain ⟨c, hc⟩ := heapOk_top hok htop
      simp only [step, CaptureEnter_eq t top c env typ from_ to_ precompile create input gas value
        htop hc] at h
      injection h with h
      subst h
      exact .enter env typ from_ to_ precompile create input gas value top c htop hc
  | CaptureExit env output gasUsed err =>
    by_cases hst : t.callstack = []
    · simp only [step, CaptureExit_nil _ _ _ _ _ hst] at h
      exact absurd h (by simp)
    · obtain ⟨top, htop⟩ := getLast?_of_ne_nil hst
      obtain ⟨c, hc⟩ := heapOk_top hok htop
      rw [CaptureExit_step t top c env output gasUsed err htop hc] at h
      injection h with h
      subst h
      exact .exit env output gasUsed err top c htop hc
theorem leafRecord_not_callLike (env : IntraBlockState) (op : OpCode) (scope : ScopeContext)
    (rec : anyRecord) (h : leafRecord env op scope = some rec) : isCallLike op = false := by
  cases hcl : isCallLike op with
  | false => rfl
  | true => rw [leafRecord_callLike env op scope hcl] at h; exact absurd h (by simp)

theorem length_of_getLast? {α : Type} {l : List α} {x : α} (h : l.getLast? = some x) :
    l.dropLast.length + 1 = l.length ∧ l = l.dropLast ++ [x] ∧ x ∈ l := by
  have h1 : l.dropLast ++ [x] = l := List.dropLast_append_getLast? x (by simp [h])
  refine ⟨?_, h1.symm, ?_⟩
  · conv_rhs => rw [← h1]
    simp
  · rw [← h1]; simp

theorem Shape_depth {t t' : openchainTracer} {e : Event} (hs : Shape t e t') :
    t'.callstack.length + (if e.isExit then 1 else 0) =
      t.callstack.length + (if e.isCallStep then 1 else 0) := by
  cases hs with
  | fault => simp [Event.isExit, Event.isCallStep]
  | stop => simp [Event.isExit, Event.isCallStep]
  | quiet env op scope t' h1 h2 h3 h4 h5 => simp [Event.isExit, Event.isCallStep, h2, h4]
  | leaf env op scope top c rec h1 h2 h3 =>
    simp [Event.isExit, Event.isCallStep, leafRecord_not_callLike env op scope rec h3,
      appendedState]
  | call env op scope top c h1 h2 h3 => simp [Event.isExit, Event.isCallStep, h3]
  | enter env typ from_ to_ precompile create input gas value top c h1 h2 =>
    simp [Event.isExit, Event.isCallStep]
  | exit env output gasUsed err top c h1 h2 =>
    have := (length_of_getLast? h1).1
    simp only [Event.isExit, Event.isCallStep, exitedState, if_true]
    simpa using this
  | finish env output gasUsed err p c h1 h2 =>
    simp [Event.isExit, Event.isCallStep, finishedState]

theorem Shape_cells {t t' : openchainTracer} {e : Event} (hs : Shape t e t') :
    t.heap.length ≤ t'.heap.length ∧
    (∀ p ∈ t'.callstack, p ∈ t.callstack ∨ p = t.heap.length) ∧
    (∀ q x, t.heap[q]? = some x →
      t'.heap[q]? = some x ∨
      ∃ c c', x = .call c ∧ t'.heap[q]? = some (.call c') ∧ c'.Path = c.Path ∧
        q ∈ t.callstack ∧
        (c'.Children = c.Children ∨
          (c'.Children = c.Children ++ [t.heap.length] ∧ t.callstack.getLast? = some q))) := by
  have hset : ∀ (top : Nat) (c0 c1 : callRecord), t.heap[top]? = some (.call c0) →
      top ∈ t.callstack → c1.Path = c0.Path → c1.Children = c0.Children →
      ∀ q x, t.heap[q]? = some x →
      (t.heap.set top (.call c1))[q]? = some x ∨
      ∃ c c', x = .call c ∧ (t.heap.set top (.call c1))[q]? = some (.call c') ∧
        c'.Path = c.Path ∧ q ∈ t.callstack ∧
        (c'.Children = c.Children ∨
          (c'.Children = c.Children ++ [t.heap.length] ∧ t.callstack.getLast? = some q)) := by
    intro top c0 c1 hc hmem hp hch q x hq
    by_cases hqt : q = top
    · subst hqt
      rw [hc] at hq
      injection hq with hq
      subst hq
      exact Or.inr ⟨c0, c1, rfl, List.getElem?_set_self (getElem?_lt_of_eq_some hc), hp, hmem,
        Or.inl hch⟩
    · exact Or.inl (by rw [List.getElem?_set_ne (Ne.symm hqt)]; exact hq)
  have happ : ∀ (top : Nat) (c0 : callRecord) (rec : anyRecord),
      t.heap[top]? = some (.call c0) → t.callstack.getLast? = some top →
      ∀ q x, t.heap[q]? = some x →
      (appendChild t.heap top c0 rec)[q]? = some x ∨
      ∃ c c', x = .call c ∧ (appendChild t.heap top c0 rec)[q]? = some (.call c') ∧
        c'.Path = c.Path ∧ q ∈ t.callstack ∧
        (c'.Children = c.Children ∨
          (c'.Children = c.Children ++ [t.heap.length] ∧ t.callstack.getLast? = some q)) := by
    intro top c0 rec hc htop q x hq
    by_cases hqt : q = top
    · subst hqt
      rw [hc] at hq
      injection hq with hq
      subst hq
      exact Or.inr ⟨c0, _, rfl, appendChild_get_top rec hc, rfl, (length_of_getLast? htop).2.2,
        Or.inr ⟨rfl, htop⟩⟩
    · exact Or.inl (by
        rw [appendChild_get_other c0 rec hqt (getElem?_lt_of_eq_some hq)]; exact hq)
  cases hs with
  | fault => exact ⟨le_refl _, fun p hp => Or.inl hp, fun q x hq => Or.inl hq⟩
  | stop => exact ⟨le_refl _, fun p hp => Or.inl hp, fun q x hq => Or.inl hq⟩
  | quiet env op scope t' h1 h2 h3 h4 h5 =>
    exact ⟨by rw [h3], fun p hp => Or.inl (by rw [← h4]; exact hp),
      fun q x hq => Or.inl (by rw [h3]; exact hq)⟩
  | leaf env op scope top c rec h1 h2 h3 =>
    refine ⟨?_, fun p hp => Or.inl hp, fun q x hq => ?_⟩
    · simp only [appendedState, appendChild_length]
      omega
    · exact happ top c rec h2 h1 q x hq
  | call env op scope top c h1 h2 h3 =>
    refine ⟨?_, ?_, fun q x hq => happ top c (.call callRecord.empty) h2 h1 q x hq⟩
    · simp only [appendChild_length]
      omega
    · intro p hp
      simp only [List.mem_append, List.mem_singleton] at hp
      exact hp
  | enter env typ from_ to_ precompile create input gas value top c h1 h2 =>
    exact ⟨by simp, fun p hp => Or.inl hp, fun q x hq =>
      hset top c (entered c env typ from_ to_ precompile input gas value) h2
        (length_of_getLast? h1).2.2 rfl rfl q x hq⟩
  | exit env output gasUsed err top c h1 h2 =>
    refine ⟨by simp [exitedState, finishedState], ?_, fun q x hq =>
      hset top c (finished c env output gasUsed err) h2 (length_of_getLast? h1).2.2 rfl rfl q x hq⟩
    intro p hp
    exact Or.inl (List.mem_of_mem_dropLast hp)
  | finish env output gasUsed err p c h1 h2 =>
    exact ⟨by simp [finishedState], fun q hq => Or.inl hq, fun q x hq =>
      hset p c (finished c env output gasUsed err) h2 (List.getElem?_mem h1) rfl rfl q x hq⟩

theorem run_nil_stack (evs : List Event) : ∀ (t t' : openchainTracer),
    t.callstack = [] → (∀ e ∈ evs, e.isStart = false) → run t evs = some t' →
    t'.callstack = [] := by
  induction evs with
  | nil =>
    intro t t' hst _ h
    simp only [run] at h
    injection h with h
    subst h
    exact hst
  | cons e es ih =>
    intro t t' hst hne h
    simp only [run] at h
    cases hs : step t e with
    | none => simp [hs] at h
    | some t1 =>
      simp only [hs] at h
      exact ih t1 t' (step_nil_stack t t1 e hst (hne e (List.mem_cons_self _ _)) hs).1
        (fun x hx => hne x (List.mem_cons_of_mem _ hx)) h

theorem run_depth (evs : List Event) : ∀ (t t' : openchainTracer),
    HeapOk t.heap t.callstack → (∀ e ∈ evs, e.isStart = false) → run t evs = some t' →
    t'.callstack.length + countExits evs = t.callstack.length + countCallSteps evs := by
  induction evs with
  | nil =>
    intro t t' _ _ h
    simp only [run] at h
    injection h with h
    subst h
    simp [countExits, countCallSteps]
  | cons e es ih =>
    intro t t' hok hne h
    simp only [run] at h
    cases hs : step t e with
    | none => simp [hs] at h
    | some t1 =>
      simp only [hs] at h
      have h1 := ih t1 t' (step_heapOk t t1 e hok hs)
        (fun x hx => hne x (List.mem_cons_of_mem _ hx)) h
      have h2 := Shape_depth (step_shape t t1 e hok (hne e (List.mem_cons_self _ _)) hs)
      simp only [countExits, countCallSteps, List.countP_cons] at h1 ⊢
      omega

theorem run_frozen (evs : List Event) : ∀ (t t' : openchainTracer),
    HeapOk t.heap t.callstack → (∀ e ∈ evs, e.isStart = false) → run t evs = some t' →
    t.heap.length ≤ t'.heap.length ∧
    ∀ p, p < t.heap.length → p ∉ t.callstack →
      t'.heap[p]? = t.heap[p]? ∧ p ∉ t'.callstack := by
  induction evs with
  | nil =>
    intro t t' _ _ h
    simp only [run] at h
    injection h with h
    subst h
    exact ⟨le_refl _, fun p _ hp => ⟨rfl, hp⟩⟩
  | cons e es ih =>
    intro t t' hok hne h
    simp only [run] at h
    cases hs : step t e with
    | none => simp [hs] at h
    | some t1 =>
      simp only [hs] at h
      obtain ⟨k1, k2⟩ := ih t1 t' (step_heapOk t t1 e hok hs)
        (fun x hx => hne x (List.mem_cons_of_mem _ hx)) h
      obtain ⟨g1, g2, g3⟩ :=
        Shape_cells (step_shape t t1 e hok (hne e (List.mem_cons_self _ _)) hs)
      refine ⟨le_trans g1 k1, ?_⟩
      intro p hp hnot
      have hp1 : p ∉ t1.callstack := by
        intro hmem
        rcases g2 p hmem with hm | hm
        · exact hnot hm
        · omega
      obtain ⟨x, hx⟩ : ∃ x, t.heap[p]? = some x := ⟨t.heap[p], List.getElem?_eq_getElem hp⟩
      have h1 : t1.heap[p]? = t.heap[p]? := by
        rcases g3 p x hx with hm | ⟨c, c', _, _, _, hm, _⟩
        · rw [hm, hx]
        · exact absurd hm hnot
      obtain ⟨k3, k4⟩ := k2 p (by omega) hp1
      exact ⟨by rw [k3, h1], k4⟩

/-- C17: in every state reachable from a fresh tracer, a callback other than `CaptureStart`
that completes keeps every record of the heap at its pointer with its kind and its path (a
leaf record is left exactly as it was), and the children of every frame before the callback
are a positional prefix of its children afterwards: each child stays at its index of the
same parent, nothing is removed or reordered, and at most one child, the newly allocated
record, is appended, and only to the frame that was on top of the stack. -/
theorem children_append_only (keccak256 : Bytes → Hash) (evs : List Event)
    (t t' : openchainTracer) (e : Event)
    (hr : run (newOpenchainTracer keccak256) evs = some t) (hne : e.isStart = false)
    (hs : step t e = some t') :
    t.heap.length ≤ t'.heap.length ∧
    (∀ (q : Nat) (x : anyRecord), t.heap[q]? = some x →
      ∃ x' : anyRecord, t'.heap[q]? = some x' ∧ x'.Path = x.Path ∧ ((∀ c, x ≠ .call c) → x' = x)) ∧
    (∀ (p : Nat) (c : callRecord), t.heap[p]? = some (.call c) →
      ∃ c' extra, t'.heap[p]? = some (.call c') ∧ c'.Path = c.Path ∧
        c'.Children = c.Children ++ extra ∧
        (extra = [] ∨ (extra = [t.heap.length] ∧ t.callstack.getLast? = some p)) ∧
        (∀ (i q : Nat), c.Children[i]? = some q → c'.Children[i]? = some q)) := by
  have hok := run_heapOk evs _ t (heapOk_new keccak256) hr
  obtain ⟨g1, _, g3⟩ := Shape_cells (step_shape t t' e hok hne hs)
  refine ⟨g1, ?_, ?_⟩
  · intro q x hq
    rcases g3 q x hq with hm | ⟨c, c', hx, hm, hp, _, _⟩
    · exact ⟨x, hm, rfl, fun _ => rfl⟩
    · subst hx
      exact ⟨.call c', hm, hp, fun hno => absurd rfl (hno c)⟩
  · intro p c hp
    rcases g3 p _ hp with hm | ⟨c0, c', hx, hm, hpath, _, hch⟩
    · exact ⟨c, [], hm, rfl, by simp, Or.inl rfl, fun i q hi => hi⟩
    · injection hx with hx
      subst hx
      rcases hch with hch | ⟨hch, htop⟩
      · exact ⟨c', [], hm, hpath, by simp [hch], Or.inl rfl, fun i q hi => by rw [hch]; exact hi⟩
      · refine ⟨c', [t.heap.length], hm, hpath, hch, Or.inr ⟨rfl, htop⟩, fun i q hi => ?_⟩
        rw [hch, List.getElem?_append_left (getElem?_lt_of_eq_some hi)]
        exact hi

/-- Witness for C17: a storage read after the root callback of the sample trace. -/
theorem children_append_only_witness :
    run (newOpenchainTracer sampleHasher) [sampleStart] = some sampleTracer ∧
    step sampleTracer (.CaptureState sampleEnv vm.SLOAD sampleScope) =
      some (appendedState sampleTracer 0 (rootRecord sampleEnv 1 2 false false [] 10 none)
        (.sload { Path := "", Slot := 7, Type_ := "sload", Value := 12 })) ∧
    ∃ c' extra, (appendedState sampleTracer 0 (rootRecord sampleEnv 1 2 false false [] 10 none)
        (.sload { Path := "", Slot := 7, Type_ := "sload", Value := 12 })).heap[0]? =
        some (.call c') ∧ c'.Path = "0" ∧ c'.Children = [] ++ extra :=
  ⟨rfl, rfl, by
    obtain ⟨_, _, h⟩ := children_append_only sampleHasher [sampleStart] sampleTracer
      (appendedState sampleTracer 0 (rootRecord sampleEnv 1 2 false false [] 10 none)
        (.sload { Path := "", Slot := 7, Type_ := "sload", Value := 12 }))
      (.CaptureState sampleEnv vm.SLOAD sampleScope) rfl rfl rfl
    obtain ⟨c', extra, h1, h2, h3, _⟩ := h 0 (rootRecord sampleEnv 1 2 false false [] 10 none) rfl
    exact ⟨c', extra, h1, h2, h3⟩⟩

theorem GetResult_error_of_depth (t : openchainTracer) (h : t.callstack.length ≠ 1) :
    GetResult t = .error "incorrect number of top-level calls" := by
  simp [GetResult, h]

theorem GetResult_ok_iff_depth (t : openchainTracer) (hok : HeapOk t.heap t.callstack) :
    (∃ r, GetResult t = .ok r) ↔ t.callstack.length = 1 := by
  constructor
  · rintro ⟨r, hr⟩
    by_contra h1
    rw [GetResult_error_of_depth t h1] at hr
    exact absurd hr (by simp)
  · intro h1
    obtain ⟨p, hp⟩ := List.length_eq_one.mp h1
    obtain ⟨c, hc⟩ := hok.2 p (by simp [hp])
    have h2 := marshalNode_isSome hok (t.heap.length + 1) p (getElem?_lt_of_eq_some hc) (by omega)
    obtain ⟨tree, htree⟩ := Option.isSome_iff_exists.mp h2
    exact ⟨{ Entrypoint := tree, Preimages := t.preimages, Addresses := t.addresses },
      by simp [GetResult, hp, htree]⟩

theorem call_step (t : openchainTracer) (top : Nat) (c : callRecord) (env : IntraBlockState)
    (op : OpCode) (scope : ScopeContext) (h1 : t.callstack.getLast? = some top)
    (h2 : t.heap[top]? = some (.call c)) (hcl : isCallLike op = true) :
    step t (.CaptureState env op scope) =
      some { t with
        heap := appendChild t.heap top c (.call callRecord.empty),
        callstack := t.callstack ++ [t.heap.length] } := by
  simp only [step]
  rw [CaptureState_call t env op scope hcl, pushAndSetPath_alloc t top c _ h1 h2]

theorem Spine_head {h : List anyRecord} : ∀ (rest : List Nat) (p : Nat) (path : String),
    Spine h p path rest → ∃ r, h[p]? = some (.call r) ∧ r.Path = path := by
  intro rest p path hs
  cases rest with
  | nil =>
    obtain ⟨r, ts, h1, h2, _⟩ := hs
    exact ⟨r, h1, h2⟩
  | cons q rest =>
    obtain ⟨r, cs, ts, h1, h2, _⟩ := hs
    exact ⟨r, h1, h2⟩

theorem Spine_adjacent {h : List anyRecord} : ∀ (rest : List Nat) (p : Nat) (path : String),
    Spine h p path rest → ∀ (i a b : Nat), (p :: rest)[i]? = some a →
    (p :: rest)[i + 1]? = some b →
    ∃ c d, h[a]? = some (.call c) ∧ h[b]? = some (.call d) ∧ c.Children ≠ [] ∧
      c.Children.getLast? = some b ∧
      d.Path = c.Path ++ "." ++ strconv.Itoa (c.Children.length - 1) := by
  intro rest
  induction rest with
  | nil =>
    intro p path _ i a b _ hb
    simp at hb
  | cons q rest ih =>
    intro p path hs i a b ha hb
    obtain ⟨r, cs, ts, h1, h2, h3, _, _, h6⟩ := hs
    cases i with
    | zero =>
      simp only [List.getElem?_cons_zero, Option.some.injEq, zero_add,
        List.getElem?_cons_succ] at ha hb
      subst ha
      subst hb
      obtain ⟨d, k1, k2⟩ := Spine_head rest q _ h6
      refine ⟨r, d, h1, k1, by simp [h3], by simp [h3], ?_⟩
      rw [k2, h2, h3]
      simp
    | succ j =>
      rw [List.getElem?_cons_succ] at ha hb
      exact ih q _ h6 j a b ha hb

theorem Spine_pairwise {h : List anyRecord} : ∀ (rest : List Nat) (p : Nat) (path : String),
    Spine h p path rest → (p :: rest).Pairwise (· < ·) := by
  intro rest
  induction rest with
  | nil =>
    intro p path _
    simp
  | cons q rest ih =>
    intro p path hs
    have hlt := Spine_lt_of_mem (q :: rest) p path hs
    obtain ⟨r, cs, ts, _, _, _, _, _, h6⟩ := hs
    exact List.pairwise_cons.mpr ⟨hlt, ih q _ h6⟩

theorem Inv_nodup {h : List anyRecord} {st : List Nat} (hinv : Inv h st) : st.Nodup := by
  cases st with
  | nil => simp
  | cons p rest =>
    obtain ⟨_, hs⟩ := hinv
    subst p
    exact (Spine_pairwise rest 0 "0" hs).imp (fun hab => Nat.ne_of_lt hab)

/-- C19: in every state reached from a fresh tracer by one `CaptureStart` followed by
callbacks that all complete, the bottom element of the stack, if there is one, is the root
frame at pointer 0 with path "0"; every other stack element is the last child of the stack
element directly below it, and its path is that frame's path, ".", and that frame's child
count minus 1; every frame on the stack is a node of the tree rooted at the root frame; and
a further callback changes the children of no frame but the one on top of the stack. -/
theorem stack_is_spine (keccak256 : Bytes → Hash) (env : IntraBlockState)
    (from_ to_ : Address) (precompile create : Bool) (input : Bytes) (gas : Nat)
    (value : Option U256) (evs : List Event) (t : openchainTracer)
    (hne : ∀ e ∈ evs, e.isStart = false)
    (hr : run (newOpenchainTracer keccak256)
      (.CaptureStart env from_ to_ precompile create input gas value :: evs) = some t) :
    (∀ p : Nat, t.callstack[0]? = some p →
      p = 0 ∧ ∃ r, t.heap[0]? = some (.call r) ∧ r.Path = "0") ∧
    (∀ i p q : Nat, t.callstack[i]? = some p → t.callstack[i + 1]? = some q →
      ∃ c d, t.heap[p]? = some (.call c) ∧ t.heap[q]? = some (.call d) ∧
        c.Children ≠ [] ∧ c.Children.getLast? = some q ∧
        d.Path = c.Path ++ "." ++ strconv.Itoa (c.Children.length - 1)) ∧
    (∃ tree, Layout t.heap tree 0 "0" ∧ tree.size = t.heap.length ∧
      ∀ p ∈ t.callstack, ∃ d ts, t.heap[p]? = some (.call d) ∧
        TraceNode.call d ts ∈ tree.nodes) ∧
    (∀ (e : Event) (t' : openchainTracer), e.isStart = false → step t e = some t' →
      ∀ (p : Nat) (c c' : callRecord), t.heap[p]? = some (.call c) →
        t'.heap[p]? = some (.call c') → c'.Children ≠ c.Children →
        t.callstack.getLast? = some p) := by
  rw [run_cons_some _ (CaptureStart_fresh keccak256 env from_ to_ precompile create input gas
    value)] at hr
  obtain ⟨hok0, hinv0⟩ := rootState_ok keccak256 env from_ to_ precompile create input gas value
  have hok := run_heapOk evs _ t hok0 hr
  have hinv := run_inv evs _ t hok0 hinv0 hne hr
  refine ⟨?_, ?_, ?_, ?_⟩
  · intro p hp
    cases hst : t.callstack with
    | nil => rw [hst] at hp; simp at hp
    | cons a rest =>
      rw [hst] at hinv hp
      obtain ⟨ha, hs⟩ := hinv
      simp only [List.getElem?_cons_zero, Option.some.injEq] at hp
      subst hp
      subst ha
      exact ⟨rfl, Spine_head rest 0 "0" hs⟩
  · intro i p q hp hq
    cases hst : t.callstack with
    | nil => rw [hst] at hp; simp at hp
    | cons a rest =>
      rw [hst] at hinv hp hq
      obtain ⟨_, hs⟩ := hinv
      subst a
      exact Spine_adjacent rest 0 "0" hs i p q hp hq
  · obtain ⟨tree, hl, hsz⟩ := Inv_whole hinv
    refine ⟨tree, hl, hsz, ?_⟩
    intro p hp
    obtain ⟨d, hd⟩ := hok.2 p hp
    obtain ⟨ts, hts⟩ := Layout_call_of_cell tree 0 "0" hl p d (Nat.zero_le _)
      (by have := getElem?_lt_of_eq_some hd; omega) hd
    exact ⟨d, ts, hd, hts⟩
  · intro e t' he hs p c c' hc hc' hch
    obtain ⟨_, _, g3⟩ := Shape_cells (step_shape t t' e hok he hs)
    rcases g3 p _ hc with hm | ⟨c0, c1, hx, hm, _, _, hcases⟩
    · rw [hm] at hc'
      injection hc' with hc'
      injection hc' with hc'
      subst hc'
      exact absurd rfl hch
    · injection hx with hx
      subst hx
      rw [hm] at hc'
      injection hc' with hc'
      injection hc' with hc'
      subst hc'
      rcases hcases with hsame | ⟨_, htop⟩
      · exact absurd hsame hch
      · exact htop

/-- Witness for C19: the sample trace up to the log inside its nested call. -/
theorem stack_is_spine_witness :
    (∀ e ∈ sampleEvents.take 3, e.isStart = false) ∧
    ∃ t, run (newOpenchainTracer sampleHasher)
        (.CaptureStart sampleEnv 1 2 false false [] 10 none :: sampleEvents.take 3) = some t ∧
      t.callstack = [0, 2] ∧
      ∃ c d, t.heap[0]? = some (.call c) ∧ t.heap[2]? = some (.call d) ∧
        c.Children.getLast? = some 2 ∧
        d.Path = c.Path ++ "." ++ strconv.Itoa (c.Children.length - 1) :=
  ⟨by decide, (run (newOpenchainTracer sampleHasher)
      (.CaptureStart sampleEnv 1 2 false false [] 10 none :: sampleEvents.take 3)).getD
        sampleTracer, rfl, rfl, by
    obtain ⟨_, h, _⟩ := stack_is_spine sampleHasher sampleEnv 1 2 false false [] 10 none
      (sampleEvents.take 3)
      ((run (newOpenchainTracer sampleHasher)
        (.CaptureStart sampleEnv 1 2 false false [] 10 none :: sampleEvents.take 3)).getD
          sampleTracer) (by decide) rfl
    obtain ⟨c, d, h1, h2, _, h3, h4⟩ := h 0 0 2 rfl rfl
    exact ⟨c, d, h1, h2, h3, h4⟩⟩

theorem Block_no_end {evs : List Event} (hb : Block evs) : ∀ e ∈ evs, e.isEnd = false := by
  induction hb with
  | nil => intro e he; simp at he
  | step env op scope _ _ ih =>
    intro e he
    rcases List.mem_cons.mp he with he | he
    · subst he; rfl
    · exact ih e he
  | call env op scope env1 typ from_ to_ precompile create input gas value env2 output gasUsed
      err _ _ _ ihi ihr =>
    intro e he
    simp only [List.mem_cons, List.mem_append] at he
    rcases he with he | he | he | he | he
    · subst he; rfl
    · subst he; rfl
    · exact ihi e he
    · subst he; rfl
    · exact ihr e he

theorem prefix_of_append_singleton {α : Type} (a b c : List α) (x : α)
    (h : a ++ b = c ++ [x]) (hb : b ≠ []) : ∃ k, c = a ++ k := by
  rcases List.append_eq_append_iff.mp h with ⟨k, hk, _⟩ | ⟨k, hk, hx⟩
  · exact ⟨k, hk⟩
  · have hlen := congrArg List.length hx
    simp only [List.length_singleton, List.length_append] at hlen
    have hbl : 0 < b.length := List.length_pos.mpr hb
    have hk0 : k = [] := List.length_eq_zero.mp (by omega)
    subst hk0
    exact ⟨[], by simpa using hk.symm⟩

theorem rootState_openUnset (keccak256 : Bytes → Hash) (env : IntraBlockState)
    (from_ to_ : Address) (precompile create : Bool) (input : Bytes) (gas : Nat)
    (value : Option U256) :
    OpenUnset (rootState keccak256 env from_ to_ precompile create input gas value) := by
  intro p hp
  have hp0 : p = 0 := by simpa [rootState] using hp
  subst hp0
  exact ⟨rootRecord env from_ to_ precompile create input gas value, rfl, rfl, rfl, rfl⟩

theorem wellNested_split (keccak256 : Bytes → Hash) (pre suf : List Event)
    (hw : WellNested (pre ++ suf)) (hpre : pre ≠ []) :
    ∃ (e0 : Event) (pre' : List Event) (t0 t tf : openchainTracer),
      pre = e0 :: pre' ∧ step (newOpenchainTracer keccak256) e0 = some t0 ∧
      HeapOk t0.heap t0.callstack ∧ Inv t0.heap t0.callstack ∧ OpenUnset t0 ∧
      run t0 pre' = some t ∧ run (newOpenchainTracer keccak256) pre = some t ∧
      run t suf = some tf ∧ tf.callstack = [0] ∧
      (∀ e ∈ pre' ++ suf, e.isStart = false) ∧
      (suf ≠ [] → ∀ e ∈ pre', e.isEnd = false) := by
  obtain ⟨env, from_, to_, precompile, create, input, gas, value, body, env1, output, gasUsed,
    err, heq, hb⟩ := hw
  cases pre with
  | nil => exact absurd rfl hpre
  | cons e0 pre' =>
    rw [List.cons_append] at heq
    injection heq with he0 hrest
    subst he0
    obtain ⟨t1, c1, tree, _, hp1, _, hrun2, _⟩ := wellNested_run keccak256 env from_ to_
      precompile create input gas value body env1 output gasUsed err hb
    have hs0 := CaptureStart_fresh keccak256 env from_ to_ precompile create input gas value
    obtain ⟨hok0, hinv0⟩ := rootState_ok keccak256 env from_ to_ precompile create input gas value
    rw [run_cons_some _ hs0, ← hrest, run_append] at hrun2
    have hns : ∀ e ∈ pre' ++ suf, e.isStart = false := by
      rw [hrest]
      intro e he
      rcases List.mem_append.mp he with he | he
      · exact Block_no_start hb e he
      · simp only [List.mem_singleton] at he
        subst he; rfl
    cases hrp : run (rootState keccak256 env from_ to_ precompile create input gas value) pre' with
    | none => rw [hrp] at hrun2; simp at hrun2
    | some t =>
      rw [hrp] at hrun2
      simp only [Option.bind] at hrun2
      refine ⟨_, pre', _, t, _, rfl, hs0, hok0, hinv0,
        rootState_openUnset keccak256 env from_ to_ precompile create input gas value, hrp,
        by rw [run_cons_some _ hs0]; exact hrp, hrun2, ?_, hns, ?_⟩
      · have := hp1.1
        simpa [finishedState, rootState] using this
      · intro hsuf e he
        obtain ⟨k, hk⟩ := prefix_of_append_singleton pre' suf body _ hrest hsuf
        exact Block_no_end hb e (by rw [hk]; exact List.mem_append_left _ he)

/-- C18: for every non-empty prefix of a well-nested event sequence, run on a fresh tracer,
every callback completes (no access to the top or the bottom of the frame stack is out of
bounds), and in the state reached the stack has depth at least 1, its bottom element is the
root frame at pointer 0 with path "0", and its top element is a frame; after the whole
sequence the stack is exactly the root frame. -/
theorem stack_never_underflows (keccak256 : Bytes → Hash) (pre suf : List Event)
    (hw : WellNested (pre ++ suf)) (hpre : pre ≠ []) :
    ∃ t top c r, run (newOpenchainTracer keccak256) pre = some t ∧
      1 ≤ t.callstack.length ∧ t.callstack[0]? = some 0 ∧
      t.heap[0]? = some (.call r) ∧ r.Path = "0" ∧
      t.callstack.getLast? = some top ∧ t.heap[top]? = some (.call c) ∧
      (suf = [] → t.callstack = [0] ∧ t.callstack.length = 1) := by
  obtain ⟨e0, pre', t0, t, tf, _, _, hok0, hinv0, _, hrp, hrun, hrs, htf, hns, _⟩ :=
    wellNested_split keccak256 pre suf hw hpre
  have hok := run_heapOk pre' t0 t hok0 hrp
  have hinv := run_inv pre' t0 t hok0 hinv0
    (fun e he => hns e (List.mem_append_left _ he)) hrp
  have hne : t.callstack ≠ [] := by
    intro hnil
    have := run_nil_stack suf t tf hnil (fun e he => hns e (List.mem_append_right _ he)) hrs
    rw [this] at htf
    exact absurd htf (by simp)
  obtain ⟨top, htop⟩ := getLast?_of_ne_nil hne
  obtain ⟨c, hc⟩ := heapOk_top hok htop
  cases hst : t.callstack with
  | nil => exact absurd hst hne
  | cons a rest =>
    rw [hst] at hinv
    obtain ⟨ha, hs⟩ := hinv
    subst ha
    obtain ⟨r, hr1, hr2⟩ := Spine_head rest 0 "0" hs
    refine ⟨t, top, c, r, hrun, by rw [hst]; simp, by rw [hst]; simp, hr1, hr2, htop, hc, ?_⟩
    intro hsuf
    subst hsuf
    simp only [run] at hrs
    injection hrs with hrs
    subst hrs
    rw [htf]
    exact ⟨rfl, rfl⟩

/-- Witness for C18: the prefix of the sample trace that ends inside its nested call. -/
theorem stack_never_underflows_witness :
    WellNested ((sampleStart :: sampleEvents.take 4) ++ sampleEvents.drop 4) ∧
    sampleStart :: sampleEvents.take 4 ≠ [] ∧
    ∃ t, run (newOpenchainTracer sampleHasher) (sampleStart :: sampleEvents.take 4) = some t ∧
      1 ≤ t.callstack.length ∧ t.callstack[0]? = some 0 :=
  ⟨sampleTrace_wellNested, by simp, by
    obtain ⟨t, _, _, _, h1, h2, h3, _⟩ := stack_never_underflows sampleHasher
      (sampleStart :: sampleEvents.take 4) (sampleEvents.drop 4) sampleTrace_wellNested (by simp)
    exact ⟨t, h1, h2, h3⟩⟩

theorem not_mem_dropLast_of_nodup {l : List Nat} {x : Nat} (hnd : l.Nodup)
    (h : l.getLast? = some x) : x ∉ l.dropLast := by
  have h1 := (length_of_getLast? h).2.1
  have hnd' : (l.dropLast ++ [x]).Nodup := by rw [← h1]; exact hnd
  intro hx
  exact (List.nodup_append.mp hnd').2.2 hx (List.mem_singleton_self x)

theorem Shape_openUnset {t t' : openchainTracer} {e : Event} (hs : Shape t e t')
    (hnd : t.callstack.Nodup) (hend : e.isEnd = false) (ho : OpenUnset t) : OpenUnset t' := by
  have happ : ∀ (top : Nat) (c : callRecord) (rec : anyRecord), t.heap[top]? = some (.call c) →
      ∀ p ∈ t.callstack, ∃ d, (appendChild t.heap top c rec)[p]? = some (.call d) ∧
        d.GasUsed = 0 ∧ d.Output = [] ∧ d.Status = 0 := by
    intro top c rec h2 p hp
    obtain ⟨d, hd, k1, k2, k3⟩ := ho p hp
    by_cases hpt : p = top
    · subst hpt
      rw [h2] at hd
      injection hd with hd
      injection hd with hd
      subst hd
      exact ⟨_, appendChild_get_top rec h2, k1, k2, k3⟩
    · exact ⟨d, by
        rw [appendChild_get_other c rec hpt (getElem?_lt_of_eq_some hd)]; exact hd, k1, k2, k3⟩
  cases hs with
  | fault => exact ho
  | stop => exact ho
  | quiet env op scope t' h1 h2 h3 h4 h5 =>
    intro p hp
    rw [h4] at hp
    rw [h3]
    exact ho p hp
  | leaf env op scope top c rec h1 h2 h3 =>
    intro p hp
    exact happ top c rec h2 p hp
  | call env op scope top c h1 h2 h3 =>
    intro p hp
    simp only [List.mem_append, List.mem_singleton] at hp
    rcases hp with hp | hp
    · exact happ top c _ h2 p hp
    · subst hp
      exact ⟨{ callRecord.empty with Path := c.Path ++ "." ++ strconv.Itoa c.Children.length },
        appendChild_get_new t.heap top c (.call callRecord.empty), rfl, rfl, rfl⟩
  | enter env typ from_ to_ precompile create input gas value top c h1 h2 =>
    intro p hp
    obtain ⟨d, hd, k1, k2, k3⟩ := ho p hp
    by_cases hpt : p = top
    · subst hpt
      rw [h2] at hd
      injection hd with hd
      injection hd with hd
      subst hd
      exact ⟨entered c env typ from_ to_ precompile input gas value,
        List.getElem?_set_self (getElem?_lt_of_eq_some h2), k1, k2, k3⟩
    · exact ⟨d, by
        show (t.heap.set top _)[p]? = _
        rw [List.getElem?_set_ne (Ne.symm hpt)]; exact hd, k1, k2, k3⟩
  | exit env output gasUsed err top c h1 h2 =>
    intro p hp
    have hp1 : p ∈ t.callstack.dropLast := hp
    have hpt : p ≠ top := by
      intro hpt
      subst hpt
      exact not_mem_dropLast_of_nodup hnd h1 hp1
    obtain ⟨d, hd, k1, k2, k3⟩ := ho p (List.mem_of_mem_dropLast hp1)
    exact ⟨d, by
      show (t.heap.set top _)[p]? = _
      rw [List.getElem?_set_ne (Ne.symm hpt)]; exact hd, k1, k2, k3⟩
  | finish env output gasUsed err p c h1 h2 => simp [Event.isEnd] at hend

theorem run_openUnset (evs : List Event) : ∀ (t t' : openchainTracer),
    HeapOk t.heap t.callstack → Inv t.heap t.callstack → OpenUnset t →
    (∀ e ∈ evs, e.isStart = false) → (∀ e ∈ evs, e.isEnd = false) →
    run t evs = some t' → OpenUnset t' := by
  induction evs with
  | nil =>
    intro t t' _ _ ho _ _ h
    simp only [run] at h
    injection h with h
    subst h
    exact ho
  | cons e es ih =>
    intro t t' hok hinv ho hne hend h
    simp only [run] at h
    cases hs : step t e with
    | none => simp [hs] at h
    | some t1 =>
      simp only [hs] at h
      have hne0 := hne e (List.mem_cons_self _ _)
      exact ih t1 t' (step_heapOk t t1 e hok hs) (step_inv t t1 e hok hinv hne0 hs)
        (Shape_openUnset (step_shape t t1 e hok hne0 hs) (Inv_nodup hinv)
          (hend e (List.mem_cons_self _ _)) ho)
        (fun x hx => hne x (List.mem_cons_of_mem _ hx))
        (fun x hx => hend x (List.mem_cons_of_mem _ hx)) h

theorem step_of_run_single {t t' : openchainTracer} {e : Event} (h : run t [e] = some t') :
    step t e = some t' := by
  simp only [run] at h
  cases hs : step t e with
  | none => simp [hs] at h
  | some t1 =>
    simp only [hs] at h
    rw [h]

theorem Shape_keeps_open {t t' : openchainTracer} {e : Event} (hs : Shape t e t')
    (hx : e.isExit = false) : ∀ p ∈ t.callstack, p ∈ t'.callstack := by
  cases hs with
  | fault => exact fun p hp => hp
  | stop => exact fun p hp => hp
  | quiet env op scope t' h1 h2 h3 h4 h5 => exact fun p hp => by rw [h4]; exact hp
  | leaf env op scope top c rec h1 h2 h3 => exact fun p hp => hp
  | call env op scope top c h1 h2 h3 => exact fun p hp => List.mem_append_left _ hp
  | enter env typ from_ to_ precompile create input gas value top c h1 h2 => exact fun p hp => hp
  | exit env output gasUsed err top c h1 h2 => simp [Event.isExit] at hx
  | finish env output gasUsed err p c h1 h2 => exact fun p hp => hp

/-- Counterexample to C16 as stated: in the sample trace the root frame already carries a
code hash (102, the code hash of its callee) right after `CaptureStart`, while it is open and
long before its completion event `CaptureEnd`; the completion leaves that code hash as it is. -/
theorem codehash_set_before_completion :
    WellNested ([sampleStart] ++ sampleEvents) ∧
    ∃ t c cf, run (newOpenchainTracer sampleHasher) [sampleStart] = some t ∧
      t.callstack = [0] ∧ t.heap[0]? = some (.call c) ∧
      c.GasUsed = 0 ∧ c.Output = [] ∧ c.Status = 0 ∧ c.Codehash = 102 ∧ c.Codehash ≠ 0 ∧
      run t sampleEvents = some sampleFinal ∧
      sampleFinal.heap[0]? = some (.call cf) ∧ cf.Codehash = 102 ∧ cf.Status = 1 :=
  ⟨sampleTrace_wellNested, sampleTracer, rootRecord sampleEnv 1 2 false false [] 10 none,
    finished { rootRecord sampleEnv 1 2 false false [] 10 none with Children := [1, 2] }
      sampleEnv [] 3 none,
    rfl, rfl, rfl, rfl, rfl, rfl, rfl, by decide, rfl, rfl, rfl, rfl⟩

/-- C16 (amended): in a well-nested event sequence run on a fresh tracer, split as a non-empty
prefix, a middle part and a rest, every callback completes; unless the prefix is the whole
sequence, every frame that is open after the prefix (on the stack) has gas used 0, no output
and status 0; a record that is no longer on the stack is never assigned again and never
returns to the stack; a frame leaves the stack only by `CaptureExit`, which assigns it the
given gas used and output and the status, and the root is assigned them by `CaptureEnd`; the
code hash is not among the fields left unset: `CaptureStart` and `CaptureEnter` assign it, and
the completion assigns it again only for a create frame. -/
theorem two_phase_lifecycle (keccak256 : Bytes → Hash) (pre mid suf : List Event)
    (hw : WellNested (pre ++ (mid ++ suf))) (hpre : pre ≠ []) :
    ∃ t t2, run (newOpenchainTracer keccak256) pre = some t ∧ run t mid = some t2 ∧
      (mid ++ suf ≠ [] → ∀ p ∈ t.callstack, ∃ c, t.heap[p]? = some (.call c) ∧
        c.GasUsed = 0 ∧ c.Output = [] ∧ c.Status = 0) ∧
      (∀ p : Nat, p < t.heap.length → p ∉ t.callstack →
        t2.heap[p]? = t.heap[p]? ∧ p ∉ t2.callstack) ∧
      (∀ (env : IntraBlockState) (output : Bytes) (gasUsed : Nat) (err : Option String),
        mid = [.CaptureExit env output gasUsed err] →
        ∃ top c c', t.callstack.getLast? = some top ∧ t.heap[top]? = some (.call c) ∧
          t2.heap[top]? = some (.call c') ∧ t2.callstack = t.callstack.dropLast ∧
          top ∉ t2.callstack ∧
          c'.GasUsed = gasUsed ∧ c'.Output = output ∧
          c'.Status = (if err.isSome then 0 else 1) ∧
          c'.Codehash = (if c.create then env.GetCodeHash c.To else c.Codehash)) ∧
      (∀ (env : IntraBlockState) (output : Bytes) (gasUsed : Nat) (err : Option String),
        mid = [.CaptureEnd env output gasUsed err] →
        ∃ c c', t.callstack[0]? = some 0 ∧ t.heap[0]? = some (.call c) ∧
          t2.heap[0]? = some (.call c') ∧ t2.callstack = t.callstack ∧
          c'.GasUsed = gasUsed ∧ c'.Output = output ∧
          c'.Status = (if err.isSome then 0 else 1) ∧
          c'.Codehash = (if c.create then env.GetCodeHash c.To else c.Codehash)) ∧
      (∀ (env : IntraBlockState) (typ : OpCode) (from_ to_ : Address)
        (precompile create : Bool) (input : Bytes) (gas : Nat) (value : Option U256),
        mid = [.CaptureEnter env typ from_ to_ precompile create input gas value] →
        ∃ top c c', t.callstack.getLast? = some top ∧ t.heap[top]? = some (.call c) ∧
          t2.heap[top]? = some (.call c') ∧ t2.callstack = t.callstack ∧
          c'.Codehash = env.GetCodeHash to_ ∧
          c'.GasUsed = c.GasUsed ∧ c'.Output = c.Output ∧ c'.Status = c.Status) ∧
      (∀ e : Event, mid = [e] → e.isExit = false → ∀ p ∈ t.callstack, p ∈ t2.callstack) ∧
      (∀ (env : IntraBlockState) (from_ to_ : Address) (precompile create : Bool)
        (input : Bytes) (gas : Nat) (value : Option U256),
        pre = [.CaptureStart env from_ to_ precompile create input gas value] →
        ∃ c, t.callstack = [0] ∧ t.heap[0]? = some (.call c) ∧
          c.Codehash = env.GetCodeHash to_ ∧
          c.GasUsed = 0 ∧ c.Output = [] ∧ c.Status = 0) := by
  obtain ⟨e0, pre', t0, t, tf, hpe, hs0, hok0, hinv0, hopen0, hrp, hrun, hrs, _, hns, hend⟩ :=
    wellNested_split keccak256 pre (mid ++ suf) hw hpre
  have hok := run_heapOk pre' t0 t hok0 hrp
  have hinv := run_inv pre' t0 t hok0 hinv0
    (fun e he => hns e (List.mem_append_left _ he)) hrp
  rw [run_append] at hrs
  cases hrm : run t mid with
  | none => rw [hrm] at hrs; simp at hrs
  | some t2 =>
    have hnm : ∀ e ∈ mid, e.isStart = false := fun e he =>
      hns e (List.mem_append_right _ (List.mem_append_left _ he))
    refine ⟨t, t2, hrun, hrm, ?_, (run_frozen mid t t2 hok hnm hrm).2, ?_, ?_, ?_, ?_, ?_⟩
    · intro hne
      exact run_openUnset pre' t0 t hok0 hinv0 hopen0
        (fun e he => hns e (List.mem_append_left _ he)) (hend hne) hrp
    · intro env output gasUsed err hmid
      subst hmid
      have hshape := step_shape t t2 (.CaptureExit env output gasUsed err) hok rfl
        (step_of_run_single hrm)
      cases hshape with
      | exit _ _ _ _ top c h1 h2 =>
        exact ⟨top, c, finished c env output gasUsed err, h1, h2,
          List.getElem?_set_self (getElem?_lt_of_eq_some h2), rfl,
          not_mem_dropLast_of_nodup (Inv_nodup hinv) h1, rfl, rfl, rfl, rfl⟩
    · intro env output gasUsed err hmid
      subst hmid
      have hshape := step_shape t t2 (.CaptureEnd env output gasUsed err) hok rfl
        (step_of_run_single hrm)
      cases hshape with
      | finish _ _ _ _ p c h1 h2 =>
        have hp0 : p = 0 := by
          cases hst : t.callstack with
          | nil => rw [hst] at h1; simp at h1
          | cons a rest =>
            rw [hst] at hinv h1
            simp only [List.getElem?_cons_zero, Option.some.injEq] at h1
            rw [← h1]
            exact hinv.1
        subst hp0
        exact ⟨c, finished c env output gasUsed err, h1, h2,
          List.getElem?_set_self (getElem?_lt_of_eq_some h2), rfl, rfl, rfl, rfl, rfl⟩
    · intro env typ from_ to_ precompile create input gas value hmid
      subst hmid
      have hshape := step_shape t t2
        (.CaptureEnter env typ from_ to_ precompile create input gas value) hok rfl
        (step_of_run_single hrm)
      cases hshape with
      | enter _ _ _ _ _ _ _ _ _ top c h1 h2 =>
        exact ⟨top, c, entered c env typ from_ to_ precompile input gas value, h1, h2,
          List.getElem?_set_self (getElem?_lt_of_eq_some h2), rfl, rfl, rfl, rfl, rfl⟩
    · intro e hmid hx
      subst hmid
      exact Shape_keeps_open
        (step_shape t t2 e hok (hnm e (List.mem_singleton_self e)) (step_of_run_single hrm)) hx
    · intro env from_ to_ precompile create input gas value hp
      subst hp
      rw [run_cons_some _ (CaptureStart_fresh keccak256 env from_ to_ precompile create input gas
        value)] at hrun
      simp only [run] at hrun
      injection hrun with hrun
      subst hrun
      exact ⟨rootRecord env from_ to_ precompile create input gas value, rfl, rfl, rfl, rfl, rfl,
        rfl⟩

/-- Witness for C16 (amended): the sample trace split before the `CaptureExit` of its nested
call; the nested frame is open with its completion fields unset, and the exit assigns them. -/
theorem two_phase_lifecycle_witness :
    WellNested ((sampleStart :: sampleEvents.take 4) ++
      ((sampleEvents.drop 4).take 1 ++ sampleEvents.drop 5)) ∧
    sampleStart :: sampleEvents.take 4 ≠ [] ∧
    ∃ t t2, run (newOpenchainTracer sampleHasher) (sampleStart :: sampleEvents.take 4) = some t ∧
      run t ((sampleEvents.drop 4).take 1) = some t2 ∧
      (∀ p ∈ t.callstack, ∃ c, t.heap[p]? = some (.call c) ∧
        c.GasUsed = 0 ∧ c.Output = [] ∧ c.Status = 0) ∧
      ∃ top c c', t.callstack.getLast? = some top ∧ t.heap[top]? = some (.call c) ∧
        t2.heap[top]? = some (.call c') ∧ c'.GasUsed = 3 ∧ c'.Status = 0 :=
  ⟨sampleTrace_wellNested, by simp, by
    obtain ⟨t, t2, h1, h2, h3, _, h5, _⟩ := two_phase_lifecycle sampleHasher
      (sampleStart :: sampleEvents.take 4) ((sampleEvents.drop 4).take 1) (sampleEvents.drop 5)
      sampleTrace_wellNested (by simp)
    obtain ⟨top, c, c', k1, k2, k3, _, _, k6, _, k8, _⟩ :=
      h5 sampleEnv [] 3 (some "reverted") rfl
    exact ⟨t, t2, h1, h2, h3 (by simp [sampleEvents]), top, c, c', k1, k2, k3, k6, k8⟩⟩

theorem step_completes (t : openchainTracer) (e : Event) (hok : HeapOk t.heap t.callstack)
    (hne : e.isStart = false) (hu : e.usesStack = true → t.callstack ≠ []) :
    ∃ t', step t e = some t' := by
  cases e with
  | CaptureStart env from_ to_ precompile create input gas value => simp [Event.isStart] at hne
  | CaptureFault => exact ⟨t, rfl⟩
  | Stop => exact ⟨t, rfl⟩
  | CaptureEnd env output gasUsed err =>
    have hst := hu rfl
    obtain ⟨p, hp⟩ : ∃ p, t.callstack[0]? = some p := by
      cases hcs : t.callstack with
      | nil => exact absurd hcs hst
      | cons a l => exact ⟨a, by simp⟩
    obtain ⟨c, hc⟩ := hok.2 p (List.getElem?_mem hp)
    exact ⟨_, CaptureEnd_step t p c env output gasUsed err hp hc⟩
  | CaptureState env op scope =>
    cases hl : leafRecord env op scope with
    | some rec =>
      have hap : appends op = true := by
        have h1 := leafRecord_isSome env op scope
        rw [hl] at h1
        simp only [Option.isSome_some] at h1
        simp only [appends, ← h1, Bool.true_or]
      obtain ⟨top, htop⟩ := getLast?_of_ne_nil (hu hap)
      obtain ⟨c, hc⟩ := heapOk_top hok htop
      exact ⟨_, leaf_step t top c env op scope rec htop hc hl⟩
    | none =>
      cases hcl : isCallLike op with
      | false =>
        obtain ⟨t1, g1, _⟩ := CaptureState_quiet t env op scope hl hcl
        exact ⟨t1, g1⟩
      | true =>
        have hap : appends op = true := by simp [appends, hcl]
        obtain ⟨top, htop⟩ := getLast?_of_ne_nil (hu hap)
        obtain ⟨c, hc⟩ := heapOk_top hok htop
        exact ⟨_, call_step t top c env op scope htop hc hcl⟩
  | CaptureEnter env typ from_ to_ precompile create input gas value =>
    obtain ⟨top, htop⟩ := getLast?_of_ne_nil (hu rfl)
    obtain ⟨c, hc⟩ := heapOk_top hok htop
    exact ⟨_, CaptureEnter_eq t top c env typ from_ to_ precompile create input gas value htop hc⟩
  | CaptureExit env output gasUsed err =>
    obtain ⟨top, htop⟩ := getLast?_of_ne_nil (hu rfl)
    obtain ⟨c, hc⟩ := heapOk_top hok htop
    exact ⟨_, CaptureExit_step t top c env output gasUsed err htop hc⟩

theorem neverHitsEmpty_cons (t t1 : openchainTracer) (e : Event) (es : List Event)
    (h : neverHitsEmpty t (e :: es) = true) :
    (e.usesStack = true → t.callstack ≠ []) ∧
    (step t e = some t1 → neverHitsEmpty t1 es = true) := by
  simp only [neverHitsEmpty, Bool.and_eq_true, Bool.or_eq_true, Bool.not_eq_true',
    List.isEmpty_eq_false] at h
  refine ⟨?_, ?_⟩
  · intro hu
    rcases h.1 with h1 | h1
    · rw [hu] at h1; exact absurd h1 (by simp)
    · exact h1
  · intro hs
    have h2 := h.2
    rw [hs] at h2
    exact h2

theorem run_completes (evs : List Event) : ∀ (t : openchainTracer),
    HeapOk t.heap t.callstack → (∀ e ∈ evs, e.isStart = false) →
    neverHitsEmpty t evs = true → ∃ t', run t evs = some t' := by
  induction evs with
  | nil => intro t _ _ _; exact ⟨t, rfl⟩
  | cons e es ih =>
    intro t hok hne hh
    have hne0 := hne e (List.mem_cons_self _ _)
    obtain ⟨t1, hs⟩ := step_completes t e hok hne0 (neverHitsEmpty_cons t t e es hh).1
    obtain ⟨t', hr⟩ := ih t1 (step_heapOk t t1 e hok hs)
      (fun x hx => hne x (List.mem_cons_of_mem _ hx)) ((neverHitsEmpty_cons t t1 e es hh).2 hs)
    exact ⟨t', by rw [run_cons_some _ hs]; exact hr⟩

/-- C20: after one `CaptureStart` on a fresh tracer followed by callbacks none of which hits
an empty frame stack, every callback completes, and the depth of the frame stack is 1 plus
the number of step events on a call-like opcode minus the number of `CaptureExit` events,
whatever the number of `CaptureEnter` and `CaptureEnd` events; `GetResult` succeeds exactly
when the two counts are equal and returns the error "incorrect number of top-level calls"
otherwise.  On the state reached, while the stack is not empty, a call-like step event
completes and pushes one frame, `CaptureExit` completes and pops one frame, and
`CaptureEnter` and `CaptureEnd` complete and leave the stack as it is.  When a call-like
step event is followed by leaf step events only (no `CaptureEnter`, no `CaptureExit`), the
placeholder stays on top of the stack with every field but its path unset, the leaf records
are its children, and `GetResult` returns that error. -/
theorem depth_counts_call_steps (keccak256 : Bytes → Hash) (env : IntraBlockState)
    (from_ to_ : Address) (precompile create : Bool) (input : Bytes) (gas : Nat)
    (value : Option U256) (evs : List Event)
    (hne : ∀ e ∈ evs, e.isStart = false)
    (hhit : neverHitsEmpty (newOpenchainTracer keccak256)
      (.CaptureStart env from_ to_ precompile create input gas value :: evs) = true) :
    ∃ t, run (newOpenchainTracer keccak256)
        (.CaptureStart env from_ to_ precompile create input gas value :: evs) = some t ∧
      t.callstack.length + countExits evs = 1 + countCallSteps evs ∧
      ((∃ r, GetResult t = .ok r) ↔ countCallSteps evs = countExits evs) ∧
      (countCallSteps evs ≠ countExits evs →
        GetResult t = .error "incorrect number of top-level calls") ∧
      (t.callstack ≠ [] →
        (∀ (env0 : IntraBlockState) (op : OpCode) (scope : ScopeContext),
          isCallLike op = true →
          ∃ t', step t (.CaptureState env0 op scope) = some t' ∧
            t'.callstack.length = t.callstack.length + 1) ∧
        (∀ (env0 : IntraBlockState) (output : Bytes) (gasUsed : Nat) (err : Option String),
          ∃ t', step t (.CaptureExit env0 output gasUsed err) = some t' ∧
            t'.callstack.length + 1 = t.callstack.length ∧
            t'.callstack = t.callstack.dropLast) ∧
        (∀ (env0 : IntraBlockState) (typ : OpCode) (from0 to0 : Address)
          (precompile0 create0 : Bool) (input0 : Bytes) (gas0 : Nat) (value0 : Option U256),
          ∃ t', step t (.CaptureEnter env0 typ from0 to0 precompile0 create0 input0 gas0
              value0) = some t' ∧ t'.callstack = t.callstack) ∧
        (∀ (env0 : IntraBlockState) (output : Bytes) (gasUsed : Nat) (err : Option String),
          ∃ t', step t (.CaptureEnd env0 output gasUsed err) = some t' ∧
            t'.callstack = t.callstack)) ∧
      (∀ (env0 : IntraBlockState) (op : OpCode) (scope : ScopeContext)
        (steps : List (IntraBlockState × OpCode × ScopeContext)),
        isCallLike op = true → (∀ s ∈ steps, (leafRecord s.1 s.2.1 s.2.2).isSome) →
        t.callstack ≠ [] →
        ∃ t' top c d, run t (.CaptureState env0 op scope :: stepEvents steps) = some t' ∧
          t.callstack.getLast? = some top ∧ t.heap[top]? = some (.call c) ∧
          t'.callstack = t.callstack ++ [t.heap.length] ∧
          t'.callstack.getLast? = some t.heap.length ∧
          t'.heap[t.heap.length]? = some (.call d) ∧
          d = { callRecord.empty with
                Path := c.Path ++ "." ++ strconv.Itoa c.Children.length,
                Children := (List.range steps.length).map (t.heap.length + 1 + ·) } ∧
          d.Children.length = steps.length ∧
          GetResult t' = .error "incorrect number of top-level calls") := by
  have hs0 := CaptureStart_fresh keccak256 env from_ to_ precompile create input gas value
  have hok0 := (rootState_ok keccak256 env from_ to_ precompile create input gas value).1
  have hh := (neverHitsEmpty_cons _
    (rootState keccak256 env from_ to_ precompile create input gas value) _ evs hhit).2 hs0
  obtain ⟨t, hr⟩ := run_completes evs _ hok0 hne hh
  have hok := run_heapOk evs _ t hok0 hr
  have hd := run_depth evs _ t hok0 hne hr
  have hd1 : t.callstack.length + countExits evs = 1 + countCallSteps evs := by
    simpa [rootState] using hd
  refine ⟨t, by rw [run_cons_some _ hs0]; exact hr, hd1, ?_, ?_, ?_, ?_⟩
  · rw [GetResult_ok_iff_depth t hok]
    omega
  · intro hc
    exact GetResult_error_of_depth t (by omega)
  · intro hst
    obtain ⟨top, htop⟩ := getLast?_of_ne_nil hst
    obtain ⟨c, hc⟩ := heapOk_top hok htop
    refine ⟨?_, ?_, ?_, ?_⟩
    · intro env0 op scope hcl
      exact ⟨_, call_step t top c env0 op scope htop hc hcl, by simp⟩
    · intro env0 output gasUsed err
      exact ⟨_, CaptureExit_step t top c env0 output gasUsed err htop hc,
        (length_of_getLast? htop).1, rfl⟩
    · intro env0 typ from0 to0 precompile0 create0 input0 gas0 value0
      exact ⟨_, CaptureEnter_eq t top c env0 typ from0 to0 precompile0 create0 input0 gas0
        value0 htop hc, rfl⟩
    · intro env0 output gasUsed err
      obtain ⟨p, hp⟩ : ∃ p, t.callstack[0]? = some p := by
        cases hcs : t.callstack with
        | nil => exact absurd hcs hst
        | cons a l => exact ⟨a, by simp⟩
      obtain ⟨c0, hc0⟩ := hok.2 p (List.getElem?_mem hp)
      exact ⟨_, CaptureEnd_step t p c0 env0 output gasUsed err hp hc0, rfl⟩
  · intro env0 op scope steps hcl hleaf hst
    obtain ⟨top, htop⟩ := getLast?_of_ne_nil hst
    obtain ⟨c, hc⟩ := heapOk_top hok htop
    have hs1 := call_step t top c env0 op scope htop hc hcl
    obtain ⟨t', c', k1, k2, _, _, _, k6, k7, _⟩ := leaf_steps_run steps
      { t with
        heap := appendChild t.heap top c (.call callRecord.empty),
        callstack := t.callstack ++ [t.heap.length] }
      t.heap.length
      { callRecord.empty with Path := c.Path ++ "." ++ strconv.Itoa c.Children.length }
      (by simp) (appendChild_get_new t.heap top c (.call callRecord.empty)) hleaf
    have hlen : (t.callstack ++ [t.heap.length]).length ≠ 1 := by
      have := (length_of_getLast? htop).1
      simp only [List.length_append, List.length_singleton]
      omega
    refine ⟨t', top, c, c', ?_, htop, hc, k2, by rw [k2]; simp, k6, ?_, ?_, ?_⟩
    · rw [run_cons_some _ hs1]
      exact k1
    · rw [k7]
      simp only [callRecord.empty, appendChild_length, List.nil_append]
    · rw [k7]
      simp [callRecord.empty]
    · exact GetResult_error_of_depth t' (by rw [k2]; exact hlen)

/-- Witness for C20: the sample trace up to the `CaptureExit` of its nested call (one call-like
step, one exit, depth 1), then a further `CaptureExit` that pops the root, and an abandoned
`CALL` step followed by a storage read. -/
theorem depth_counts_call_steps_witness :
    (∀ e ∈ sampleEvents.take 5, e.isStart = false) ∧
    neverHitsEmpty (newOpenchainTracer sampleHasher)
      (.CaptureStart sampleEnv 1 2 false false [] 10 none :: sampleEvents.take 5) = true ∧
    countCallSteps (sampleEvents.take 5) = 1 ∧ countExits (sampleEvents.take 5) = 1 ∧
    ∃ t, run (newOpenchainTracer sampleHasher)
        (.CaptureStart sampleEnv 1 2 false false [] 10 none :: sampleEvents.take 5) = some t ∧
      t.callstack.length = 1 ∧ (∃ r, GetResult t = .ok r) ∧
      (∃ t', step t (.CaptureExit sampleEnv [] 0 none) = some t' ∧ t'.callstack.length = 0) ∧
      ∃ t', run t (.CaptureState sampleEnv vm.CALL sampleScope ::
          stepEvents [(sampleEnv, vm.SLOAD, sampleScope)]) = some t' ∧
        t'.callstack.length = 2 ∧
        GetResult t' = .error "incorrect number of top-level calls" :=
  ⟨by decide, rfl, rfl, rfl, by
    obtain ⟨t, h1, h2, h3, _, h5, h6⟩ := depth_counts_call_steps sampleHasher sampleEnv 1 2
      false false [] 10 none (sampleEvents.take 5) (by decide) rfl
    have hc1 : countCallSteps (sampleEvents.take 5) = 1 := rfl
    have hc2 : countExits (sampleEvents.take 5) = 1 := rfl
    have hlen : t.callstack.length = 1 := by omega
    have hst : t.callstack ≠ [] := by
      intro hnil
      rw [hnil] at hlen
      exact absurd hlen (by simp)
    obtain ⟨t1, k1, k2, _⟩ := (h5 hst).2.1 sampleEnv [] 0 none
    obtain ⟨t', top, c, d, m1, _, _, m4, _, _, _, _, m9⟩ := h6 sampleEnv vm.CALL sampleScope
      [(sampleEnv, vm.SLOAD, sampleScope)] rfl (by decide) hst
    refine ⟨t, h1, hlen, h3.mpr (by rw [hc1, hc2]), ⟨t1, k1, by omega⟩, t', m1, ?_, m9⟩
    rw [m4]
    simp [hlen]⟩

end Openchain
